import Mathlib

/-!
Shallow embedding of the deduplication and identity-resolution utilities of the
Congress-Stock-Trading-Website repository:
  src/db/dbcleanup.py, src/db/enhanced_asset_cleanup.py,
  src/db/merge_databases.py, src/db/merge_members_interactive.py.

Python strings are modelled as lists of characters.  The scripts only use
the concrete regular expressions written in the source; each of those is
implemented directly as a list function with the exact leftmost/greedy
semantics of the Python re module on the relevant patterns.  Score
arithmetic that Python performs on floats of the form n - id * 0.001 is
modelled exactly as the integer n * 1000 - id (same order on all values
the comparisons can meet, since the float rounding error is far below the
minimal nonzero difference of distinct scores at the magnitudes involved).
-/

namespace CongressTrades

/-- ASCII whitespace characters recognised by Python str.strip and by the
regex whitespace class on the ASCII inputs this data model carries. -/
def isSpaceChar (c : Char) : Bool :=
  c = ' ' || c = '\t' || c = '\n' || c = '\r' || c = Char.ofNat 11 || c = Char.ofNat 12

/-- Python str.strip: drop leading and trailing whitespace. -/
def pyStrip (s : List Char) : List Char :=
  ((s.dropWhile isSpaceChar).reverse.dropWhile isSpaceChar).reverse

/-- Python str.lower on the ASCII alphabet. -/
def pyLower (s : List Char) : List Char := s.map Char.toLower

/-- Python str.upper on the ASCII alphabet. -/
def pyUpper (s : List Char) : List Char := s.map Char.toUpper

def isDigitChar (c : Char) : Bool := 48 ≤ c.toNat && c.toNat ≤ 57

def isUpperAZ (c : Char) : Bool := 65 ≤ c.toNat && c.toNat ≤ 90

def isLowerAZ (c : Char) : Bool := 97 ≤ c.toNat && c.toNat ≤ 122

/-- Regex word character, as used by the word-boundary assertions. -/
def isWordChar (c : Char) : Bool :=
  isUpperAZ c || isLowerAZ c || isDigitChar c || c = '_'

/-- Drop the last n characters. -/
def dropTail (s : List Char) (n : Nat) : List Char := s.take (s.length - n)

/-- Does s end with the segment w. -/
def endsWithSeg (s w : List Char) : Bool := s.reverse.take w.length == w.reverse

/-- Does s start with the segment w. -/
def startsWithSeg (s w : List Char) : Bool := s.take w.length == w

/-- Does s contain w as a contiguous segment (Python substring containment). -/
def containsSeg (s w : List Char) : Bool :=
  match s with
  | [] => w == []
  | _ :: rest => startsWithSeg s w || containsSeg rest w

/-- Python str.split with a one-character separator. -/
def splitOnChar (sep : Char) : List Char → List (List Char)
  | [] => [[]]
  | c :: rest =>
    let r := splitOnChar sep rest
    if c = sep then [] :: r
    else (c :: r.headD []) :: r.tail

/-- Python str.split with no argument: split on whitespace runs, no empties. -/
def pySplitWsGo : List Char → List Char → List (List Char)
  | cur, [] => if cur.isEmpty then [] else [cur.reverse]
  | cur, c :: rest =>
    if isSpaceChar c then
      if cur.isEmpty then pySplitWsGo [] rest
      else cur.reverse :: pySplitWsGo [] rest
    else pySplitWsGo (c :: cur) rest

def pySplitWs (s : List Char) : List (List Char) := pySplitWsGo [] s

/-! ### End-anchored company-name regexes

Each corporate-form pattern in the source has the shape
ws+ atom (ws+ atom)* optional-s optional-dot, anchored at the end of the
string, where every atom is a literal word or the single-letter class of
the class-X pattern.  They are matched here by stripping from the right. -/

inductive Atom where
  | lit (w : List Char)
  | lowerChar
deriving DecidableEq

/-- One alternative of a corporate-suffix pattern: its atom sequence and
whether the last atom carries an optional trailing s. -/
structure Alt where
  atoms : List Atom
  optS : Bool
deriving DecidableEq

/-- One whole end-anchored pattern: its alternatives and whether the match
may end with one optional dot. -/
structure SuffixPat where
  alts : List Alt
  optDot : Bool
deriving DecidableEq

/-- Strip a literal word from the end of s. -/
def stripEndLit (s w : List Char) : Option (List Char) :=
  if w.isEmpty then none
  else if endsWithSeg s w then some (dropTail s w.length) else none

def stripAtom (s : List Char) : Atom → Option (List Char)
  | .lit w => stripEndLit s w
  | .lowerChar =>
    match s.reverse with
    | c :: _ => if isLowerAZ c then some (dropTail s 1) else none
    | [] => none

/-- Strip one nonempty trailing whitespace run (the anchored greedy ws+
consumes the whole contiguous run). -/
def stripWsRun (s : List Char) : Option (List Char) :=
  let t := (s.reverse.dropWhile isSpaceChar).reverse
  if t.length < s.length then some t else none

/-- Strip the atoms (given right-to-left), each preceded by a mandatory
whitespace run. -/
def stripSeqRev : List Char → List Atom → Option (List Char)
  | s, [] => some s
  | s, a :: earlier =>
    match stripAtom s a with
    | none => none
    | some s1 =>
      match stripWsRun s1 with
      | none => none
      | some s2 => stripSeqRev s2 earlier

def stripAlt (s : List Char) (al : Alt) : Option (List Char) :=
  let tryAt : List Char → Option (List Char) := fun t => stripSeqRev t al.atoms.reverse
  if al.optS then
    match s.reverse with
    | 's' :: _ =>
      match tryAt (dropTail s 1) with
      | some r => some r
      | none => tryAt s
    | _ => tryAt s
  else tryAt s

def tryAlts (s : List Char) : List Alt → Option (List Char)
  | [] => none
  | al :: rest =>
    match stripAlt s al with
    | some r => some r
    | none => tryAlts s rest

/-- Apply one end-anchored suffix pattern as re.sub with empty replacement
does: strip the match when the string ends with it, else leave the string. -/
def applySuffixPat (s : List Char) (p : SuffixPat) : List Char :=
  let base :=
    if p.optDot then
      match s.reverse with
      | '.' :: _ => tryAlts (dropTail s 1) p.alts
      | _ => tryAlts s p.alts
    else tryAlts s p.alts
  match base with
  | some r => r
  | none => s

def applySuffixPats (s : List Char) (ps : List SuffixPat) : List Char :=
  ps.foldl applySuffixPat s

/-! ### Scanning regexes, implemented with an explicit fuel that always
dominates the input length (every step consumes at least one character). -/

/-- Global removal of the parenthetical pattern: optional whitespace run,
an opening paren, any characters other than a closing paren, then the
first closing paren. -/
def removeParensGo : Nat → List Char → List Char → List Char
  | 0, pend, s => pend ++ s
  | _ + 1, pend, [] => pend
  | fuel + 1, pend, c :: rest =>
    if isSpaceChar c then removeParensGo fuel (pend ++ [c]) rest
    else if c = '(' then
      if rest.contains ')' then
        removeParensGo fuel [] ((rest.dropWhile (fun x => x ≠ ')')).drop 1)
      else pend ++ c :: rest
    else pend ++ c :: removeParensGo fuel [] rest

def removeParens (s : List Char) : List Char := removeParensGo (s.length + 1) [] s

/-- Global removal of the greedy parenthetical pattern of merge_databases:
optional whitespace, an opening paren, a greedy dot-star (not crossing a
newline), a closing paren; the greedy dot-star reaches the last closing
paren before the next newline. -/
def removeParensGreedyGo : Nat → List Char → List Char → List Char
  | 0, pend, s => pend ++ s
  | _ + 1, pend, [] => pend
  | fuel + 1, pend, c :: rest =>
    if isSpaceChar c then removeParensGreedyGo fuel (pend ++ [c]) rest
    else if c = '(' then
      let seg := rest.takeWhile (fun x => x ≠ '\n')
      if seg.contains ')' then
        let keepLen := (seg.reverse.takeWhile (fun x => x ≠ ')')).length
        removeParensGreedyGo fuel [] (rest.drop (seg.length - keepLen))
      else pend ++ c :: removeParensGreedyGo fuel [] rest
    else pend ++ c :: removeParensGreedyGo fuel [] rest

def removeParensGreedy (s : List Char) : List Char :=
  removeParensGreedyGo (s.length + 1) [] s

def isPunctCDA (c : Char) : Bool := c = ',' || c = '.' || c = '&'

/-- Replace every run of commas, dots and ampersands by one space. -/
def collapsePunctGo : Nat → List Char → List Char
  | 0, s => s
  | _ + 1, [] => []
  | fuel + 1, c :: rest =>
    if isPunctCDA c then ' ' :: collapsePunctGo fuel (rest.dropWhile isPunctCDA)
    else c :: collapsePunctGo fuel rest

def collapsePunct (s : List Char) : List Char := collapsePunctGo (s.length + 1) s

/-- Replace every whitespace run by one space. -/
def collapseWsGo : Nat → List Char → List Char
  | 0, s => s
  | _ + 1, [] => []
  | fuel + 1, c :: rest =>
    if isSpaceChar c then ' ' :: collapseWsGo fuel (rest.dropWhile isSpaceChar)
    else c :: collapseWsGo fuel rest

def collapseWs (s : List Char) : List Char := collapseWsGo (s.length + 1) s

/-- Try the U.S. pattern at the head: u, optional dot, s, optional dot,
then a nonempty whitespace run; return the remainder after the match. -/
def matchUSAt (s : List Char) : Option (List Char) :=
  match s with
  | 'u' :: r1 =>
    let r2 := match r1 with | '.' :: t => t | _ => r1
    (match r2 with
     | 's' :: r3 =>
       let r4 := match r3 with | '.' :: t => t | _ => r3
       (match r4 with
        | c :: _ => if isSpaceChar c then some (r4.dropWhile isSpaceChar) else none
        | [] => none)
     | _ => none)
  | _ => none

/-- Global substitution of the word-bounded U.S. pattern by the three
characters u, s, space.  The boolean argument records whether the previous
character of the original string was a word character (boundary context). -/
def subUSGo : Nat → Bool → List Char → List Char
  | 0, _, s => s
  | _ + 1, _, [] => []
  | fuel + 1, prevWord, c :: rest =>
    if !prevWord && c = 'u' then
      match matchUSAt (c :: rest) with
      | some rem => 'u' :: 's' :: ' ' :: subUSGo fuel false rem
      | none => c :: subUSGo fuel (isWordChar c) rest
    else c :: subUSGo fuel (isWordChar c) rest

def subUS (s : List Char) : List Char := subUSGo (s.length + 1) false s

def apostropheChar : Char := Char.ofNat 39

/-- Try the intl pattern at the head: i n t, optional apostrophe, l, then a
word boundary; return the remainder. -/
def matchIntlAt (s : List Char) : Option (List Char) :=
  match s with
  | 'i' :: 'n' :: 't' :: r1 =>
    let r2 := if r1.headD ' ' = apostropheChar then r1.drop 1 else r1
    (match r2 with
     | 'l' :: r3 =>
       (match r3 with
        | [] => some []
        | d :: _ => if isWordChar d then none else some r3)
     | _ => none)
  | _ => none

/-- Global substitution of the word-bounded intl pattern by the word
international. -/
def subIntlGo : Nat → Bool → List Char → List Char
  | 0, _, s => s
  | _ + 1, _, [] => []
  | fuel + 1, prevWord, c :: rest =>
    if !prevWord && c = 'i' then
      match matchIntlAt (c :: rest) with
      | some rem => "international".data ++ subIntlGo fuel true rem
      | none => c :: subIntlGo fuel (isWordChar c) rest
    else c :: subIntlGo fuel (isWordChar c) rest

def subIntl (s : List Char) : List Char := subIntlGo (s.length + 1) false s

/-- Drop one trailing letter s at the head position if present (the greedy
optional s of the treasury pattern, with no further constraint). -/
def dropOptS (s : List Char) : List Char :=
  match s with
  | 's' :: t => t
  | _ => s

/-- Try the treasury pattern at the head: the word treasury, a whitespace
run, one of bill, note, bond, then an optional s; return the remainder. -/
def matchTreasAt (s : List Char) : Option (List Char) :=
  if startsWithSeg s "treasury".data then
    let r1 := s.drop 8
    match r1 with
    | c :: _ =>
      if isSpaceChar c then
        let r2 := r1.dropWhile isSpaceChar
        if startsWithSeg r2 "bill".data then some (dropOptS (r2.drop 4))
        else if startsWithSeg r2 "note".data then some (dropOptS (r2.drop 4))
        else if startsWithSeg r2 "bond".data then some (dropOptS (r2.drop 4))
        else none
      else none
    | [] => none
  else none

/-- Global substitution of the word-bounded treasury-bill/note/bond pattern
by the single word treasury. -/
def subTreasGo : Nat → Bool → List Char → List Char
  | 0, _, s => s
  | _ + 1, _, [] => []
  | fuel + 1, prevWord, c :: rest =>
    if !prevWord && c = 't' then
      match matchTreasAt (c :: rest) with
      | some rem => "treasury".data ++ subTreasGo fuel true rem
      | none => c :: subTreasGo fuel (isWordChar c) rest
    else c :: subTreasGo fuel (isWordChar c) rest

def subTreas (s : List Char) : List Char := subTreasGo (s.length + 1) false s

/-- Try the certificate-of-deposit pattern at the head. -/
def matchCertAt (s : List Char) : Option (List Char) :=
  if startsWithSeg s "certificate".data then
    let r1 := s.drop 11
    match r1 with
    | c :: _ =>
      if isSpaceChar c then
        let r2 := r1.dropWhile isSpaceChar
        if startsWithSeg r2 "of".data then
          let r3 := r2.drop 2
          match r3 with
          | d :: _ =>
            if isSpaceChar d then
              let r4 := r3.dropWhile isSpaceChar
              if startsWithSeg r4 "deposit".data then some (r4.drop 7) else none
            else none
          | [] => none
        else none
      else none
    | [] => none
  else none

/-- Global substitution of the word-bounded certificate-of-deposit pattern
by the word cd. -/
def subCertGo : Nat → Bool → List Char → List Char
  | 0, _, s => s
  | _ + 1, _, [] => []
  | fuel + 1, prevWord, c :: rest =>
    if !prevWord && c = 'c' then
      match matchCertAt (c :: rest) with
      | some rem => 'c' :: 'd' :: subCertGo fuel true rem
      | none => c :: subCertGo fuel (isWordChar c) rest
    else c :: subCertGo fuel (isWordChar c) rest

def subCert (s : List Char) : List Char := subCertGo (s.length + 1) false s

def isSepSlashDash (c : Char) : Bool := c = '/' || c = '-'

/-- One backtracking branch of the date pattern: k1 digits, separator, k2
digits, separator, exactly four digits, then a word boundary.  Returns the
third group and the remainder. -/
def parseDateFrom (s : List Char) (k1 k2 : Nat) : Option (List Char × List Char) :=
  let d1 := s.take k1
  if d1.length = k1 && d1.all isDigitChar then
    match s.drop k1 with
    | c :: r2 =>
      if isSepSlashDash c then
        let d2 := r2.take k2
        if d2.length = k2 && d2.all isDigitChar then
          match r2.drop k2 with
          | c2 :: r4 =>
            if isSepSlashDash c2 then
              let d3 := r4.take 4
              if d3.length = 4 && d3.all isDigitChar then
                match r4.drop 4 with
                | [] => some (d3, [])
                | d :: _ => if isWordChar d then none else some (d3, r4.drop 4)
              else none
            else none
          | [] => none
        else none
      else none
    | [] => none
  else none

/-- Try the full-date pattern at the head, greedy on the one-or-two digit
groups with backtracking. -/
def matchDateAt (s : List Char) : Option (List Char × List Char) :=
  (parseDateFrom s 2 2).orElse fun _ =>
  (parseDateFrom s 2 1).orElse fun _ =>
  (parseDateFrom s 1 2).orElse fun _ =>
  parseDateFrom s 1 1

/-- Global substitution of the word-bounded slash-or-dash date pattern by
its four-digit year group. -/
def subDateGo : Nat → Bool → List Char → List Char
  | 0, _, s => s
  | _ + 1, _, [] => []
  | fuel + 1, prevWord, c :: rest =>
    if !prevWord && isDigitChar c then
      match matchDateAt (c :: rest) with
      | some (grp, rem) => grp ++ subDateGo fuel true rem
      | none => c :: subDateGo fuel (isWordChar c) rest
    else c :: subDateGo fuel (isWordChar c) rest

def subDate (s : List Char) : List Char := subDateGo (s.length + 1) false s

/-- Try the two-thousands year pattern at the head: the digits 2 0, two
digits, then a word boundary.  Returns the two-digit group and remainder. -/
def matchYearAt (s : List Char) : Option (List Char × List Char) :=
  match s with
  | '2' :: '0' :: a :: b :: rest =>
    if isDigitChar a && isDigitChar b then
      match rest with
      | [] => some ([a, b], [])
      | d :: _ => if isWordChar d then none else some ([a, b], rest)
    else none
  | _ => none

/-- Global substitution of the word-bounded year pattern by its two-digit
group. -/
def subYearGo : Nat → Bool → List Char → List Char
  | 0, _, s => s
  | _ + 1, _, [] => []
  | fuel + 1, prevWord, c :: rest =>
    if !prevWord && c = '2' then
      match matchYearAt (c :: rest) with
      | some (grp, rem) => grp ++ subYearGo fuel true rem
      | none => c :: subYearGo fuel (isWordChar c) rest
    else c :: subYearGo fuel (isWordChar c) rest

def subYear (s : List Char) : List Char := subYearGo (s.length + 1) false s

/-- Try the percentage pattern at the head: a digit run, an optional dot
plus digit run, optional whitespace, a percent sign.  Returns the numeric
group followed by the letters p c t, and the remainder. -/
def matchPctAt (s : List Char) : Option (List Char × List Char) :=
  match s with
  | c :: _ =>
    if isDigitChar c then
      let dRun := s.takeWhile isDigitChar
      let r1 := s.dropWhile isDigitChar
      let gr :=
        match r1 with
        | '.' :: t =>
          if t.headD ' ' |> isDigitChar then
            (dRun ++ '.' :: t.takeWhile isDigitChar, t.dropWhile isDigitChar)
          else (dRun, r1)
        | _ => (dRun, r1)
      let r3 := gr.2.dropWhile isSpaceChar
      match r3 with
      | '%' :: r4 => some (gr.1 ++ ['p', 'c', 't'], r4)
      | _ => none
    else none
  | [] => none

/-- Global substitution of the percentage pattern by its numeric group
followed by pct. -/
def subPctGo : Nat → List Char → List Char
  | 0, s => s
  | _ + 1, [] => []
  | fuel + 1, c :: rest =>
    match matchPctAt (c :: rest) with
    | some (grp, rem) => grp ++ subPctGo fuel rem
    | none => c :: subPctGo fuel rest

def subPct (s : List Char) : List Char := subPctGo (s.length + 1) s

/-! ### Normalizers

EnhancedAssetCleaner.normalize_ticker, normalize_company_name and
classify_asset_type from src/db/enhanced_asset_cleanup.py, and the
module-level helpers of src/db/dbcleanup.py. -/

/-- The last k characters are capital letters and the character before them
is a dot: the end-anchored exchange-suffix pattern at width k. -/
def endsDotUppers (s : List Char) (k : Nat) : Bool :=
  let r := s.reverse
  (r.take k).length = k && (r.take k).all isUpperAZ && (r.drop k).headD ' ' = '.'

/-- Strip one end-anchored dot-and-letters exchange suffix of one to three
capital letters (the leftmost match takes the most letters). -/
def removeExchSuffix (s : List Char) : List Char :=
  if endsDotUppers s 3 then dropTail s 4
  else if endsDotUppers s 2 then dropTail s 3
  else if endsDotUppers s 1 then dropTail s 2
  else s

/-- Strip one end-anchored crypto quote suffix. -/
def removeCryptoQuote (s : List Char) : List Char :=
  if endsWithSeg s "-USDT".data then dropTail s 5
  else if endsWithSeg s "-USD".data then dropTail s 4
  else if endsWithSeg s "-BTC".data then dropTail s 4
  else if endsWithSeg s "-ETH".data then dropTail s 4
  else s

/-- EnhancedAssetCleaner.normalize_ticker: trim and upper-case, strip one
exchange suffix, strip one crypto quote suffix; none for a blank ticker or
when nothing remains. -/
def normalize_ticker (ticker : Option (List Char)) : Option (List Char) :=
  match ticker with
  | none => none
  | some t =>
    if (pyStrip t).isEmpty then none
    else
      let n2 := removeCryptoQuote (removeExchSuffix (pyUpper (pyStrip t)))
      if n2.isEmpty then none else some n2

/-- The ticker grouping key of dbcleanup, which only trims and upper-cases
a nonblank ticker. -/
def dbTickerKey (ticker : Option (List Char)) : Option (List Char) :=
  match ticker with
  | none => none
  | some t => if (pyStrip t).isEmpty then none else some (pyUpper (pyStrip t))

inductive AssetType where
  | stock | crypto | bond | cd | other
deriving DecidableEq, Repr

def cryptoIndicators : List (List Char) :=
  ["bitcoin".data, "ethereum".data, "crypto".data, "token".data, "coin".data,
   "defi".data, "blockchain".data, "protocol".data, "dao".data, "nft".data]

def bondIndicators : List (List Char) :=
  ["treasury".data, "bond".data, "note".data, "bill".data, "government".data,
   "municipal".data, "corporate bond".data, "t-bill".data, "t-note".data]

def cdIndicators : List (List Char) :=
  ["certificate of deposit".data, "cd ".data, " cd".data, "time deposit".data]

/-- Python truthiness of an optional string. -/
def optTruthy (t : Option (List Char)) : Bool :=
  match t with
  | some s => !s.isEmpty
  | none => false

/-- EnhancedAssetCleaner.classify_asset_type. -/
def classify_asset_type (company_name : List Char) (ticker : Option (List Char)) :
    AssetType :=
  let name_lower := pyLower company_name
  if cryptoIndicators.any (fun w => containsSeg name_lower w) then .crypto
  else if bondIndicators.any (fun w => containsSeg name_lower w) then .bond
  else if cdIndicators.any (fun w => containsSeg name_lower w) then .cd
  else if optTruthy ticker then .stock
  else .other

/-- The first eight corporate-form patterns, shared by the stock branch of
the enhanced cleaner and the advanced dbcleanup normalizer. -/
def stockSuffixPats : List SuffixPat :=
  [⟨[⟨[.lit "inc".data], false⟩, ⟨[.lit "incorporated".data], false⟩], true⟩,
   ⟨[⟨[.lit "llc".data], false⟩, ⟨[.lit "ltd".data], false⟩, ⟨[.lit "limited".data], false⟩], true⟩,
   ⟨[⟨[.lit "corp".data], false⟩, ⟨[.lit "corporation".data], false⟩], true⟩,
   ⟨[⟨[.lit "co".data], false⟩, ⟨[.lit "company".data], false⟩], true⟩,
   ⟨[⟨[.lit "plc".data], false⟩], true⟩,
   ⟨[⟨[.lit "sa".data], false⟩, ⟨[.lit "nv".data], false⟩, ⟨[.lit "ag".data], false⟩, ⟨[.lit "se".data], false⟩], true⟩,
   ⟨[⟨[.lit "common".data, .lit "stock".data], false⟩, ⟨[.lit "class".data, .lowerChar], false⟩], false⟩,
   ⟨[⟨[.lit "ordinary".data, .lit "share".data], true⟩], false⟩]

/-- The three extra patterns that only the dbcleanup normalizer carries. -/
def dbExtraSuffixPats : List SuffixPat :=
  [⟨[⟨[.lit "trust".data], true⟩, ⟨[.lit "fund".data], true⟩], false⟩,
   ⟨[⟨[.lit "holding".data], true⟩, ⟨[.lit "group".data], false⟩], false⟩,
   ⟨[⟨[.lit "and".data, .lit "subsidiaries".data], false⟩, ⟨[.lit "and".data, .lit "affiliates".data], false⟩], false⟩]

def cryptoSuffixPats : List SuffixPat :=
  [⟨[⟨[.lit "token".data], false⟩], false⟩,
   ⟨[⟨[.lit "coin".data], false⟩], false⟩,
   ⟨[⟨[.lit "network".data], false⟩, ⟨[.lit "protocol".data], false⟩, ⟨[.lit "chain".data], false⟩], false⟩,
   ⟨[⟨[.lit "finance".data], false⟩, ⟨[.lit "defi".data], false⟩], false⟩]

/-- The bond and cd branch of normalize_company_name. -/
def bondNormalizeSteps (s : List Char) : List Char :=
  subPct (subYear (subDate (subCert (subTreas (subUS s)))))

/-- EnhancedAssetCleaner.normalize_company_name. -/
def normalize_company_name (company_name : List Char) (asset_type : AssetType) :
    List Char :=
  if company_name.isEmpty then []
  else
    let n1 := removeParens (pyLower (pyStrip company_name))
    let n2 :=
      match asset_type with
      | .stock | .other => applySuffixPats n1 stockSuffixPats
      | .crypto => applySuffixPats n1 cryptoSuffixPats
      | .bond | .cd => bondNormalizeSteps n1
    pyStrip (collapseWs n2)

/-- The module-level advanced company-name normalizer of dbcleanup. -/
def normalizeCompanyNameAdvanced (company_name : List Char) : List Char :=
  if company_name.isEmpty then []
  else
    let n1 := removeParens (pyLower (pyStrip company_name))
    let n2 := applySuffixPats n1 (stockSuffixPats ++ dbExtraSuffixPats)
    let n3 := collapseWs (collapsePunct n2)
    pyStrip (subIntl (subUS n3))

/-- The case-insensitive member-name grouping key of dbcleanup and the
member matching key of merge_databases. -/
def memberKey (name : List Char) : List Char := pyStrip (pyLower name)

def genSuffixes : List (List Char) :=
  ["jr".data, "sr".data, "i".data, "ii".data, "iii".data, "iv".data, "v".data]

/-- get_last_name of merge_members_interactive: extract a plausible surname
for grouping, handling the comma format and generational suffixes. -/
def get_last_name (name : List Char) : List Char :=
  let name := pyStrip name
  if name.contains ',' then
    let partsC := splitOnChar ',' name
    let base_name := partsC.headD []
    let suffix_part :=
      (pyLower (pyStrip (partsC.getD 1 []))).filter (fun c => c ≠ '.')
    if genSuffixes.contains suffix_part then
      (pySplitWs (pyStrip base_name)).getLastD []
    else pyStrip base_name
  else
    let parts := pySplitWs name
    if parts.length > 1 then
      let last_word := (pyLower (parts.getLastD [])).filter (fun c => c ≠ '.')
      if genSuffixes.contains last_word then parts.getD (parts.length - 2) []
      else parts.getLastD []
    else parts.headD []

/-- The common-stock and class-letter pattern of merge_databases, whose
optional leading separator is a single whitespace or dash character. -/
def stripMdCs (s : List Char) : List Char :=
  let core : Option (List Char) :=
    if endsWithSeg s "common stock".data then some (dropTail s 12)
    else
      match s.reverse with
      | c :: _ =>
        if isLowerAZ c && endsWithSeg (dropTail s 1) "class ".data then
          some (dropTail s 7)
        else none
      | [] => none
  match core with
  | some r =>
    match r.reverse with
    | c :: _ => if isSpaceChar c || c = '-' then dropTail r 1 else r
    | [] => r
  | none => s

def mdIncPat : SuffixPat :=
  ⟨[⟨[.lit "inc".data], false⟩, ⟨[.lit "llc".data], false⟩,
    ⟨[.lit "corp".data], false⟩, ⟨[.lit "ltd".data], false⟩], true⟩

/-- The asset-name matching key of merge_databases. -/
def mdNormName (company_name : List Char) : List Char :=
  let n0 := pyStrip (pyLower company_name)
  let n1 := removeParensGreedy n0
  pyStrip (applySuffixPat (stripMdCs n1) mdIncPat)

/-! ### Data model

Rows of the four tables the cleanup scripts read and write.  Only the
columns the scripts touch are named; the extra column fields stand for the
remaining payload, which every merge carries along unchanged. -/

structure Member where
  member_id : Nat
  name : List Char
  chamber : Option (List Char)
  party : Option (List Char)
  state : Option (List Char)
  photo_url : Option (List Char)
deriving DecidableEq, Repr

structure Asset where
  asset_id : Nat
  company_name : Option (List Char)
  ticker : Option (List Char)
  created_at : Option (List Char)
deriving DecidableEq, Repr

structure Filing where
  filing_id : Nat
  member_id : Nat
  doc_id : List Char
deriving DecidableEq, Repr

structure Txn where
  transaction_id : Nat
  filing_id : Nat
  asset_id : Nat
  raw : List Char
deriving DecidableEq, Repr

structure DB where
  members : List Member
  assets : List Asset
  filings : List Filing
  transactions : List Txn
deriving DecidableEq, Repr

/-! ### Insertion-ordered dictionaries of buckets

A Python dict built with setdefault-append preserves first-occurrence key
order and appends group members in scan order; it is modelled as an
association list grown by addB. -/

def addB {K A : Type} [DecidableEq K] (bs : List (K × List A)) (k : K) (a : A) :
    List (K × List A) :=
  match bs with
  | [] => [(k, [a])]
  | (k2, l) :: rest => if k2 = k then (k2, l ++ [a]) :: rest else (k2, l) :: addB rest k a

def bucketsFold {K A : Type} [DecidableEq K] (key : A → K) (xs : List A) :
    List (K × List A) :=
  xs.foldl (fun bs a => addB bs (key a) a) []

def lookupB {K A : Type} [DecidableEq K] : List (K × List A) → K → List A
  | [], _ => []
  | (k2, l) :: rest, k => if k2 = k then l else lookupB rest k

def keysB {K A : Type} (bs : List (K × List A)) : List K := bs.map Prod.fst

/-! ### dbcleanup: member stage -/

/-- The minimum of a list of ids, as Python min on a nonempty list. -/
def minList (l : List Nat) : Nat :=
  match l with
  | [] => 0
  | h :: t => t.foldl min h

/-- The duplicate dictionary of dbcleanup for members: buckets of member
ids keyed by the lower-cased trimmed name, kept when more than one id
shares the key. -/
def findMemberDuplicates (members : List Member) : List (List Char × List Nat) :=
  ((bucketsFold (fun m => memberKey m.name) members).filter
      (fun b => b.2.length > 1)).map (fun b => (b.1, b.2.map Member.member_id))

/-- One merge operation: the canonical id to keep and the redundant ids to
repoint away from and delete. -/
abbrev MergeOp := Nat × List Nat

/-- The merge operation of one member duplicate group: the smallest id is
canonical, the others are redundant. -/
def memberOp (ids : List Nat) : MergeOp :=
  (minList ids, ids.filter (fun i => i ≠ minList ids))

/-- Repoint Filings away from the redundant member ids, then delete the
redundant member rows. -/
def applyMemberOp (db : DB) (op : MergeOp) : DB :=
  { db with
    filings := db.filings.map
      (fun f => if f.member_id ∈ op.2 then { f with member_id := op.1 } else f),
    members := db.members.filter (fun m => m.member_id ∉ op.2) }

/-- The member stage of cleanup_database. -/
def cleanupMembers (db : DB) : DB :=
  (findMemberDuplicates db.members).foldl (fun d b => applyMemberOp d (memberOp b.2)) db

/-! ### dbcleanup: asset stage -/

/-- The per-asset dictionary rows that the asset duplicate finder builds,
with the transaction count taken at find time. -/
structure AssetInfo where
  asset_id : Nat
  company_name : List Char
  ticker : Option (List Char)
  transaction_count : Nat
deriving DecidableEq, Repr

def txCount (txns : List Txn) (aid : Nat) : Nat :=
  (txns.filter (fun t => t.asset_id = aid)).length

def mkAssetInfo (txns : List Txn) (a : Asset) : AssetInfo :=
  { asset_id := a.asset_id
    company_name := a.company_name.getD []
    ticker := a.ticker
    transaction_count := txCount txns a.asset_id }

/-- Python truthiness of the ticker field followed by its strip, as the
scoring and grouping conditions test it. -/
def tickerTruthy (t : Option (List Char)) : Bool :=
  match t with
  | some s => !s.isEmpty && !(pyStrip s).isEmpty
  | none => false

/-- One routing step of the asset duplicate finder: a nonblank ticker puts
the asset in the ticker dictionary under its trimmed upper-cased key, and
anything else with a nonempty advanced-normalized name goes in the name
dictionary. -/
def routeAsset (bs : List (List Char × List AssetInfo) × List (List Char × List AssetInfo))
    (i : AssetInfo) :
    List (List Char × List AssetInfo) × List (List Char × List AssetInfo) :=
  match dbTickerKey i.ticker with
  | some k => (addB bs.1 k i, bs.2)
  | none =>
    let nm := normalizeCompanyNameAdvanced i.company_name
    if nm.isEmpty then bs else (bs.1, addB bs.2 nm i)

def dbAssetBuckets (infos : List AssetInfo) :
    List (List Char × List AssetInfo) × List (List Char × List AssetInfo) :=
  infos.foldl routeAsset ([], [])

/-- The duplicate groups of _find_asset_duplicates_enhanced, ticker groups
first and then name groups, in dictionary insertion order. -/
def dbDuplicateGroups (infos : List AssetInfo) : List (List AssetInfo) :=
  let bs := dbAssetBuckets infos
  ((bs.1.filter (fun b => b.2.length > 1)).map Prod.snd) ++
    ((bs.2.filter (fun b => b.2.length > 1)).map Prod.snd)

/-- The canonical-selection score of _merge_asset_group, scaled by 1000 so
that the Python float base minus id times one thousandth becomes the exact
integer base times 1000 minus id. -/
def scoreAsset1000 (i : AssetInfo) : Int :=
  (((if tickerTruthy i.ticker then 1000 else 0) +
      (if i.transaction_count > 0 then 100 else 0) +
      i.company_name.length : Nat) : Int) * 1000 - (i.asset_id : Int)

/-- The first element of the stable descending sort by score: the fold
keeps the earlier element unless a later one scores strictly higher. -/
def chooseCanonicalDb (g : List AssetInfo) : AssetInfo :=
  match g with
  | [] => { asset_id := 0, company_name := [], ticker := none, transaction_count := 0 }
  | h :: t => t.foldl (fun best x => if scoreAsset1000 best < scoreAsset1000 x then x else best) h

/-- The merge operation of one asset duplicate group in dbcleanup: the
canonical is the score winner and the redundant list is the rest of the
sorted order. -/
def dbAssetOp (g : List AssetInfo) : MergeOp :=
  let c := chooseCanonicalDb g
  (c.asset_id, (g.erase c).map AssetInfo.asset_id)

/-- Repoint Transactions away from the redundant asset ids, then delete the
redundant asset rows. -/
def applyAssetOp (db : DB) (op : MergeOp) : DB :=
  { db with
    transactions := db.transactions.map
      (fun t => if t.asset_id ∈ op.2 then { t with asset_id := op.1 } else t),
    assets := db.assets.filter (fun a => a.asset_id ∉ op.2) }

/-- _merge_asset_group, including its small-group guard. -/
def mergeAssetGroup (db : DB) (g : List AssetInfo) : DB :=
  if g.length < 2 then db else applyAssetOp db (dbAssetOp g)

/-- The asset stage of cleanup_database. -/
def dbCleanupAssets (db : DB) : DB :=
  let infos := db.assets.map (mkAssetInfo db.transactions)
  (dbDuplicateGroups infos).foldl mergeAssetGroup db

/-- cleanup_database of dbcleanup: the member stage then the enhanced asset
stage.  The schema-hardening step only adds indexes and virtual columns and
changes no row, so it has no effect on this row-level model. -/
def cleanup_database (db : DB) : DB := dbCleanupAssets (cleanupMembers db)

/-! ### EnhancedAssetCleaner -/

structure AssetRecord where
  asset_id : Nat
  company_name : List Char
  ticker : Option (List Char)
  normalized_ticker : Option (List Char)
  normalized_name : List Char
  asset_type : AssetType
  has_transactions : Bool
deriving DecidableEq, Repr

def mkAssetRecord (txns : List Txn) (a : Asset) : AssetRecord :=
  let atype := classify_asset_type (a.company_name.getD []) a.ticker
  { asset_id := a.asset_id
    company_name := a.company_name.getD []
    ticker := a.ticker
    normalized_ticker := normalize_ticker a.ticker
    normalized_name := normalize_company_name (a.company_name.getD []) atype
    asset_type := atype
    has_transactions := txCount txns a.asset_id > 0 }

/-- A generic insertion sort, used for the order-by clauses of the SQL
queries the scripts issue. -/
def insSorted {α : Type} (le : α → α → Bool) (x : α) : List α → List α
  | [] => [x]
  | y :: t => if le x y then x :: y :: t else y :: insSorted le x t

def insSort {α : Type} (le : α → α → Bool) : List α → List α
  | [] => []
  | x :: t => insSorted le x (insSort le t)

/-- get_asset_records: all assets ordered by asset id, with classification,
normalized keys and the presence of transactions. -/
def get_asset_records (db : DB) : List AssetRecord :=
  (insSort (fun a b => a.asset_id ≤ b.asset_id) db.assets).map (mkAssetRecord db.transactions)

/-- The two grouping dictionaries of find_duplicate_groups.  The string key
type plus colon of the source is injective in the pair of the asset type
and the normalized key, since the five type names contain no colon; the
pair is used as the key here. -/
def enAssetBuckets (recs : List AssetRecord) :
    List ((AssetType × List Char) × List AssetRecord) ×
      List ((AssetType × List Char) × List AssetRecord) :=
  recs.foldl
    (fun bs r =>
      let bs1 :=
        match r.normalized_ticker with
        | some k => addB bs.1 (r.asset_type, k) r
        | none => bs.1
      let bs2 :=
        if r.normalized_name.isEmpty then bs.2
        else addB bs.2 (r.asset_type, r.normalized_name) r
      (bs1, bs2))
    ([], [])

/-- The group-consuming loop of find_duplicate_groups: keep a bucket with
more than one member, after removing already processed assets, and mark its
members processed. -/
def enFilterGroups : List (List AssetRecord) → List Nat →
    List (List AssetRecord) × List Nat
  | [], proc => ([], proc)
  | g :: gs, proc =>
    if g.length > 1 then
      let g2 := g.filter (fun a => a.asset_id ∉ proc)
      if g2.length > 1 then
        let r := enFilterGroups gs (proc ++ g2.map AssetRecord.asset_id)
        (g2 :: r.1, r.2)
      else enFilterGroups gs proc
    else enFilterGroups gs proc

/-- EnhancedAssetCleaner.find_duplicate_groups: ticker-keyed groups first,
then name-keyed groups over the assets not yet processed. -/
def find_duplicate_groups (recs : List AssetRecord) : List (List AssetRecord) :=
  let bs := enAssetBuckets recs
  let r1 := enFilterGroups (bs.1.map Prod.snd) []
  let r2 := enFilterGroups (bs.2.map Prod.snd) r1.2
  r1.1 ++ r2.1

/-- The strictly-greater test of the lexicographic score tuple of
choose_canonical_asset: ticker flag, transactions flag, name length, then
negated id. -/
def enTupleGT (a b : AssetRecord) : Bool :=
  let ta : Nat := if tickerTruthy a.ticker then 1 else 0
  let tb : Nat := if tickerTruthy b.ticker then 1 else 0
  let ha : Nat := if a.has_transactions then 1 else 0
  let hb : Nat := if b.has_transactions then 1 else 0
  if ta ≠ tb then tb < ta
  else if ha ≠ hb then hb < ha
  else if a.company_name.length ≠ b.company_name.length then
    b.company_name.length < a.company_name.length
  else a.asset_id < b.asset_id

/-- EnhancedAssetCleaner.choose_canonical_asset: the first element of the
stable descending sort by the score tuple. -/
def choose_canonical_asset (g : List AssetRecord) : AssetRecord :=
  match g with
  | [] =>
    { asset_id := 0, company_name := [], ticker := none, normalized_ticker := none
      normalized_name := [], asset_type := .other, has_transactions := false }
  | h :: t => t.foldl (fun best x => if enTupleGT x best then x else best) h

/-- EnhancedAssetCleaner.merge_duplicate_group on one group: repoint the
Transactions of the non-canonical assets and delete their rows; each group
runs in its own transaction and commits on its own. -/
def merge_duplicate_group (db : DB) (g : List AssetRecord) : DB :=
  if g.length ≤ 1 then db
  else
    let canonical := choose_canonical_asset g
    let dups := g.filter (fun a => a.asset_id ≠ canonical.asset_id)
    if dups.isEmpty then db
    else
      let dupIds := dups.map AssetRecord.asset_id
      { db with
        transactions := db.transactions.map
          (fun t => if t.asset_id ∈ dupIds then { t with asset_id := canonical.asset_id } else t),
        assets := db.assets.filter (fun a => a.asset_id ∉ dupIds) }

/-- EnhancedAssetCleaner.run_cleanup with dry_run set to false: find the
duplicate groups and merge each in turn.  The backup copy, the analysis
logging and the index creation change no row. -/
def run_cleanup (db : DB) : DB :=
  (find_duplicate_groups (get_asset_records db)).foldl merge_duplicate_group db

/-! ### Generic facts about sequences of merge operations -/

/-- The effect of one merge operation on one foreign-key reference. -/
def refUpd (op : MergeOp) (r : Nat) : Nat := if r ∈ op.2 then op.1 else r

/-- The cumulative effect of a pass of merge operations on one reference. -/
def refUpds (ops : List MergeOp) (r : Nat) : Nat :=
  ops.foldl (fun x op => refUpd op x) r

/-- Whether an entity id survives every deletion of the pass. -/
def keepId (ops : List MergeOp) (i : Nat) : Bool :=
  ops.all (fun op => i ∉ op.2)

/-- Validity of a pass of merge operations: no canonical id is ever in a
redundant list, and distinct operations touch disjoint redundant lists. -/
def opsGood (ops : List MergeOp) : Prop :=
  (∀ op ∈ ops, ∀ op2 ∈ ops, op.1 ∉ op2.2) ∧
    List.Pairwise (fun o1 o2 => ∀ x ∈ o1.2, x ∉ o2.2) ops

/-! ### Characterization of the sequential merge folds -/

def applyMemberOps (db : DB) (ops : List MergeOp) : DB :=
  ops.foldl applyMemberOp db

def applyAssetOps (db : DB) (ops : List MergeOp) : DB :=
  ops.foldl applyAssetOp db

def memberOps (members : List Member) : List MergeOp :=
  (findMemberDuplicates members).map (fun b => memberOp b.2)

/-! ### Structure and validity of the dbcleanup asset duplicate groups -/

def hasTKey (i : AssetInfo) : Bool := (dbTickerKey i.ticker).isSome

def tKeyD (i : AssetInfo) : List Char := (dbTickerKey i.ticker).getD []

def nKeyI (i : AssetInfo) : List Char := normalizeCompanyNameAdvanced i.company_name

def inNameStream (i : AssetInfo) : Bool := !hasTKey i && !(nKeyI i).isEmpty

/-- The class of an asset row with trimmed upper-cased ticker key k. -/
def pT (k : List Char) (i : AssetInfo) : Bool :=
  decide (tKeyD i = k) && hasTKey i

/-- The class of a ticker-less asset row with advanced name key n. -/
def pN (n : List Char) (i : AssetInfo) : Bool :=
  decide (nKeyI i = n) && inNameStream i

def dbAssetOpsOf (infos : List AssetInfo) : List MergeOp :=
  (dbDuplicateGroups infos).map dbAssetOp

/-- The asset-level name class of the dbcleanup grouping: no usable ticker
and a given nonempty advanced-normalized company name. -/
def assetNameKeyIs (n : List Char) (a : Asset) : Bool :=
  decide (normalizeCompanyNameAdvanced (a.company_name.getD []) = n) &&
    ((dbTickerKey a.ticker).isNone &&
      !(normalizeCompanyNameAdvanced (a.company_name.getD [])).isEmpty)

/-! ### Structure and validity of the enhanced duplicate groups -/

def enAssetOp (g : List AssetRecord) : MergeOp :=
  ((choose_canonical_asset g).asset_id,
    (g.filter (fun a => a.asset_id ≠ (choose_canonical_asset g).asset_id)).map
      AssetRecord.asset_id)

def enAssetOpsOf (recs : List AssetRecord) : List MergeOp :=
  (find_duplicate_groups recs).map enAssetOp

/-! ### merge_members_interactive -/

/-- Byte order on character lists, the binary collation of the order-by
clause on the name column. -/
def lexLe : List Char → List Char → Bool
  | [], _ => true
  | _ :: _, [] => false
  | a :: s, b :: t => if a = b then lexLe s t else decide (a.toNat < b.toNat)

/-- find_duplicate_groups of the interactive tool: group the members,
ordered by name, by extracted surname, skipping blank surnames, and keep
the groups with more than one member. -/
def interactiveGroups (members : List Member) : List (List Char × List Member) :=
  (bucketsFold (fun m => get_last_name m.name)
      ((insSort (fun a b => lexLe a.name b.name) members).filter
        (fun m => !(get_last_name m.name).isEmpty))).filter
    (fun b => b.2.length > 1)

/-- merge_member_records: keep the lower id, overwrite its chamber, party,
state and photo url with the higher-id row values, repoint the filings of
the higher id, delete the higher-id row.  A missing row raises and rolls
back. -/
def merge_member_records (db : DB) (id1 id2 : Nat) : Except (List Char) DB :=
  let low := min id1 id2
  let high := max id1 id2
  match db.members.find? (fun m => m.member_id = high) with
  | none => .error "member not found".data
  | some hm =>
    match db.members.find? (fun m => m.member_id = low) with
    | none => .error "member not found".data
    | some _ =>
      .ok { db with
        members := (db.members.map (fun m =>
            if m.member_id = low then
              { m with
                chamber := hm.chamber
                party := hm.party
                state := hm.state
                photo_url := hm.photo_url }
            else m)).filter (fun m => m.member_id ≠ high),
        filings := db.filings.map (fun f =>
            if f.member_id = high then { f with member_id := low } else f) }

/-- The interactive tool catches every exception of a merge and leaves the
database unchanged on failure. -/
def applyMergeRecords (db : DB) (id1 id2 : Nat) : DB :=
  match merge_member_records db id1 id2 with
  | .ok d => d
  | .error _ => db

/-- Phase one of the interactive main loop over the surname pairs, driven
by one operator response per pair: an empty response confirms the merge, a
q response quits the phase, anything else skips the pair.  The loop stops
when the responses run out, and the continue prompts between pairs, whose
input is discarded by the source, are omitted.  Returns the final database
and the list of pairs that were actually merged. -/
def phase1 : DB → List (Nat × Nat) → List (List Char) → DB × List (Nat × Nat)
  | db, [], _ => (db, [])
  | db, _, [] => (db, [])
  | db, p :: ps, r :: rs =>
    if pyLower r = ['q'] then (db, [])
    else if r.isEmpty then
      let db2 := applyMergeRecords db p.1 p.2
      let rest := phase1 db2 ps rs
      (rest.1, p :: rest.2)
    else phase1 db ps rs

/-! ### Exception-parametrized passes for the rollback analysis

The sources raise out of SQL failures; the shallow embedding makes the
failing group an explicit oracle.  In dbcleanup the whole pass runs in one
transaction opened before the member stage and rolled back on any
exception, so the error result carries the original database.  In the
enhanced cleaner every group opens, commits and rolls back its own
connection, and the exception propagates out of the loop, so the error
result carries the state left by the already committed groups. -/

def dbCleanupGroupsE (fails : List AssetInfo → Bool) (db0 : DB) :
    List (List AssetInfo) → DB → Except DB DB
  | [], d => .ok d
  | g :: gs, d =>
    if fails g then .error db0
    else dbCleanupGroupsE fails db0 gs (mergeAssetGroup d g)

def cleanup_databaseE (fails : List AssetInfo → Bool) (db : DB) : Except DB DB :=
  let d1 := cleanupMembers db
  dbCleanupGroupsE fails db
    (dbDuplicateGroups (d1.assets.map (mkAssetInfo d1.transactions))) d1

def run_cleanupGroupsE (fails : List AssetRecord → Bool) :
    List (List AssetRecord) → DB → Except DB DB
  | [], d => .ok d
  | g :: gs, d =>
    if fails g then .error d
    else run_cleanupGroupsE fails gs (merge_duplicate_group d g)

def run_cleanupE (fails : List AssetRecord → Bool) (db : DB) : Except DB DB :=
  run_cleanupGroupsE fails (find_duplicate_groups (get_asset_records db)) db

/-! ### Alignment of the two canonical-selection policies -/

/-- The fields that the two selection policies read, shared between the
asset row of dbcleanup and the asset record of the enhanced cleaner. -/
def matchIR (i : AssetInfo) (r : AssetRecord) : Prop :=
  i.asset_id = r.asset_id ∧ i.company_name = r.company_name ∧
  tickerTruthy i.ticker = tickerTruthy r.ticker ∧
  decide (i.transaction_count > 0) = r.has_transactions

/-- The bound under which the additive score respects the lexicographic
tuple: the name length stays under the transaction bonus and the id term
stays under the name-length unit. -/
def infoBounded (i : AssetInfo) : Prop :=
  i.company_name.length ≤ 99 ∧ i.asset_id ≤ 999

/-! ### DatabaseMerger of merge_databases

The merger unifies the Senate database into the Congress one.  Python
dictionaries over hashable keys are modelled as association lists whose
update overwrites in place and otherwise appends, which preserves both the
key-uniqueness and the insertion order of the source dictionaries. -/

def dSet {κ : Type} [DecidableEq κ] : List (κ × Nat) → κ → Nat → List (κ × Nat)
  | [], k, v => [(k, v)]
  | (k2, v2) :: t, k, v => if k2 = k then (k, v) :: t else (k2, v2) :: dSet t k v

def dGet? {κ : Type} [DecidableEq κ] (d : List (κ × Nat)) (k : κ) : Option Nat :=
  (d.find? (fun p => decide (p.1 = k))).map Prod.snd

def dGetD {κ : Type} [DecidableEq κ] (d : List (κ × Nat)) (k : κ) (v : Nat) : Nat :=
  (dGet? d k).getD v

/-- get_max_id: the maximum primary key of a table, zero when empty. -/
def maxId (l : List Nat) : Nat := l.foldl max 0

structure Offsets where
  members : Nat
  assets : Nat
  filings : Nat
  transactions : Nat
deriving Repr

/-- calculate_offsets: each table's offset is the maximum congress-side id
plus the safety margin of 1000. -/
def calculate_offsets (congress : DB) : Offsets :=
  { members := maxId (congress.members.map Member.member_id) + 1000
    assets := maxId (congress.assets.map Asset.asset_id) + 1000
    filings := maxId (congress.filings.map Filing.filing_id) + 1000
    transactions := maxId (congress.transactions.map Txn.transaction_id) + 1000 }

/-- The existing-members dictionary a merge_members call reads from the
target: LOWER(TRIM(name)) to member id, later rows overwriting earlier
ones as in the source dict comprehension. -/
def buildExistingMembers (ms : List Member) : List (List Char × Nat) :=
  ms.foldl (fun d m => dSet d (memberKey m.name) m.member_id) []

structure MMState where
  rows : List Member
  existing : List (List Char × Nat)
  idMap : List (Nat × Nat)

/-- One iteration of the merge_members loop: a member whose lower-trimmed
name key is present maps to the existing id; otherwise the row is inserted
with its id moved by the offset (zero in the base phase, where the source
keeps old ids unchanged) and registered. -/
def mmStep (off : Nat) (st : MMState) (m : Member) : MMState :=
  let key := memberKey m.name
  match dGet? st.existing key with
  | some eid => { st with idMap := dSet st.idMap m.member_id eid }
  | none =>
    let nid := m.member_id + off
    { rows := st.rows ++ [{ m with member_id := nid }]
      existing := dSet st.existing key nid
      idMap := dSet st.idMap m.member_id nid }

/-- DatabaseMerger.merge_members: the updated target rows and the id map
for the source, which starts empty at each phase. -/
def merge_members (tgt src : List Member) (off : Nat) :
    List Member × List (Nat × Nat) :=
  let r := src.foldl (mmStep off) ⟨tgt, buildExistingMembers tgt, []⟩
  (r.rows, r.idMap)

/-- The nonblank UPPER(TRIM(ticker)) key of a stored asset row, as the
target-side duplicate detection of merge_assets computes it. -/
def sqlTick (a : Asset) : Option (List Char) :=
  match a.ticker with
  | none => none
  | some t =>
    let k := pyUpper (pyStrip t)
    if k.isEmpty then none else some k

/-- The ticker and name dictionaries a merge_assets call builds from the
target rows: a row with a nonblank trimmed ticker registers under its
upper-cased trimmed ticker, any other row with a nonblank name registers
under its regex-normalized lower-trimmed name (SQLite LOWER and TRIM act
on these rows character by character exactly as str.lower and str.strip). -/
def beaStep (d : List (List Char × Nat) × List (List Char × Nat)) (a : Asset) :
    List (List Char × Nat) × List (List Char × Nat) :=
  match sqlTick a with
  | some k => (dSet d.1 k a.asset_id, d.2)
  | none =>
    match a.company_name with
    | some n =>
      if (pyStrip n).isEmpty then d
      else (d.1, dSet d.2 (mdNormName n) a.asset_id)
    | none => d

def buildExistingAssets (l : List Asset) :
    List (List Char × Nat) × List (List Char × Nat) :=
  l.foldl beaStep ([], [])

structure MAState where
  rows : List Asset
  exTickers : List (List Char × Nat)
  exNames : List (List Char × Nat)
  idMap : List (Nat × Nat)

/-- The insert branch of the merge_assets loop body. -/
def maInsert (off : Nat) (st : MAState) (a : Asset) : MAState :=
  let nid := a.asset_id + off
  let rows := st.rows ++ [{ a with asset_id := nid }]
  let idMap := dSet st.idMap a.asset_id nid
  if optTruthy a.ticker then
    { rows := rows
      exTickers := dSet st.exTickers (pyStrip (pyUpper (a.ticker.getD []))) nid
      exNames := st.exNames
      idMap := idMap }
  else
    { rows := rows
      exTickers := st.exTickers
      exNames := dSet st.exNames (mdNormName (a.company_name.getD [])) nid
      idMap := idMap }

/-- One iteration of the merge_assets loop: a truthy raw ticker is matched
through the ticker dictionary by its upper-stripped key, anything else
through the name dictionary by its normalized name; a truthy found id is
mapped, and otherwise the row is inserted, so a found id of zero falls to
the insert branch like the source's `if duplicate_id` does. -/
def maStep (off : Nat) (st : MAState) (a : Asset) : MAState :=
  let dup : Option Nat :=
    if optTruthy a.ticker then
      dGet? st.exTickers (pyStrip (pyUpper (a.ticker.getD [])))
    else dGet? st.exNames (mdNormName (a.company_name.getD []))
  match dup with
  | some d =>
    if d = 0 then maInsert off st a
    else { st with idMap := dSet st.idMap a.asset_id d }
  | none => maInsert off st a

/-- DatabaseMerger.merge_assets. -/
def merge_assets (tgt src : List Asset) (off : Nat) :
    List Asset × List (Nat × Nat) :=
  let ex := buildExistingAssets tgt
  let r := src.foldl (maStep off) ⟨tgt, ex.1, ex.2, []⟩
  (r.rows, r.idMap)

/-- DatabaseMerger.merge_filings: every source filing is inserted with its
id moved by the offset and its member reference sent through the member id
map, identity outside the map's domain. -/
def merge_filings (tgt src : List Filing) (off : Nat)
    (mMap : List (Nat × Nat)) : List Filing × List (Nat × Nat) :=
  src.foldl
    (fun st f =>
      let nid := f.filing_id + off
      (st.1 ++ [{ f with
        filing_id := nid
        member_id := dGetD mMap f.member_id f.member_id }],
       dSet st.2 f.filing_id nid))
    (tgt, [])

/-- DatabaseMerger.merge_transactions. -/
def merge_transactions (tgt src : List Txn) (off : Nat)
    (fMap aMap : List (Nat × Nat)) : List Txn :=
  src.foldl
    (fun rows t =>
      rows ++ [{ t with
        transaction_id := t.transaction_id + off
        filing_id := dGetD fMap t.filing_id t.filing_id
        asset_id := dGetD aMap t.asset_id t.asset_id }])
    tgt

/-- One source database merged into the target in the table order of the
source: members, assets, filings with the member map, transactions with
the filing and asset maps. -/
def mergePhase (tgt src : DB) (offM offA offF offT : Nat) : DB :=
  let mr := merge_members tgt.members src.members offM
  let ar := merge_assets tgt.assets src.assets offA
  let fr := merge_filings tgt.filings src.filings offF mr.2
  let tr := merge_transactions tgt.transactions src.transactions offT fr.2 ar.2
  { members := mr.1
    assets := ar.1
    filings := fr.1
    transactions := tr }

def emptyDB : DB :=
  { members := [], assets := [], filings := [], transactions := [] }

/-- DatabaseMerger.merge_databases: the congress database is merged first
into the fresh target without offsets, the id maps are cleared, and the
senate database follows with the congress-derived offsets. -/
def merge_databases (senate congress : DB) : DB :=
  let off := calculate_offsets congress
  let m1 := mergePhase emptyDB congress 0 0 0 0
  mergePhase m1 senate off.members off.assets off.filings off.transactions

/-- A stored ticker that is truthy raw is also truthy after trimming.  The
hypothesis every asset row of the merge sources satisfies in the
cross-source theorem: it rules out whitespace-only tickers, on which the
raw truthiness test of the insertion loop and the trimmed truthiness test
of the target-side dictionary builder disagree. -/
def tickerOk (a : Asset) : Prop :=
  optTruthy a.ticker = true → (pyStrip (a.ticker.getD [])).isEmpty = false

instance (a : Asset) : Decidable (tickerOk a) :=
  inferInstanceAs (Decidable
    (optTruthy a.ticker = true → (pyStrip (a.ticker.getD [])).isEmpty = false))

/-- The invariant the target side of merge_members maintains: the existing
dictionary is exactly first-match lookup over the target rows, and the
target rows carry pairwise distinct name keys. -/
def MMInv (st : MMState) : Prop :=
  (∀ k, dGet? st.existing k =
    (st.rows.find? (fun m => decide (memberKey m.name = k))).map Member.member_id) ∧
  (st.rows.map (fun m => memberKey m.name)).Nodup

/-- The invariant the target side of merge_assets maintains on its ticker
dictionary: lookup of any nonblank key is first-match over the rows by
stored nonblank ticker key, those row keys are pairwise distinct, and the
rows have sane tickers and positive ids. -/
def MAInv (st : MAState) : Prop :=
  (∀ k, ¬k.isEmpty → dGet? st.exTickers k =
    (st.rows.find? (fun a => decide (sqlTick a = some k))).map Asset.asset_id) ∧
  (st.rows.filterMap sqlTick).Nodup ∧
  (∀ a ∈ st.rows, tickerOk a ∧ 1 ≤ a.asset_id)

/-! ### Concrete databases for the counterexamples and witnesses -/

def mkA (i : Nat) (n : String) (t : Option String) : Asset :=
  { asset_id := i
    company_name := some n.data
    ticker := t.map String.data
    created_at := none }

def mkT (i f a : Nat) : Txn :=
  { transaction_id := i, filing_id := f, asset_id := a, raw := [] }

def mkM (i : Nat) (n : String) : Member :=
  { member_id := i
    name := n.data
    chamber := some "house".data
    party := some "D".data
    state := some "CA".data
    photo_url := none }

def db7 : DB :=
  { members := [], filings := []
    assets := [mkA 1 "Microsoft Corporation" none, mkA 2 "Microsoft Corp" (some "MSFT"),
               mkA 3 "MSFT" (some "msft")]
    transactions := [mkT 101 11 1, mkT 102 12 2, mkT 103 13 3] }

def db8 : DB :=
  { members := [], filings := []
    assets := [mkA 1 "US Treasury Bond 2025" none, mkA 2 "U.S. Treasury Bond 05/2025" none]
    transactions := [mkT 201 21 1, mkT 202 22 2] }

def db8f : DB :=
  { members := [], filings := []
    assets := [mkA 1 "US Treasury Bond 2025" none, mkA 2 "U.S. Treasury Bond 05/15/2025" none]
    transactions := [mkT 201 21 1, mkT 202 22 2] }

def db1a : DB :=
  { members := [], filings := []
    assets := [mkA 1 "Apple Inc" (some "AAPL"), mkA 2 "Apple CDR" (some "AAPL.TO")]
    transactions := [mkT 301 31 1, mkT 302 32 2] }

def db1b : DB :=
  { members := [], filings := []
    assets := [mkA 1 "Gold Mining Corp" (some "BTC"), mkA 2 "Bitcoin" (some "BTC")]
    transactions := [mkT 401 41 1, mkT 402 42 2] }

def db3 : DB :=
  { members := [], filings := []
    assets := [mkA 1 "Bitcoin" (some "BTC"), mkA 2 "Bitcoin" (some "BTC-USD"),
               mkA 3 "Bitcoin" none]
    transactions := [mkT 501 51 1, mkT 502 52 2, mkT 503 53 3] }

def dbC4 : DB :=
  { members := [], filings := []
    assets := [mkA 1 "Apple Inc" (some "AAPL"), mkA 2 "Apple" (some "aapl"),
               mkA 3 "Microsoft" (some "MSFT"), mkA 4 "Microsoft Corp" (some "msft")]
    transactions := [] }

def dbC5 : DB :=
  { members := [mkM 1 "John Smith", mkM 2 " john smith "]
    filings := [{ filing_id := 10, member_id := 2, doc_id := "doc".data }]
    assets := [mkA 1 "Tesla" (some "TSLA"), mkA 2 "Tesla Inc" (some "tsla ")]
    transactions := [mkT 601 10 2] }

def mP1 : Member := mkM 1 "Nancy Pelosi"

def mP2 : Member :=
  { member_id := 2
    name := "Pelosi, Nancy".data
    chamber := some "senate".data
    party := none
    state := some "NY".data
    photo_url := some "p2".data }

def dbC10 : DB :=
  { members := [mP1, mP2]
    filings := [{ filing_id := 20, member_id := 2, doc_id := "f20".data },
      { filing_id := 21, member_id := 1, doc_id := "f21".data }]
    assets := []
    transactions := [] }

def ceAssets : List Asset :=
  [mkA 1 "b" none,
   mkA 2 "bbbbbbbbbbbbbbbbbbbbbbbbbbbbbbbbbbbbbbbbbbbbbbbbbbbbbbbbbbbbbbbbbbbbbbbbbbbbbbbbbbbbbbbbbbbbbbbbbbbbbb" none]

def ceTxns : List Txn := [mkT 1 1 1]

def congressW : DB :=
  { members := [mkM 1 "John Smith", mkM 3 "Alice Wu"]
    assets := [mkA 1 "Apple Inc" (some "AAPL"), mkA 4 "Tesla" (some "TSLA")]
    filings := [{ filing_id := 1, member_id := 1, doc_id := "d1".data },
      { filing_id := 3, member_id := 3, doc_id := "d3".data }]
    transactions := [mkT 1 1 1, mkT 3 3 4] }

def senateW : DB :=
  { members := [mkM 1 "JOHN SMITH", mkM 2 "Bob Lee"]
    assets := [mkA 1 "Apple Computer" (some " AAPL"), mkA 3 "Narnia Fund" none]
    filings := [{ filing_id := 1, member_id := 1, doc_id := "s1".data },
      { filing_id := 2, member_id := 2, doc_id := "s2".data }]
    transactions := [mkT 1 1 1, mkT 2 2 3] }

instance : DecidableEq (Except DB DB) :=
  fun a b =>
    match a, b with
    | .error x, .error y =>
      if h : x = y then .isTrue (by rw [h]) else .isFalse (fun hc => h (by injection hc))
    | .ok x, .ok y =>
      if h : x = y then .isTrue (by rw [h]) else .isFalse (fun hc => h (by injection hc))
    | .error _, .ok _ => .isFalse (fun hc => Except.noConfusion hc)
    | .ok _, .error _ => .isFalse (fun hc => Except.noConfusion hc)

/-! ### Theorems -/

theorem lookupB_addB {K A : Type} [DecidableEq K] (bs : List (K × List A))
    (k2 : K) (a : A) (k : K) :
    lookupB (addB bs k2 a) k = lookupB bs k ++ (if k2 = k then [a] else []) := by
  induction bs with
  | nil => by_cases h : k2 = k <;> simp [addB, lookupB, h]
  | cons b rest ih =>
    obtain ⟨k3, l⟩ := b
    by_cases h32 : k3 = k2
    · subst h32
      by_cases h3k : k3 = k <;> simp [addB, lookupB, h3k]
    · by_cases h3k : k3 = k
      · subst h3k
        have : k2 ≠ k3 := fun h => h32 h.symm
        simp [addB, lookupB, h32, this]
      · simp [addB, lookupB, h32, h3k, ih]

theorem keysB_addB {K A : Type} [DecidableEq K] (bs : List (K × List A))
    (k : K) (a : A) :
    keysB (addB bs k a) = if k ∈ keysB bs then keysB bs else keysB bs ++ [k] := by
  induction bs with
  | nil => simp [addB, keysB]
  | cons b rest ih =>
    obtain ⟨k3, l⟩ := b
    by_cases h : k3 = k
    · subst h; simp [addB, keysB]
    · have hne : k ≠ k3 := fun hh => h hh.symm
      by_cases hk : k ∈ keysB rest
      · simp only [addB, h, if_false, keysB, List.map_cons]
        have := ih
        simp only [keysB] at this
        rw [this]
        simp only [keysB] at hk
        simp [hk]
      · simp only [addB, h, if_false, keysB, List.map_cons]
        have := ih
        simp only [keysB] at this
        rw [this]
        simp only [keysB] at hk
        simp [hk, hne]

theorem nodup_keysB_addB {K A : Type} [DecidableEq K] (bs : List (K × List A))
    (k : K) (a : A) (h : (keysB bs).Nodup) : (keysB (addB bs k a)).Nodup := by
  rw [keysB_addB]
  by_cases hk : k ∈ keysB bs
  · simpa [hk]
  · simp [hk, List.nodup_append, h]

theorem mem_keysB_iff_lookupB_ne {K A : Type} [DecidableEq K]
    (bs : List (K × List A)) (hn : ∀ p ∈ bs, p.2 ≠ []) (k : K) :
    k ∈ keysB bs ↔ lookupB bs k ≠ [] := by
  induction bs with
  | nil => simp [keysB, lookupB]
  | cons b rest ih =>
    obtain ⟨k3, l⟩ := b
    by_cases h : k3 = k
    · subst h
      have := hn (k3, l) (by simp)
      simp [keysB, lookupB, this]
    · have hne : k ≠ k3 := fun hh => h hh.symm
      simp only [keysB, List.map_cons, List.mem_cons, lookupB, h, if_false]
      have := ih (fun p hp => hn p (List.mem_cons_of_mem _ hp))
      simp only [keysB] at this
      constructor
      · rintro (hk | hk)
        · exact absurd hk hne
        · exact this.mp hk
      · intro hk
        exact Or.inr (this.mpr hk)

theorem buckets_nonempty {K A : Type} [DecidableEq K] (key : A → K) (xs : List A) :
    ∀ p ∈ bucketsFold key xs, p.2 ≠ [] := by
  suffices h : ∀ bs, (∀ p ∈ bs, p.2 ≠ []) →
      ∀ p ∈ xs.foldl (fun bs a => addB bs (key a) a) bs, p.2 ≠ [] by
    intro p hp
    exact h [] (by simp) p hp
  induction xs with
  | nil => intro bs hbs p hp; exact hbs p hp
  | cons x t ih =>
    intro bs hbs p hp
    refine ih (addB bs (key x) x) ?_ p hp
    clear hp ih
    induction bs with
    | nil => simp [addB]
    | cons b rest ih2 =>
      obtain ⟨k3, l⟩ := b
      by_cases h : k3 = key x
      · subst h
        intro p hp
        rcases List.mem_cons.mp (by simpa [addB] using hp) with h1 | h1
        · subst h1; simp
        · exact hbs p (List.mem_cons_of_mem _ h1)
      · intro p hp
        rcases List.mem_cons.mp (by simpa [addB, h] using hp) with h1 | h1
        · subst h1
          exact hbs (k3, l) (by simp)
        · exact ih2 (fun q hq => hbs q (List.mem_cons_of_mem _ hq)) p h1

theorem bucketsFold_append {K A : Type} [DecidableEq K] (key : A → K)
    (xs : List A) (x : A) :
    bucketsFold key (xs ++ [x]) = addB (bucketsFold key xs) (key x) x := by
  simp [bucketsFold, List.foldl_append]

theorem lookupB_bucketsFold {K A : Type} [DecidableEq K] (key : A → K)
    (xs : List A) (k : K) :
    lookupB (bucketsFold key xs) k = xs.filter (fun x => key x = k) := by
  induction xs using List.reverseRecOn with
  | nil => simp [bucketsFold, lookupB]
  | append_singleton t x ih =>
    rw [bucketsFold_append, lookupB_addB, ih, List.filter_append]
    by_cases h : key x = k <;> simp [h]

theorem nodup_keysB_bucketsFold {K A : Type} [DecidableEq K] (key : A → K)
    (xs : List A) : (keysB (bucketsFold key xs)).Nodup := by
  induction xs using List.reverseRecOn with
  | nil => simp [bucketsFold, keysB]
  | append_singleton t x ih =>
    rw [bucketsFold_append]
    exact nodup_keysB_addB _ _ _ ih

theorem lookupB_of_mem_nodup {K A : Type} [DecidableEq K]
    (bs : List (K × List A)) (h : (keysB bs).Nodup) (k : K) (l : List A)
    (hm : (k, l) ∈ bs) : lookupB bs k = l := by
  induction bs with
  | nil => simp at hm
  | cons b rest ih =>
    obtain ⟨k3, l3⟩ := b
    rcases List.mem_cons.mp hm with h1 | h1
    · have h1a : k = k3 := congrArg Prod.fst h1
      have h1b : l = l3 := congrArg Prod.snd h1
      subst h1a; subst h1b
      simp [lookupB]
    · have hk3 : k3 ≠ k := by
        intro hh
        subst hh
        simp [keysB] at h
        exact h.1 l h1
      have hrest : (keysB rest).Nodup := by
        simp [keysB] at h ⊢
        exact h.2
      simp [lookupB, hk3, ih hrest h1]

/-- Every bucket of a bucket fold is exactly the filter of its key, in scan
order. -/
theorem bucket_eq_filter {K A : Type} [DecidableEq K] (key : A → K)
    (xs : List A) (k : K) (l : List A) (hm : (k, l) ∈ bucketsFold key xs) :
    l = xs.filter (fun x => key x = k) := by
  have h1 := lookupB_of_mem_nodup _ (nodup_keysB_bucketsFold key xs) k l hm
  rw [← h1, lookupB_bucketsFold]

theorem opsGood_tail {op : MergeOp} {ops : List MergeOp}
    (h : opsGood (op :: ops)) : opsGood ops := by
  obtain ⟨h1, h2⟩ := h
  exact ⟨fun o ho o2 ho2 => h1 o (List.mem_cons_of_mem _ ho) o2 (List.mem_cons_of_mem _ ho2),
    (List.pairwise_cons.mp h2).2⟩

theorem refUpds_of_not_mem (ops : List MergeOp) (r : Nat)
    (h : ∀ op ∈ ops, r ∉ op.2) : refUpds ops r = r := by
  induction ops with
  | nil => rfl
  | cons op rest ih =>
    have h0 : r ∉ op.2 := h op (by simp)
    show refUpds rest (refUpd op r) = r
    rw [refUpd, if_neg h0]
    exact ih (fun o ho => h o (List.mem_cons_of_mem _ ho))

theorem keepId_iff (ops : List MergeOp) (i : Nat) :
    keepId ops i = true ↔ ∀ op ∈ ops, i ∉ op.2 := by
  simp [keepId]

theorem refUpds_of_mem (ops : List MergeOp) (hgood : opsGood ops)
    (c : Nat) (rs : List Nat) (hop : (c, rs) ∈ ops) (r : Nat)
    (hr : r ∈ rs ∨ r = c) : refUpds ops r = c := by
  induction ops with
  | nil => simp at hop
  | cons op rest ih =>
    have hgr := opsGood_tail hgood
    rcases List.mem_cons.mp hop with hh | hh
    · subst hh
      have hcnotin : ∀ o ∈ (c, rs) :: rest, c ∉ o.2 := by
        intro o ho
        exact hgood.1 (c, rs) (by simp) o ho
      rcases hr with hr | hr
      · show refUpds rest (refUpd (c, rs) r) = c
        rw [refUpd, if_pos hr]
        exact refUpds_of_not_mem rest c
          (fun o ho => hcnotin o (List.mem_cons_of_mem _ ho))
      · subst hr
        show refUpds rest (refUpd (r, rs) r) = r
        rw [refUpd, if_neg (hcnotin (r, rs) (by simp))]
        exact refUpds_of_not_mem rest r
          (fun o ho => hcnotin o (List.mem_cons_of_mem _ ho))
    · have hdisj : ∀ x ∈ op.2, x ∉ rs := by
        have := (List.pairwise_cons.mp hgood.2).1 (c, rs) hh
        intro x hx hxr
        exact this x hx hxr
      have hrnot : r ∉ op.2 := by
        rcases hr with hr | hr
        · intro hmem
          exact hdisj r hmem hr
        · subst hr
          exact hgood.1 (r, rs) (List.mem_cons_of_mem _ hh) op (by simp)
      show refUpds rest (refUpd op r) = c
      rw [refUpd, if_neg hrnot]
      exact ih hgr hh

/-- A surviving reference: any reference, once the pass has rewritten it,
escapes every redundant list of the pass. -/
theorem keepId_refUpds (ops : List MergeOp) (hgood : opsGood ops) (r : Nat) :
    keepId ops (refUpds ops r) = true := by
  by_cases hex : ∃ op ∈ ops, r ∈ op.2
  · obtain ⟨op, hop, hmem⟩ := hex
    rw [refUpds_of_mem ops hgood op.1 op.2 (by simpa using hop) r (Or.inl hmem)]
    rw [keepId_iff]
    intro o ho
    exact hgood.1 op hop o ho
  · push_neg at hex
    rw [refUpds_of_not_mem ops r hex, keepId_iff]
    exact hex

theorem applyMemberOps_spec (ops : List MergeOp) (db : DB) :
    applyMemberOps db ops =
      { db with
        filings := db.filings.map (fun f => { f with member_id := refUpds ops f.member_id }),
        members := db.members.filter (fun m => keepId ops m.member_id) } := by
  induction ops generalizing db with
  | nil =>
    show db = _
    have h1 : db.filings.map (fun f => { f with member_id := refUpds [] f.member_id }) = db.filings := by
      simp [refUpds]
    have h2 : db.members.filter (fun m => keepId [] m.member_id) = db.members := by
      simp [keepId]
    rw [h1, h2]
  | cons op rest ih =>
    show applyMemberOps (applyMemberOp db op) rest = _
    rw [ih]
    have h1 : (applyMemberOp db op).filings.map
        (fun f => { f with member_id := refUpds rest f.member_id }) =
        db.filings.map (fun f => { f with member_id := refUpds (op :: rest) f.member_id }) := by
      show (db.filings.map _).map _ = _
      rw [List.map_map]
      apply List.map_congr_left
      intro f _
      show _ = ({ f with member_id := refUpds rest (refUpd op f.member_id) } : Filing)
      by_cases h : f.member_id ∈ op.2 <;> simp [refUpd, h]
    have h2 : (applyMemberOp db op).members.filter (fun m => keepId rest m.member_id) =
        db.members.filter (fun m => keepId (op :: rest) m.member_id) := by
      show (db.members.filter _).filter _ = _
      rw [List.filter_filter]
      apply List.filter_congr
      intro m _
      simp [keepId, Bool.and_comm]
    rw [h1, h2]
    rfl

theorem applyAssetOps_spec (ops : List MergeOp) (db : DB) :
    applyAssetOps db ops =
      { db with
        transactions := db.transactions.map (fun t => { t with asset_id := refUpds ops t.asset_id }),
        assets := db.assets.filter (fun a => keepId ops a.asset_id) } := by
  induction ops generalizing db with
  | nil =>
    show db = _
    have h1 : db.transactions.map (fun t => { t with asset_id := refUpds [] t.asset_id }) = db.transactions := by
      simp [refUpds]
    have h2 : db.assets.filter (fun a => keepId [] a.asset_id) = db.assets := by
      simp [keepId]
    rw [h1, h2]
  | cons op rest ih =>
    show applyAssetOps (applyAssetOp db op) rest = _
    rw [ih]
    have h1 : (applyAssetOp db op).transactions.map
        (fun t => { t with asset_id := refUpds rest t.asset_id }) =
        db.transactions.map (fun t => { t with asset_id := refUpds (op :: rest) t.asset_id }) := by
      show (db.transactions.map _).map _ = _
      rw [List.map_map]
      apply List.map_congr_left
      intro t _
      show _ = ({ t with asset_id := refUpds rest (refUpd op t.asset_id) } : Txn)
      by_cases h : t.asset_id ∈ op.2 <;> simp [refUpd, h]
    have h2 : (applyAssetOp db op).assets.filter (fun a => keepId rest a.asset_id) =
        db.assets.filter (fun a => keepId (op :: rest) a.asset_id) := by
      show (db.assets.filter _).filter _ = _
      rw [List.filter_filter]
      apply List.filter_congr
      intro a _
      simp [keepId, Bool.and_comm]
    rw [h1, h2]
    rfl

/-! ### Structure and validity of the member duplicate groups -/

theorem minList_mem (l : List Nat) (h : l ≠ []) : minList l ∈ l := by
  match l with
  | h0 :: t =>
    show t.foldl min h0 ∈ h0 :: t
    clear h
    induction t generalizing h0 with
    | nil => simp [List.foldl]
    | cons x t ih =>
      show t.foldl min (min h0 x) ∈ h0 :: x :: t
      have := ih (min h0 x)
      rcases List.mem_cons.mp this with h1 | h1
      · rw [h1]
        rcases min_choice h0 x with h2 | h2 <;> simp [h2]
      · simp [h1]

theorem chooseCanonicalDb_mem (g : List AssetInfo) (h : g ≠ []) :
    chooseCanonicalDb g ∈ g := by
  match g with
  | h0 :: t =>
    show t.foldl _ h0 ∈ h0 :: t
    clear h
    induction t generalizing h0 with
    | nil => simp [List.foldl]
    | cons x t ih =>
      show t.foldl _ (if scoreAsset1000 h0 < scoreAsset1000 x then x else h0) ∈ h0 :: x :: t
      have := ih (if scoreAsset1000 h0 < scoreAsset1000 x then x else h0)
      rcases List.mem_cons.mp this with h1 | h1
      · rw [h1]
        by_cases h2 : scoreAsset1000 h0 < scoreAsset1000 x <;> simp [h2]
      · simp [h1]

theorem choose_canonical_asset_mem (g : List AssetRecord) (h : g ≠ []) :
    choose_canonical_asset g ∈ g := by
  match g with
  | h0 :: t =>
    show t.foldl _ h0 ∈ h0 :: t
    clear h
    induction t generalizing h0 with
    | nil => simp [List.foldl]
    | cons x t ih =>
      show t.foldl _ (if enTupleGT x h0 then x else h0) ∈ h0 :: x :: t
      have := ih (if enTupleGT x h0 then x else h0)
      rcases List.mem_cons.mp this with h1 | h1
      · rw [h1]
        by_cases h2 : enTupleGT x h0 <;> simp [h2]
      · simp [h1]

/-- A filter whose predicate pins down one element of a duplicate-free list
returns exactly that element. -/
theorem filter_eq_singleton {α : Type} (l : List α) (p : α → Bool) (a : α)
    (hnd : l.Nodup) (ha : a ∈ l) (hpa : p a = true)
    (huniq : ∀ b ∈ l, p b = true → b = a) : l.filter p = [a] := by
  induction l with
  | nil => simp at ha
  | cons x t ih =>
    rcases List.mem_cons.mp ha with h1 | h1
    · subst h1
      have hx : p a = true := hpa
      have ht : t.filter p = [] := by
        rw [List.filter_eq_nil_iff]
        intro b hb hpb
        have := huniq b (List.mem_cons_of_mem _ hb) hpb
        subst this
        exact (List.nodup_cons.mp hnd).1 hb
      simp [List.filter_cons, hx, ht]
    · have hxa : x ≠ a := by
        intro hh
        subst hh
        exact (List.nodup_cons.mp hnd).1 h1
      have hpx : ¬ p x = true := fun hpx => hxa (huniq x (by simp) hpx)
      have := ih (List.nodup_cons.mp hnd).2 h1
        (fun b hb hpb => huniq b (List.mem_cons_of_mem _ hb) hpb)
      simp [List.filter_cons, hpx, this]

/-- A list with two distinct elements has length at least two. -/
theorem two_le_length_of_mem_ne {α : Type} (l : List α) (a b : α)
    (ha : a ∈ l) (hb : b ∈ l) (hab : a ≠ b) : 2 ≤ l.length := by
  match l with
  | [] => simp at ha
  | [x] =>
    simp at ha hb
    subst ha; subst hb
    exact absurd rfl hab
  | x :: y :: t => simp [Nat.succ_le_succ, Nat.le_add_left]

/-- Each entry of the member duplicate dictionary carries the ids of
exactly the members whose key equals the entry key, and more than one of
them. -/
theorem findMemberDuplicates_spec (members : List Member) (k : List Char)
    (ids : List Nat) (hm : (k, ids) ∈ findMemberDuplicates members) :
    ids = (members.filter (fun m => memberKey m.name = k)).map Member.member_id ∧
      1 < ids.length := by
  simp only [findMemberDuplicates, List.mem_map, List.mem_filter] at hm
  obtain ⟨⟨k2, l⟩, ⟨hmem, hlen⟩, heq⟩ := hm
  have hk : k2 = k := congrArg Prod.fst heq
  have hl : l.map Member.member_id = ids := congrArg Prod.snd heq
  subst hk
  have := bucket_eq_filter (fun m => memberKey m.name) members k2 l hmem
  constructor
  · rw [← hl, this]
  · rw [← hl]
    simpa using hlen

/-- The member duplicate dictionary has pairwise distinct keys. -/
theorem findMemberDuplicates_keys_pairwise (members : List Member) :
    List.Pairwise (fun e1 e2 => e1.1 ≠ e2.1) (findMemberDuplicates members) := by
  have h1 : List.Pairwise (fun e1 e2 => e1.1 ≠ e2.1)
      (bucketsFold (fun m => memberKey m.name) members) := by
    have := nodup_keysB_bucketsFold (fun m => memberKey m.name) members
    simpa [keysB, List.Nodup, List.pairwise_map] using this
  have h2 := h1.filter (fun b => decide (b.2.length > 1))
  simp only [findMemberDuplicates]
  rw [List.pairwise_map]
  exact h2.imp (fun h => h)

/-- Distinct entries of the member duplicate dictionary have disjoint id
lists, when member ids are unique. -/
theorem findMemberDuplicates_disjoint (members : List Member)
    (hnd : (members.map Member.member_id).Nodup) :
    List.Pairwise (fun e1 e2 => ∀ i ∈ e1.2, i ∉ e2.2)
      (findMemberDuplicates members) := by
  refine (findMemberDuplicates_keys_pairwise members).imp_of_mem ?_
  intro e1 e2 h1 h2 hne i hi1 hi2
  obtain ⟨hid1, _⟩ := findMemberDuplicates_spec members e1.1 e1.2 (by simpa using h1)
  obtain ⟨hid2, _⟩ := findMemberDuplicates_spec members e2.1 e2.2 (by simpa using h2)
  rw [hid1] at hi1
  rw [hid2] at hi2
  obtain ⟨m1, hm1, hmid1⟩ := List.mem_map.mp hi1
  obtain ⟨m2, hm2, hmid2⟩ := List.mem_map.mp hi2
  have hm1m : m1 ∈ members := (List.mem_filter.mp hm1).1
  have hm2m : m2 ∈ members := (List.mem_filter.mp hm2).1
  have : m1 = m2 := List.inj_on_of_nodup_map hnd hm1m hm2m (by rw [hmid1, hmid2])
  subst this
  apply hne
  have hk1 : memberKey m1.name = e1.1 := by simpa using (List.mem_filter.mp hm1).2
  have hk2 : memberKey m1.name = e2.1 := by simpa using (List.mem_filter.mp hm2).2
  rw [← hk1, ← hk2]

theorem cleanupMembers_eq (db : DB) :
    cleanupMembers db = applyMemberOps db (memberOps db.members) := by
  simp [cleanupMembers, applyMemberOps, memberOps, List.foldl_map]

/-- The member pass is a valid sequence of merge operations. -/
theorem memberOps_good (members : List Member)
    (hnd : (members.map Member.member_id).Nodup) : opsGood (memberOps members) := by
  have hdisj := findMemberDuplicates_disjoint members hnd
  constructor
  · intro op hop op2 hop2
    simp only [memberOps, List.mem_map] at hop hop2
    obtain ⟨e1, he1, heq1⟩ := hop
    obtain ⟨e2, he2, heq2⟩ := hop2
    subst heq1; subst heq2
    by_cases hsame : e1 = e2
    · subst hsame
      simp [memberOp]
    · have hsymm : Symmetric (fun (a b : List Char × List Nat) => ∀ i ∈ a.2, i ∉ b.2) := by
        intro a b hab i hib hia
        exact hab i hia hib
      have hdis : ∀ i ∈ e1.2, i ∉ e2.2 := hdisj.forall hsymm he1 he2 hsame
      have hmin : minList e1.2 ∈ e1.2 := by
        apply minList_mem
        intro hnil
        obtain ⟨_, hlen⟩ := findMemberDuplicates_spec members e1.1 e1.2 (by simpa using he1)
        rw [hnil] at hlen
        simp at hlen
      intro hmem
      simp only [memberOp] at hmem
      exact hdis (minList e1.2) hmin (List.mem_filter.mp hmem).1
  · simp only [memberOps]
    rw [List.pairwise_map]
    refine hdisj.imp ?_
    intro e1 e2 h i hi1 hi2
    simp only [memberOp] at hi1 hi2
    exact h i (List.mem_filter.mp hi1).1 (List.mem_filter.mp hi2).1

theorem cleanupMembers_members (db : DB) :
    (cleanupMembers db).members =
      db.members.filter (fun m => keepId (memberOps db.members) m.member_id) := by
  rw [cleanupMembers_eq, applyMemberOps_spec]

theorem cleanupMembers_filings (db : DB) :
    (cleanupMembers db).filings =
      db.filings.map (fun f => { f with member_id := refUpds (memberOps db.members) f.member_id }) := by
  rw [cleanupMembers_eq, applyMemberOps_spec]

theorem cleanupMembers_assets (db : DB) : (cleanupMembers db).assets = db.assets := by
  rw [cleanupMembers_eq, applyMemberOps_spec]

theorem cleanupMembers_transactions (db : DB) :
    (cleanupMembers db).transactions = db.transactions := by
  rw [cleanupMembers_eq, applyMemberOps_spec]

/-- After the member stage, no filing references a member id that existed
before the stage but was deleted by the stage. -/
theorem cleanupMembers_ref_ok (db : DB)
    (hnd : (db.members.map Member.member_id).Nodup) :
    ∀ f ∈ (cleanupMembers db).filings,
      f.member_id ∈ db.members.map Member.member_id →
      f.member_id ∈ (cleanupMembers db).members.map Member.member_id := by
  intro f hf hmem
  rw [cleanupMembers_filings] at hf
  obtain ⟨f0, _, hf0⟩ := List.mem_map.mp hf
  have hval : f.member_id = refUpds (memberOps db.members) f0.member_id := by
    rw [← hf0]
  have hkeep : keepId (memberOps db.members) f.member_id = true := by
    rw [hval]
    exact keepId_refUpds _ (memberOps_good db.members hnd) _
  obtain ⟨m, hm, hmid⟩ := List.mem_map.mp hmem
  rw [cleanupMembers_members]
  apply List.mem_map.mpr
  refine ⟨m, List.mem_filter.mpr ⟨hm, ?_⟩, hmid⟩
  rw [hmid]
  exact hkeep

theorem lookupB_self_mem {K A : Type} [DecidableEq K]
    (bs : List (K × List A)) (k : K) (h : lookupB bs k ≠ []) :
    (k, lookupB bs k) ∈ bs := by
  induction bs with
  | nil => simp [lookupB] at h
  | cons b rest ih =>
    obtain ⟨k3, l⟩ := b
    by_cases hk : k3 = k
    · subst hk
      simp [lookupB]
    · simp only [lookupB, hk, if_false] at h ⊢
      exact List.mem_cons_of_mem _ (ih h)

/-- A second scan of the member table after the member stage finds no
duplicate group. -/
theorem findMemberDuplicates_cleanup_nil (db : DB)
    (hnd : (db.members.map Member.member_id).Nodup) :
    findMemberDuplicates (cleanupMembers db).members = [] := by
  by_contra hne
  obtain ⟨⟨k, ids⟩, hmem⟩ := List.exists_mem_of_ne_nil _ hne
  obtain ⟨hids, hlen⟩ := findMemberDuplicates_spec _ k ids hmem
  set l := (cleanupMembers db).members.filter (fun m => memberKey m.name = k) with hl
  have hllen : 1 < l.length := by
    rw [hids] at hlen
    simpa using hlen
  have hvnd : db.members.Nodup := List.Nodup.of_map _ hnd
  have hlnd : l.Nodup := by
    rw [hl, cleanupMembers_members]
    exact (hvnd.filter _).filter _
  obtain ⟨m1, m2, t, hml⟩ : ∃ m1 m2 t, l = m1 :: m2 :: t := by
    match hx : l with
    | [] => simp at hllen
    | [x] => simp at hllen
    | m1 :: m2 :: t => exact ⟨m1, m2, t, rfl⟩
  have hm1l : m1 ∈ l := by rw [hml]; simp
  have hm2l : m2 ∈ l := by rw [hml]; simp
  have hne12 : m1 ≠ m2 := by
    rw [hml] at hlnd
    intro hh
    subst hh
    exact (List.nodup_cons.mp hlnd).1 (by simp)
  have hprops : ∀ m ∈ l, m ∈ db.members ∧
      keepId (memberOps db.members) m.member_id = true ∧ memberKey m.name = k := by
    intro m hm
    rw [hl, cleanupMembers_members] at hm
    have h1 := List.mem_filter.mp hm
    have h2 := List.mem_filter.mp h1.1
    exact ⟨h2.1, h2.2, by simpa using h1.2⟩
  obtain ⟨hm1db, hm1keep, hm1key⟩ := hprops m1 hm1l
  obtain ⟨hm2db, hm2keep, hm2key⟩ := hprops m2 hm2l
  set B := db.members.filter (fun m => memberKey m.name = k) with hB
  have hm1B : m1 ∈ B := List.mem_filter.mpr ⟨hm1db, by simpa using hm1key⟩
  have hm2B : m2 ∈ B := List.mem_filter.mpr ⟨hm2db, by simpa using hm2key⟩
  have hBlen : 1 < B.length := two_le_length_of_mem_ne B m1 m2 hm1B hm2B hne12
  have hBlookup : lookupB (bucketsFold (fun m => memberKey m.name) db.members) k = B := by
    rw [lookupB_bucketsFold]
  have hBmem : (k, B) ∈ bucketsFold (fun m => memberKey m.name) db.members := by
    rw [← hBlookup]
    apply lookupB_self_mem
    rw [hBlookup]
    intro hh
    rw [hh] at hm1B
    simp at hm1B
  have hdupmem : (k, B.map Member.member_id) ∈ findMemberDuplicates db.members := by
    simp only [findMemberDuplicates, List.mem_map]
    refine ⟨(k, B), List.mem_filter.mpr ⟨hBmem, by simpa using hBlen⟩, rfl⟩
  have hopmem : memberOp (B.map Member.member_id) ∈ memberOps db.members := by
    simp only [memberOps, List.mem_map]
    exact ⟨(k, B.map Member.member_id), hdupmem, rfl⟩
  have heqmin : ∀ m ∈ l, m ∈ B → m.member_id = minList (B.map Member.member_id) := by
    intro m hml' hmB
    obtain ⟨_, hkeep, _⟩ := hprops m hml'
    rw [keepId_iff] at hkeep
    have := hkeep _ hopmem
    simp only [memberOp, List.mem_filter] at this
    by_contra hneq
    exact this ⟨List.mem_map.mpr ⟨m, hmB, rfl⟩, by simpa using hneq⟩
  have h1 := heqmin m1 hm1l hm1B
  have h2 := heqmin m2 hm2l hm2B
  have : m1 = m2 := by
    apply List.inj_on_of_nodup_map hnd hm1db hm2db
    rw [h1, h2]
  exact hne12 this

/-- The member stage is idempotent. -/
theorem cleanupMembers_idem (db : DB)
    (hnd : (db.members.map Member.member_id).Nodup) :
    cleanupMembers (cleanupMembers db) = cleanupMembers db := by
  show (findMemberDuplicates (cleanupMembers db).members).foldl _ _ = _
  rw [findMemberDuplicates_cleanup_nil db hnd]
  rfl

/-- The routing fold splits into the two filtered bucket folds. -/
theorem dbAssetBuckets_eq (infos : List AssetInfo) :
    dbAssetBuckets infos =
      (bucketsFold tKeyD (infos.filter hasTKey),
        bucketsFold nKeyI (infos.filter inNameStream)) := by
  suffices h : ∀ b1 b2, infos.foldl routeAsset (b1, b2) =
      ((infos.filter hasTKey).foldl (fun bs i => addB bs (tKeyD i) i) b1,
        (infos.filter inNameStream).foldl (fun bs i => addB bs (nKeyI i) i) b2) by
    exact h [] []
  induction infos with
  | nil => intro b1 b2; rfl
  | cons i rest ih =>
    intro b1 b2
    show rest.foldl routeAsset (routeAsset (b1, b2) i) = _
    cases hk : dbTickerKey i.ticker with
    | some k =>
      have h1 : hasTKey i = true := by simp [hasTKey, hk]
      have h2 : inNameStream i = false := by simp [inNameStream, hasTKey, hk]
      have h3 : tKeyD i = k := by simp [tKeyD, hk]
      have h4 : routeAsset (b1, b2) i = (addB b1 k i, b2) := by
        simp [routeAsset, hk]
      rw [h4, ih (addB b1 k i) b2]
      simp [List.filter_cons, h1, h2, h3]
    | none =>
      by_cases hnm : (normalizeCompanyNameAdvanced i.company_name).isEmpty
      · have h1 : hasTKey i = false := by simp [hasTKey, hk]
        have h2 : inNameStream i = false := by simp [inNameStream, hasTKey, hk, nKeyI, hnm]
        have h4 : routeAsset (b1, b2) i = (b1, b2) := by
          simp [routeAsset, hk, hnm]
        rw [h4, ih b1 b2]
        simp [List.filter_cons, h1, h2]
      · have h1 : hasTKey i = false := by simp [hasTKey, hk]
        have h2 : inNameStream i = true := by
          simp [inNameStream, hasTKey, hk, nKeyI]
          simpa using hnm
        have h4 : routeAsset (b1, b2) i = (b1, addB b2 (nKeyI i) i) := by
          simp only [routeAsset, hk]
          rw [if_neg ?_]
          · rfl
          · simpa [nKeyI] using hnm
        rw [h4, ih b1 (addB b2 (nKeyI i) i)]
        simp [List.filter_cons, h1, h2]

/-- Every duplicate group of the dbcleanup asset finder is the full class
of one ticker key or one name key, with more than one element. -/
theorem dbDuplicateGroups_spec (infos : List AssetInfo) (g : List AssetInfo)
    (hg : g ∈ dbDuplicateGroups infos) :
    1 < g.length ∧
      ((∃ k, g = infos.filter (pT k)) ∨ (∃ n, g = infos.filter (pN n))) := by
  simp only [dbDuplicateGroups, dbAssetBuckets_eq, List.mem_append, List.mem_map,
    List.mem_filter] at hg
  rcases hg with ⟨⟨k, l⟩, ⟨hmem, hlen⟩, heq⟩ | ⟨⟨k, l⟩, ⟨hmem, hlen⟩, heq⟩
  · have hl : l = g := heq
    rw [← hl]
    refine ⟨by simpa using hlen, Or.inl ⟨k, ?_⟩⟩
    have := bucket_eq_filter tKeyD (infos.filter hasTKey) k l hmem
    rw [this, List.filter_filter]
    rfl
  · have hl : l = g := heq
    rw [← hl]
    refine ⟨by simpa using hlen, Or.inr ⟨k, ?_⟩⟩
    have := bucket_eq_filter nKeyI (infos.filter inNameStream) k l hmem
    rw [this, List.filter_filter]
    rfl

theorem foldl_mergeAssetGroup (gs : List (List AssetInfo))
    (hlen : ∀ g ∈ gs, 1 < g.length) (d : DB) :
    gs.foldl mergeAssetGroup d = gs.foldl (fun d g => applyAssetOp d (dbAssetOp g)) d := by
  induction gs generalizing d with
  | nil => rfl
  | cons g rest ih =>
    show rest.foldl mergeAssetGroup (mergeAssetGroup d g) = _
    have h1 : mergeAssetGroup d g = applyAssetOp d (dbAssetOp g) := by
      have := hlen g (by simp)
      rw [mergeAssetGroup, if_neg (by omega)]
    rw [h1]
    exact ih (fun g2 hg2 => hlen g2 (List.mem_cons_of_mem _ hg2)) _

theorem dbCleanupAssets_eq (db : DB) :
    dbCleanupAssets db =
      applyAssetOps db (dbAssetOpsOf (db.assets.map (mkAssetInfo db.transactions))) := by
  show (dbDuplicateGroups _).foldl mergeAssetGroup db = _
  rw [applyAssetOps, dbAssetOpsOf, List.foldl_map]
  exact foldl_mergeAssetGroup _
    (fun g hg => (dbDuplicateGroups_spec _ g hg).1) db

/-- A shared id between two filtered classes comes from one row satisfying
both class predicates, when ids are unique. -/
theorem common_id_filter (infos : List AssetInfo)
    (hnd : (infos.map AssetInfo.asset_id).Nodup) (p q : AssetInfo → Bool) (i : Nat)
    (h1 : i ∈ (infos.filter p).map AssetInfo.asset_id)
    (h2 : i ∈ (infos.filter q).map AssetInfo.asset_id) :
    ∃ x ∈ infos, p x = true ∧ q x = true := by
  obtain ⟨x1, hx1, hid1⟩ := List.mem_map.mp h1
  obtain ⟨x2, hx2, hid2⟩ := List.mem_map.mp h2
  have hx1m := List.mem_filter.mp hx1
  have hx2m := List.mem_filter.mp hx2
  have : x1 = x2 :=
    List.inj_on_of_nodup_map hnd hx1m.1 hx2m.1 (by rw [hid1, hid2])
  subst this
  exact ⟨x1, hx1m.1, hx1m.2, hx2m.2⟩

/-- The class behind every duplicate group is incompatible with the class
behind every other group: the groups have pairwise disjoint id sets. -/
theorem dbGroups_pairwise_disjoint (infos : List AssetInfo)
    (hnd : (infos.map AssetInfo.asset_id).Nodup) :
    List.Pairwise
      (fun g1 g2 => ∀ i ∈ g1.map AssetInfo.asset_id, i ∉ g2.map AssetInfo.asset_id)
      (dbDuplicateGroups infos) := by
  have htb : List.Pairwise (fun e1 e2 => e1.1 ≠ e2.1)
      ((dbAssetBuckets infos).1.filter (fun b => b.2.length > 1)) := by
    apply List.Pairwise.filter
    rw [dbAssetBuckets_eq]
    have := nodup_keysB_bucketsFold tKeyD (infos.filter hasTKey)
    simpa [keysB, List.Nodup, List.pairwise_map] using this
  have hnb : List.Pairwise (fun e1 e2 => e1.1 ≠ e2.1)
      ((dbAssetBuckets infos).2.filter (fun b => b.2.length > 1)) := by
    apply List.Pairwise.filter
    rw [dbAssetBuckets_eq]
    have := nodup_keysB_bucketsFold nKeyI (infos.filter inNameStream)
    simpa [keysB, List.Nodup, List.pairwise_map] using this
  have htchar : ∀ e ∈ (dbAssetBuckets infos).1.filter (fun b => b.2.length > 1),
      e.2 = infos.filter (pT e.1) := by
    intro e he
    have hmem := (List.mem_filter.mp he).1
    rw [dbAssetBuckets_eq] at hmem
    have := bucket_eq_filter tKeyD (infos.filter hasTKey) e.1 e.2 (by simpa using hmem)
    rw [this, List.filter_filter]
    rfl
  have hnchar : ∀ e ∈ (dbAssetBuckets infos).2.filter (fun b => b.2.length > 1),
      e.2 = infos.filter (pN e.1) := by
    intro e he
    have hmem := (List.mem_filter.mp he).1
    rw [dbAssetBuckets_eq] at hmem
    have := bucket_eq_filter nKeyI (infos.filter inNameStream) e.1 e.2 (by simpa using hmem)
    rw [this, List.filter_filter]
    rfl
  simp only [dbDuplicateGroups]
  rw [List.pairwise_append]
  refine ⟨?_, ?_, ?_⟩
  · rw [List.pairwise_map]
    refine htb.imp_of_mem ?_
    intro e1 e2 he1 he2 hne i hi1 hi2
    rw [htchar e1 he1] at hi1
    rw [htchar e2 he2] at hi2
    obtain ⟨x, _, hx1, hx2⟩ := common_id_filter infos hnd _ _ i hi1 hi2
    simp only [pT, Bool.and_eq_true, decide_eq_true_eq] at hx1 hx2
    exact hne (by rw [← hx1.1, ← hx2.1])
  · rw [List.pairwise_map]
    refine hnb.imp_of_mem ?_
    intro e1 e2 he1 he2 hne i hi1 hi2
    rw [hnchar e1 he1] at hi1
    rw [hnchar e2 he2] at hi2
    obtain ⟨x, _, hx1, hx2⟩ := common_id_filter infos hnd _ _ i hi1 hi2
    simp only [pN, Bool.and_eq_true, decide_eq_true_eq] at hx1 hx2
    exact hne (by rw [← hx1.1, ← hx2.1])
  · intro g1 hg1 g2 hg2 i hi1 hi2
    obtain ⟨e1, he1, heq1⟩ := List.mem_map.mp hg1
    obtain ⟨e2, he2, heq2⟩ := List.mem_map.mp hg2
    rw [← heq1, htchar e1 he1] at hi1
    rw [← heq2, hnchar e2 he2] at hi2
    obtain ⟨x, _, hx1, hx2⟩ := common_id_filter infos hnd _ _ i hi1 hi2
    simp only [pT, pN, inNameStream, Bool.and_eq_true, decide_eq_true_eq] at hx1 hx2
    rw [hx1.2] at hx2
    simp at hx2

/-- The id sets of the duplicate groups are free of repeats. -/
theorem dbGroup_ids_nodup (infos : List AssetInfo)
    (hnd : (infos.map AssetInfo.asset_id).Nodup) (g : List AssetInfo)
    (hg : g ∈ dbDuplicateGroups infos) : (g.map AssetInfo.asset_id).Nodup := by
  obtain ⟨_, hchar⟩ := dbDuplicateGroups_spec infos g hg
  have hsub : g.Sublist infos := by
    rcases hchar with ⟨k, hk⟩ | ⟨n, hn⟩
    · rw [hk]; exact List.filter_sublist infos
    · rw [hn]; exact List.filter_sublist infos
  exact hnd.sublist (hsub.map _)

/-- The redundant ids of a group operation are ids of the group. -/
theorem dbAssetOp_rs_subset (g : List AssetInfo) :
    ∀ i ∈ (dbAssetOp g).2, i ∈ g.map AssetInfo.asset_id := by
  intro i hi
  obtain ⟨b, hb, hbid⟩ := List.mem_map.mp hi
  exact List.mem_map.mpr ⟨b, List.erase_subset _ _ hb, hbid⟩

/-- The canonical id of a group is not among its redundant ids, when the
group ids are unique. -/
theorem dbAssetOp_c_notin (g : List AssetInfo)
    (hnd : (g.map AssetInfo.asset_id).Nodup) : (dbAssetOp g).1 ∉ (dbAssetOp g).2 := by
  intro hmem
  obtain ⟨b, hb, hbid⟩ := List.mem_map.mp hmem
  have hvnd : g.Nodup := List.Nodup.of_map _ hnd
  have hbg := (hvnd.mem_erase_iff.mp hb)
  have : b = chooseCanonicalDb g :=
    List.inj_on_of_nodup_map hnd hbg.2
      (chooseCanonicalDb_mem g (by intro hh; rw [hh] at hbg; simp at hbg)) hbid
  exact hbg.1 this

/-- The dbcleanup asset pass is a valid sequence of merge operations. -/
theorem dbAssetOps_good (infos : List AssetInfo)
    (hnd : (infos.map AssetInfo.asset_id).Nodup) : opsGood (dbAssetOpsOf infos) := by
  have hdisj := dbGroups_pairwise_disjoint infos hnd
  constructor
  · intro op hop op2 hop2
    simp only [dbAssetOpsOf, List.mem_map] at hop hop2
    obtain ⟨g1, hg1, heq1⟩ := hop
    obtain ⟨g2, hg2, heq2⟩ := hop2
    subst heq1; subst heq2
    by_cases hsame : g1 = g2
    · subst hsame
      exact dbAssetOp_c_notin g1 (dbGroup_ids_nodup infos hnd g1 hg1)
    · have hsymm : Symmetric (fun (a b : List AssetInfo) =>
          ∀ i ∈ a.map AssetInfo.asset_id, i ∉ b.map AssetInfo.asset_id) := by
        intro a b hab i hib hia
        exact hab i hia hib
      have hdis := hdisj.forall hsymm hg1 hg2 hsame
      intro hmem
      have hin2 := dbAssetOp_rs_subset g2 _ hmem
      have hc1 : (dbAssetOp g1).1 ∈ g1.map AssetInfo.asset_id := by
        apply List.mem_map.mpr
        refine ⟨chooseCanonicalDb g1, chooseCanonicalDb_mem g1 ?_, rfl⟩
        obtain ⟨hlen, _⟩ := dbDuplicateGroups_spec infos g1 hg1
        intro hh
        rw [hh] at hlen
        simp at hlen
      exact hdis _ hc1 hin2
  · simp only [dbAssetOpsOf]
    rw [List.pairwise_map]
    refine hdisj.imp_of_mem ?_
    intro g1 g2 _ _ h i hi1 hi2
    exact h i (dbAssetOp_rs_subset g1 i hi1) (dbAssetOp_rs_subset g2 i hi2)

/-- Core survivor lemma for one normalization class of the dbcleanup asset
pass: at most one member of the class survives, and when the class is
nonempty exactly one member survives and every reference into the class is
rewritten onto the survivor. -/
theorem survivors_core (infos : List AssetInfo)
    (hnd : (infos.map AssetInfo.asset_id).Nodup) (p : AssetInfo → Bool)
    (hmem : 1 < (infos.filter p).length → infos.filter p ∈ dbDuplicateGroups infos)
    (hiso : ∀ g ∈ dbDuplicateGroups infos,
      (∃ i ∈ (infos.filter p).map AssetInfo.asset_id, i ∈ g.map AssetInfo.asset_id) →
      g = infos.filter p) :
    ((infos.filter p).filter (fun x => keepId (dbAssetOpsOf infos) x.asset_id)).length ≤ 1 ∧
      (infos.filter p ≠ [] → ∃ c ∈ infos.filter p,
        (infos.filter p).filter (fun x => keepId (dbAssetOpsOf infos) x.asset_id) = [c] ∧
        ∀ r ∈ (infos.filter p).map AssetInfo.asset_id,
          refUpds (dbAssetOpsOf infos) r = c.asset_id) := by
  set B := infos.filter p with hB
  set ops := dbAssetOpsOf infos with hops
  have hBidnd : (B.map AssetInfo.asset_id).Nodup :=
    hnd.sublist ((List.filter_sublist infos).map _)
  have hBvnd : B.Nodup := List.Nodup.of_map _ hBidnd
  have hopchar : ∀ op ∈ ops, ∀ i ∈ B.map AssetInfo.asset_id, i ∈ op.2 →
      op = dbAssetOp B ∧ 1 < B.length := by
    intro op hop i hiB hi2
    simp only [hops, dbAssetOpsOf, List.mem_map] at hop
    obtain ⟨g, hg, heq⟩ := hop
    have hsub : ∀ j ∈ op.2, j ∈ g.map AssetInfo.asset_id := by
      rw [← heq]
      exact dbAssetOp_rs_subset g
    have hgB : g = B := hiso g hg ⟨i, hiB, hsub i hi2⟩
    refine ⟨by rw [← heq, hgB], ?_⟩
    have := (dbDuplicateGroups_spec infos g hg).1
    rw [hgB] at this
    exact this
  by_cases hbig : 1 < B.length
  · have hBgrp : B ∈ dbDuplicateGroups infos := hmem hbig
    have hopB : dbAssetOp B ∈ ops := by
      simp only [hops, dbAssetOpsOf, List.mem_map]
      exact ⟨B, hBgrp, rfl⟩
    have hBne : B ≠ [] := by
      intro hh
      rw [hh] at hbig
      simp at hbig
    have hcB : chooseCanonicalDb B ∈ B := chooseCanonicalDb_mem B hBne
    have hcnotin : (dbAssetOp B).1 ∉ (dbAssetOp B).2 :=
      dbAssetOp_c_notin B hBidnd
    have hmemrs : ∀ b ∈ B, b ≠ chooseCanonicalDb B → b.asset_id ∈ (dbAssetOp B).2 := by
      intro b hb hbc
      apply List.mem_map.mpr
      exact ⟨b, hBvnd.mem_erase_iff.mpr ⟨hbc, hb⟩, rfl⟩
    have hkeepchar : ∀ b ∈ B, (keepId ops b.asset_id = true ↔ b = chooseCanonicalDb B) := by
      intro b hb
      constructor
      · intro hkeep
        by_contra hbc
        have := (keepId_iff ops b.asset_id).mp hkeep (dbAssetOp B) hopB
        exact this (hmemrs b hb hbc)
      · intro hbc
        rw [keepId_iff, hbc]
        intro op hop hmem2
        have h5 := hopchar op hop (chooseCanonicalDb B).asset_id
          (List.mem_map.mpr ⟨chooseCanonicalDb B, hcB, rfl⟩) hmem2
        rw [h5.1] at hmem2
        exact hcnotin hmem2
    have hfilter : B.filter (fun x => keepId ops x.asset_id) = [chooseCanonicalDb B] := by
      apply filter_eq_singleton B _ (chooseCanonicalDb B) hBvnd hcB
      · exact (hkeepchar (chooseCanonicalDb B) hcB).mpr rfl
      · intro b hb hpb
        exact (hkeepchar b hb).mp hpb
    refine ⟨by rw [hfilter]; simp, fun _ => ⟨chooseCanonicalDb B, hcB, hfilter, ?_⟩⟩
    intro r hr
    obtain ⟨b, hb, hbid⟩ := List.mem_map.mp hr
    by_cases hbc : b = chooseCanonicalDb B
    · rw [← hbid, hbc]
      apply refUpds_of_not_mem
      intro op hop hmem2
      have h5 := hopchar op hop (chooseCanonicalDb B).asset_id
        (List.mem_map.mpr ⟨chooseCanonicalDb B, hcB, rfl⟩) hmem2
      rw [h5.1] at hmem2
      exact hcnotin hmem2
    · have hrs := hmemrs b hb hbc
      rw [← hbid]
      have hgood : opsGood ops := dbAssetOps_good infos hnd
      exact refUpds_of_mem ops hgood (dbAssetOp B).1 (dbAssetOp B).2 hopB b.asset_id
        (Or.inl hrs)
  · have hsmall : ∀ op ∈ ops, ∀ i ∈ B.map AssetInfo.asset_id, i ∉ op.2 := by
      intro op hop i hiB hi2
      exact hbig (hopchar op hop i hiB hi2).2
    have hkeep : ∀ b ∈ B, keepId ops b.asset_id = true := by
      intro b hb
      rw [keepId_iff]
      intro op hop
      exact hsmall op hop b.asset_id (List.mem_map.mpr ⟨b, hb, rfl⟩)
    have hfe : B.filter (fun x => keepId ops x.asset_id) = B := by
      rw [List.filter_eq_self]
      exact hkeep
    constructor
    · rw [hfe]
      omega
    · intro hBne
      have hlen1 : B.length = 1 := by
        have hpos : 0 < B.length := List.length_pos.mpr hBne
        omega
      obtain ⟨c, hcB⟩ := List.length_eq_one.mp hlen1
      refine ⟨c, by rw [hcB]; simp, by rw [hfe, hcB], ?_⟩
      intro r hr
      have hrc : r = c.asset_id := by
        rw [hcB] at hr
        simpa using hr
      rw [hrc]
      apply refUpds_of_not_mem
      intro op hop
      apply hsmall op hop
      rw [hcB]
      simp [hrc]

/-- The ticker class of key k is a duplicate group when it has more than
one member. -/
theorem classT_mem (infos : List AssetInfo) (k : List Char)
    (h : 1 < (infos.filter (pT k)).length) :
    infos.filter (pT k) ∈ dbDuplicateGroups infos := by
  have hchar : (infos.filter hasTKey).filter (fun i => tKeyD i = k) = infos.filter (pT k) := by
    rw [List.filter_filter]
    rfl
  have hlk : lookupB (bucketsFold tKeyD (infos.filter hasTKey)) k = infos.filter (pT k) := by
    rw [lookupB_bucketsFold]
    exact hchar
  have hne : infos.filter (pT k) ≠ [] := by
    intro hh
    rw [hh] at h
    simp at h
  have hmem : (k, infos.filter (pT k)) ∈ bucketsFold tKeyD (infos.filter hasTKey) := by
    rw [← hlk]
    apply lookupB_self_mem
    rw [hlk]
    exact hne
  simp only [dbDuplicateGroups, dbAssetBuckets_eq, List.mem_append, List.mem_map]
  left
  exact ⟨(k, infos.filter (pT k)), List.mem_filter.mpr ⟨hmem, by simpa using h⟩, rfl⟩

/-- The name class of key n is a duplicate group when it has more than one
member. -/
theorem classN_mem (infos : List AssetInfo) (n : List Char)
    (h : 1 < (infos.filter (pN n)).length) :
    infos.filter (pN n) ∈ dbDuplicateGroups infos := by
  have hchar : (infos.filter inNameStream).filter (fun i => nKeyI i = n) = infos.filter (pN n) := by
    rw [List.filter_filter]
    rfl
  have hlk : lookupB (bucketsFold nKeyI (infos.filter inNameStream)) n = infos.filter (pN n) := by
    rw [lookupB_bucketsFold]
    exact hchar
  have hne : infos.filter (pN n) ≠ [] := by
    intro hh
    rw [hh] at h
    simp at h
  have hmem : (n, infos.filter (pN n)) ∈ bucketsFold nKeyI (infos.filter inNameStream) := by
    rw [← hlk]
    apply lookupB_self_mem
    rw [hlk]
    exact hne
  simp only [dbDuplicateGroups, dbAssetBuckets_eq, List.mem_append, List.mem_map]
  right
  exact ⟨(n, infos.filter (pN n)), List.mem_filter.mpr ⟨hmem, by simpa using h⟩, rfl⟩

/-- Any duplicate group sharing an id with the ticker class of key k is
that class. -/
theorem classT_iso (infos : List AssetInfo)
    (hnd : (infos.map AssetInfo.asset_id).Nodup) (k : List Char) :
    ∀ g ∈ dbDuplicateGroups infos,
      (∃ i ∈ (infos.filter (pT k)).map AssetInfo.asset_id, i ∈ g.map AssetInfo.asset_id) →
      g = infos.filter (pT k) := by
  intro g hg ⟨i, hiB, hig⟩
  obtain ⟨_, hchar⟩ := dbDuplicateGroups_spec infos g hg
  rcases hchar with ⟨k2, hk2⟩ | ⟨n2, hn2⟩
  · rw [hk2] at hig ⊢
    obtain ⟨x, _, hx1, hx2⟩ := common_id_filter infos hnd _ _ i hiB hig
    simp only [pT, Bool.and_eq_true, decide_eq_true_eq] at hx1 hx2
    rw [← hx1.1, hx2.1]
  · rw [hn2] at hig
    obtain ⟨x, _, hx1, hx2⟩ := common_id_filter infos hnd _ _ i hiB hig
    simp only [pT, pN, inNameStream, Bool.and_eq_true, decide_eq_true_eq] at hx1 hx2
    rw [hx1.2] at hx2
    simp at hx2

/-- Any duplicate group sharing an id with the name class of key n is that
class. -/
theorem classN_iso (infos : List AssetInfo)
    (hnd : (infos.map AssetInfo.asset_id).Nodup) (n : List Char) :
    ∀ g ∈ dbDuplicateGroups infos,
      (∃ i ∈ (infos.filter (pN n)).map AssetInfo.asset_id, i ∈ g.map AssetInfo.asset_id) →
      g = infos.filter (pN n) := by
  intro g hg ⟨i, hiB, hig⟩
  obtain ⟨_, hchar⟩ := dbDuplicateGroups_spec infos g hg
  rcases hchar with ⟨k2, hk2⟩ | ⟨n2, hn2⟩
  · rw [hk2] at hig
    obtain ⟨x, _, hx1, hx2⟩ := common_id_filter infos hnd _ _ i hiB hig
    simp only [pT, pN, inNameStream, Bool.and_eq_true, decide_eq_true_eq] at hx1 hx2
    rw [hx2.2] at hx1
    simp at hx1
  · rw [hn2] at hig ⊢
    obtain ⟨x, _, hx1, hx2⟩ := common_id_filter infos hnd _ _ i hiB hig
    simp only [pN, Bool.and_eq_true, decide_eq_true_eq] at hx1 hx2
    rw [← hx1.1, hx2.1]

theorem dbCleanupAssets_assets (db : DB) :
    (dbCleanupAssets db).assets = db.assets.filter
      (fun a => keepId (dbAssetOpsOf (db.assets.map (mkAssetInfo db.transactions))) a.asset_id) := by
  rw [dbCleanupAssets_eq, applyAssetOps_spec]

theorem dbCleanupAssets_transactions (db : DB) :
    (dbCleanupAssets db).transactions = db.transactions.map
      (fun t =>
        { t with
          asset_id := refUpds (dbAssetOpsOf (db.assets.map (mkAssetInfo db.transactions))) t.asset_id }) := by
  rw [dbCleanupAssets_eq, applyAssetOps_spec]

theorem dbCleanupAssets_members (db : DB) : (dbCleanupAssets db).members = db.members := by
  rw [dbCleanupAssets_eq, applyAssetOps_spec]

theorem dbCleanupAssets_filings (db : DB) : (dbCleanupAssets db).filings = db.filings := by
  rw [dbCleanupAssets_eq, applyAssetOps_spec]

/-- The info rows carry the asset ids unchanged. -/
theorem infos_ids (assets : List Asset) (txns : List Txn) :
    (assets.map (mkAssetInfo txns)).map AssetInfo.asset_id = assets.map Asset.asset_id := by
  rw [List.map_map]
  rfl

/-- The class predicates read only the asset fields, not the transaction
count. -/
theorem pT_mkInfo (txns : List Txn) (k : List Char) (a : Asset) :
    pT k (mkAssetInfo txns a) = decide (dbTickerKey a.ticker = some k) := by
  cases h : dbTickerKey a.ticker with
  | none => simp [pT, tKeyD, hasTKey, mkAssetInfo, h]
  | some k2 =>
    by_cases hk : k2 = k <;> simp [pT, tKeyD, hasTKey, mkAssetInfo, h, hk]

theorem pN_mkInfo (txns : List Txn) (n : List Char) (a : Asset) :
    pN n (mkAssetInfo txns a) =
      (decide (normalizeCompanyNameAdvanced (a.company_name.getD []) = n) &&
        ((dbTickerKey a.ticker).isNone &&
          !(normalizeCompanyNameAdvanced (a.company_name.getD [])).isEmpty)) := by
  simp only [pN, nKeyI, inNameStream, hasTKey, mkAssetInfo]
  cases h : dbTickerKey a.ticker <;> simp [h]

theorem filter_pT_eq (db : DB) (k : List Char) :
    (db.assets.map (mkAssetInfo db.transactions)).filter (pT k) =
      (db.assets.filter (fun a => dbTickerKey a.ticker = some k)).map (mkAssetInfo db.transactions) := by
  rw [List.filter_map]
  congr 1
  apply List.filter_congr
  intro a _
  rw [Function.comp_apply, pT_mkInfo]

theorem filter_pN_eq (db : DB) (n : List Char) :
    (db.assets.map (mkAssetInfo db.transactions)).filter (pN n) =
      (db.assets.filter (assetNameKeyIs n)).map (mkAssetInfo db.transactions) := by
  rw [List.filter_map]
  congr 1
  apply List.filter_congr
  intro a _
  rw [Function.comp_apply, pN_mkInfo]
  rfl

/-- A filter of a filter commutes. -/
theorem filter_comm {α : Type} (l : List α) (p q : α → Bool) :
    (l.filter p).filter q = (l.filter q).filter p := by
  rw [List.filter_filter, List.filter_filter]
  apply List.filter_congr
  intro a _
  rw [Bool.and_comm]

/-- A map equal to a singleton comes from a singleton. -/
theorem map_eq_singleton {α β : Type} (l : List α) (f : α → β) (c : β)
    (h : l.map f = [c]) : ∃ x, l = [x] ∧ f x = c := by
  match l with
  | [] => simp at h
  | [x] =>
    refine ⟨x, rfl, ?_⟩
    simpa using h
  | x :: y :: t => simp at h

/-- Exactly one asset of a nonempty trim-upper ticker class survives the
dbcleanup asset stage, and every reference into the class is rewritten onto
that survivor. -/
theorem dbAssets_ticker_survivor (db : DB)
    (hnd : (db.assets.map Asset.asset_id).Nodup) (k : List Char)
    (hne : db.assets.filter (fun a => dbTickerKey a.ticker = some k) ≠ []) :
    ∃ surv ∈ db.assets.filter (fun a => dbTickerKey a.ticker = some k),
      (dbCleanupAssets db).assets.filter (fun a => dbTickerKey a.ticker = some k) = [surv] ∧
      ∀ r ∈ (db.assets.filter (fun a => dbTickerKey a.ticker = some k)).map Asset.asset_id,
        refUpds (dbAssetOpsOf (db.assets.map (mkAssetInfo db.transactions))) r = surv.asset_id := by
  set infos := db.assets.map (mkAssetInfo db.transactions) with hinfos
  set S := db.assets.filter (fun a => dbTickerKey a.ticker = some k) with hS
  have hndI : (infos.map AssetInfo.asset_id).Nodup := by
    rw [hinfos, infos_ids]
    exact hnd
  have hBeq : infos.filter (pT k) = S.map (mkAssetInfo db.transactions) := filter_pT_eq db k
  have hBids : (infos.filter (pT k)).map AssetInfo.asset_id = S.map Asset.asset_id := by
    rw [hBeq, List.map_map]
    rfl
  have hcore := survivors_core infos hndI (pT k) (classT_mem infos k) (classT_iso infos hndI k)
  have hBne : infos.filter (pT k) ≠ [] := by
    rw [hBeq]
    intro hh
    exact hne (by simpa using hh)
  obtain ⟨c, hcB, hfilter, hrefs⟩ := hcore.2 hBne
  have hkf : (infos.filter (pT k)).filter
      (fun x => keepId (dbAssetOpsOf infos) x.asset_id) =
      (S.filter (fun a => keepId (dbAssetOpsOf infos) a.asset_id)).map (mkAssetInfo db.transactions) := by
    rw [hBeq, List.filter_map]
    rfl
  rw [hkf] at hfilter
  obtain ⟨surv, hSsing, hsurvc⟩ := map_eq_singleton _ _ _ hfilter
  have hsurvS : surv ∈ S := by
    have : surv ∈ S.filter (fun a => keepId (dbAssetOpsOf infos) a.asset_id) := by
      rw [hSsing]
      simp
    exact (List.mem_filter.mp this).1
  have hsurvid : surv.asset_id = c.asset_id := by
    rw [← hsurvc]
    rfl
  refine ⟨surv, hsurvS, ?_, ?_⟩
  · rw [dbCleanupAssets_assets, ← hinfos, filter_comm]
    exact hSsing
  · intro r hr
    rw [← hBids] at hr
    rw [hrefs r hr, hsurvid]

/-- At most one asset of any trim-upper ticker class or of any name class
survives the dbcleanup asset stage. -/
theorem dbAssets_class_bound (db : DB)
    (hnd : (db.assets.map Asset.asset_id).Nodup) :
    (∀ k, ((dbCleanupAssets db).assets.filter
        (fun a => dbTickerKey a.ticker = some k)).length ≤ 1) ∧
      (∀ n, ((dbCleanupAssets db).assets.filter (assetNameKeyIs n)).length ≤ 1) := by
  set infos := db.assets.map (mkAssetInfo db.transactions) with hinfos
  have hndI : (infos.map AssetInfo.asset_id).Nodup := by
    rw [hinfos, infos_ids]
    exact hnd
  constructor
  · intro k
    have hcore := (survivors_core infos hndI (pT k) (classT_mem infos k)
      (classT_iso infos hndI k)).1
    have hkf : (infos.filter (pT k)).filter
        (fun x => keepId (dbAssetOpsOf infos) x.asset_id) =
        ((db.assets.filter (fun a => dbTickerKey a.ticker = some k)).filter
          (fun a => keepId (dbAssetOpsOf infos) a.asset_id)).map (mkAssetInfo db.transactions) := by
      rw [filter_pT_eq, List.filter_map]
      rfl
    rw [dbCleanupAssets_assets, ← hinfos, filter_comm]
    rw [hkf] at hcore
    simpa using hcore
  · intro n
    have hcore := (survivors_core infos hndI (pN n) (classN_mem infos n)
      (classN_iso infos hndI n)).1
    have hkf : (infos.filter (pN n)).filter
        (fun x => keepId (dbAssetOpsOf infos) x.asset_id) =
        ((db.assets.filter (assetNameKeyIs n)).filter
          (fun a => keepId (dbAssetOpsOf infos) a.asset_id)).map (mkAssetInfo db.transactions) := by
      rw [filter_pN_eq, List.filter_map]
      rfl
    rw [dbCleanupAssets_assets, ← hinfos, filter_comm]
    rw [hkf] at hcore
    simpa using hcore

/-- A second scan of the asset table after the dbcleanup asset stage finds
no duplicate group. -/
theorem dbDuplicateGroups_after (db : DB)
    (hnd : (db.assets.map Asset.asset_id).Nodup) :
    dbDuplicateGroups ((dbCleanupAssets db).assets.map
      (mkAssetInfo (dbCleanupAssets db).transactions)) = [] := by
  by_contra hne
  obtain ⟨g, hg⟩ := List.exists_mem_of_ne_nil _ hne
  obtain ⟨hlen, hchar⟩ := dbDuplicateGroups_spec _ g hg
  have hbound := dbAssets_class_bound db hnd
  rcases hchar with ⟨k, hk⟩ | ⟨n, hn⟩
  · rw [hk, filter_pT_eq (dbCleanupAssets db) k] at hlen
    rw [List.length_map] at hlen
    have := hbound.1 k
    omega
  · rw [hn, filter_pN_eq (dbCleanupAssets db) n] at hlen
    rw [List.length_map] at hlen
    have := hbound.2 n
    omega

/-- The asset stage is idempotent. -/
theorem dbCleanupAssets_idem (db : DB)
    (hnd : (db.assets.map Asset.asset_id).Nodup) :
    dbCleanupAssets (dbCleanupAssets db) = dbCleanupAssets db := by
  show (dbDuplicateGroups _).foldl mergeAssetGroup _ = _
  rw [dbDuplicateGroups_after db hnd]
  rfl

theorem cleanup_database_members (db : DB) :
    (cleanup_database db).members = (cleanupMembers db).members :=
  dbCleanupAssets_members _

theorem cleanup_database_assets_nodup (db : DB)
    (hnd : (db.assets.map Asset.asset_id).Nodup) :
    ((cleanupMembers db).assets.map Asset.asset_id).Nodup := by
  rw [cleanupMembers_assets]
  exact hnd

/-- C3 (amended): dbcleanup's cleanup_database is idempotent when ids are
distinct: a second run immediately after a completed first run finds no
duplicate member group and no duplicate asset group and changes nothing.
The EnhancedAssetCleaner pass does not share this property. -/
theorem cleanup_database_idem (db : DB)
    (hndM : (db.members.map Member.member_id).Nodup)
    (hndA : (db.assets.map Asset.asset_id).Nodup) :
    findMemberDuplicates (cleanup_database db).members = [] ∧
      dbDuplicateGroups ((cleanup_database db).assets.map
        (mkAssetInfo (cleanup_database db).transactions)) = [] ∧
      cleanup_database (cleanup_database db) = cleanup_database db := by
  have hndA2 := cleanup_database_assets_nodup db hndA
  have hmem0 : findMemberDuplicates (cleanup_database db).members = [] := by
    rw [cleanup_database_members]
    exact findMemberDuplicates_cleanup_nil db hndM
  have hass0 : dbDuplicateGroups ((cleanup_database db).assets.map
      (mkAssetInfo (cleanup_database db).transactions)) = [] :=
    dbDuplicateGroups_after (cleanupMembers db) hndA2
  refine ⟨hmem0, hass0, ?_⟩
  have hm1 : cleanupMembers (cleanup_database db) = cleanup_database db := by
    show (findMemberDuplicates (cleanup_database db).members).foldl _ _ = _
    rw [hmem0]
    rfl
  show dbCleanupAssets (cleanupMembers (cleanup_database db)) = cleanup_database db
  rw [hm1]
  exact dbCleanupAssets_idem (cleanupMembers db) hndA2

theorem applyAssetOp_nil_rs (db : DB) (c : Nat) : applyAssetOp db (c, []) = db := by
  show ({ db with transactions := _, assets := _ } : DB) = db
  have h1 : db.transactions.map
      (fun t => if t.asset_id ∈ ([] : List Nat) then { t with asset_id := c } else t) =
      db.transactions := by
    simp
  have h2 : db.assets.filter (fun a => a.asset_id ∉ ([] : List Nat)) = db.assets := by
    simp
  rw [h1, h2]

theorem merge_duplicate_group_eq (db : DB) (g : List AssetRecord)
    (hlen : 1 < g.length) : merge_duplicate_group db g = applyAssetOp db (enAssetOp g) := by
  rw [merge_duplicate_group, if_neg (by omega)]
  by_cases hd : (g.filter (fun a => a.asset_id ≠ (choose_canonical_asset g).asset_id)).isEmpty
  · rw [if_pos hd]
    have : enAssetOp g = ((choose_canonical_asset g).asset_id, []) := by
      simp only [enAssetOp]
      congr 1
      rw [List.isEmpty_iff] at hd
      rw [hd]
      rfl
    rw [this, applyAssetOp_nil_rs]
  · rw [if_neg hd]
    rfl

/-- The invariants of the processed-set loop: emitted groups are longer
than one, avoid the incoming processed set, are recorded in the outgoing
processed set, and are pairwise disjoint. -/
theorem enFilterGroups_spec (gs : List (List AssetRecord)) (proc : List Nat) :
    (∀ i ∈ proc, i ∈ (enFilterGroups gs proc).2) ∧
      (∀ g ∈ (enFilterGroups gs proc).1, 1 < g.length) ∧
      (∀ g ∈ (enFilterGroups gs proc).1, ∀ i ∈ g.map AssetRecord.asset_id, i ∉ proc) ∧
      (∀ g ∈ (enFilterGroups gs proc).1, ∀ i ∈ g.map AssetRecord.asset_id,
        i ∈ (enFilterGroups gs proc).2) ∧
      List.Pairwise
        (fun g1 g2 => ∀ i ∈ g1.map AssetRecord.asset_id, i ∉ g2.map AssetRecord.asset_id)
        (enFilterGroups gs proc).1 := by
  induction gs generalizing proc with
  | nil => simp [enFilterGroups]
  | cons g gs ih =>
    by_cases h1 : g.length > 1
    · by_cases h2 : (g.filter (fun a => a.asset_id ∉ proc)).length > 1
      · have hstep : enFilterGroups (g :: gs) proc =
            ((g.filter (fun a => a.asset_id ∉ proc)) ::
                (enFilterGroups gs (proc ++ (g.filter (fun a => a.asset_id ∉ proc)).map AssetRecord.asset_id)).1,
              (enFilterGroups gs (proc ++ (g.filter (fun a => a.asset_id ∉ proc)).map AssetRecord.asset_id)).2) := by
          rw [enFilterGroups, if_pos h1, if_pos h2]
        set g2 := g.filter (fun a => a.asset_id ∉ proc) with hg2
        set proc2 := proc ++ g2.map AssetRecord.asset_id with hproc2
        obtain ⟨iha, ihb, ihc, ihd, ihe⟩ := ih proc2
        rw [hstep]
        have hg2proc : ∀ i ∈ g2.map AssetRecord.asset_id, i ∉ proc := by
          intro i hi
          obtain ⟨a, ha, haid⟩ := List.mem_map.mp hi
          have := (List.mem_filter.mp ha).2
          rw [← haid]
          simpa using this
        have hg2proc2 : ∀ i ∈ g2.map AssetRecord.asset_id, i ∈ proc2 := by
          intro i hi
          rw [hproc2]
          exact List.mem_append_right _ hi
        refine ⟨?_, ?_, ?_, ?_, ?_⟩
        · intro i hi
          exact iha i (List.mem_append_left _ hi)
        · intro gg hgg
          rcases List.mem_cons.mp hgg with hh | hh
          · rw [hh]; exact h2
          · exact ihb gg hh
        · intro gg hgg i hi
          rcases List.mem_cons.mp hgg with hh | hh
          · rw [hh] at hi
            exact hg2proc i hi
          · intro hip
            exact ihc gg hh i hi (List.mem_append_left _ hip)
        · intro gg hgg i hi
          rcases List.mem_cons.mp hgg with hh | hh
          · rw [hh] at hi
            exact iha i (hg2proc2 i hi)
          · exact ihd gg hh i hi
        · rw [List.pairwise_cons]
          refine ⟨?_, ihe⟩
          intro gg hgg i hi higg
          exact ihc gg hgg i higg (hg2proc2 i hi)
      · have hstep : enFilterGroups (g :: gs) proc = enFilterGroups gs proc := by
          rw [enFilterGroups, if_pos h1, if_neg h2]
        rw [hstep]
        exact ih proc
    · have hstep : enFilterGroups (g :: gs) proc = enFilterGroups gs proc := by
        rw [enFilterGroups, if_neg h1]
      rw [hstep]
      exact ih proc

/-- The enhanced duplicate groups are longer than one and pairwise
disjoint in ids. -/
theorem find_duplicate_groups_spec (recs : List AssetRecord) :
    (∀ g ∈ find_duplicate_groups recs, 1 < g.length) ∧
      List.Pairwise
        (fun g1 g2 => ∀ i ∈ g1.map AssetRecord.asset_id, i ∉ g2.map AssetRecord.asset_id)
        (find_duplicate_groups recs) := by
  simp only [find_duplicate_groups]
  set bs := enAssetBuckets recs
  obtain ⟨_, h1b, _, h1d, h1e⟩ := enFilterGroups_spec (bs.1.map Prod.snd) []
  set proc1 := (enFilterGroups (bs.1.map Prod.snd) []).2
  obtain ⟨_, h2b, h2c, _, h2e⟩ := enFilterGroups_spec (bs.2.map Prod.snd) proc1
  constructor
  · intro g hg
    rcases List.mem_append.mp hg with hh | hh
    · exact h1b g hh
    · exact h2b g hh
  · rw [List.pairwise_append]
    refine ⟨h1e, h2e, ?_⟩
    intro g1 hg1 g2 hg2 i hi1 hi2
    exact h2c g2 hg2 i hi2 (h1d g1 hg1 i hi1)

theorem enAssetOp_rs_subset (g : List AssetRecord) :
    ∀ i ∈ (enAssetOp g).2, i ∈ g.map AssetRecord.asset_id := by
  intro i hi
  obtain ⟨b, hb, hbid⟩ := List.mem_map.mp hi
  exact List.mem_map.mpr ⟨b, (List.mem_filter.mp hb).1, hbid⟩

theorem enAssetOp_c_notin (g : List AssetRecord) :
    (enAssetOp g).1 ∉ (enAssetOp g).2 := by
  intro hmem
  obtain ⟨b, hb, hbid⟩ := List.mem_map.mp hmem
  have := (List.mem_filter.mp hb).2
  simp only [decide_eq_true_eq] at this
  exact this hbid

/-- The enhanced pass is a valid sequence of merge operations, with no
hypothesis: the processed set makes its groups disjoint by construction. -/
theorem enAssetOps_good (recs : List AssetRecord) : opsGood (enAssetOpsOf recs) := by
  obtain ⟨hlen, hdisj⟩ := find_duplicate_groups_spec recs
  constructor
  · intro op hop op2 hop2
    simp only [enAssetOpsOf, List.mem_map] at hop hop2
    obtain ⟨g1, hg1, heq1⟩ := hop
    obtain ⟨g2, hg2, heq2⟩ := hop2
    subst heq1; subst heq2
    by_cases hsame : g1 = g2
    · subst hsame
      exact enAssetOp_c_notin g1
    · have hsymm : Symmetric (fun (a b : List AssetRecord) =>
          ∀ i ∈ a.map AssetRecord.asset_id, i ∉ b.map AssetRecord.asset_id) := by
        intro a b hab i hib hia
        exact hab i hia hib
      have hdis := hdisj.forall hsymm hg1 hg2 hsame
      intro hmem
      have hin2 := enAssetOp_rs_subset g2 _ hmem
      have hc1 : (enAssetOp g1).1 ∈ g1.map AssetRecord.asset_id := by
        apply List.mem_map.mpr
        refine ⟨choose_canonical_asset g1, choose_canonical_asset_mem g1 ?_, rfl⟩
        have := hlen g1 hg1
        intro hh
        rw [hh] at this
        simp at this
      exact hdis _ hc1 hin2
  · simp only [enAssetOpsOf]
    rw [List.pairwise_map]
    refine hdisj.imp_of_mem ?_
    intro g1 g2 _ _ h i hi1 hi2
    exact h i (enAssetOp_rs_subset g1 i hi1) (enAssetOp_rs_subset g2 i hi2)

theorem run_cleanup_eq (db : DB) :
    run_cleanup db = applyAssetOps db (enAssetOpsOf (get_asset_records db)) := by
  show (find_duplicate_groups (get_asset_records db)).foldl merge_duplicate_group db = _
  rw [applyAssetOps, enAssetOpsOf, List.foldl_map]
  have hlen := (find_duplicate_groups_spec (get_asset_records db)).1
  generalize hgs : find_duplicate_groups (get_asset_records db) = gs at hlen ⊢
  clear hgs
  induction gs generalizing db with
  | nil => rfl
  | cons g rest ih =>
    show rest.foldl merge_duplicate_group (merge_duplicate_group db g) = _
    rw [merge_duplicate_group_eq db g (hlen g (by simp))]
    exact ih _ (fun g2 hg2 => hlen g2 (List.mem_cons_of_mem _ hg2))

theorem run_cleanup_assets (db : DB) :
    (run_cleanup db).assets = db.assets.filter
      (fun a => keepId (enAssetOpsOf (get_asset_records db)) a.asset_id) := by
  rw [run_cleanup_eq, applyAssetOps_spec]

theorem run_cleanup_transactions (db : DB) :
    (run_cleanup db).transactions = db.transactions.map
      (fun t =>
        { t with
          asset_id := refUpds (enAssetOpsOf (get_asset_records db)) t.asset_id }) := by
  rw [run_cleanup_eq, applyAssetOps_spec]

/-- After the enhanced pass, no transaction references an asset id that was
deleted by the pass. -/
theorem run_cleanup_ref_ok (db : DB) :
    ∀ t ∈ (run_cleanup db).transactions,
      t.asset_id ∈ db.assets.map Asset.asset_id →
      t.asset_id ∈ (run_cleanup db).assets.map Asset.asset_id := by
  intro t ht hmem
  rw [run_cleanup_transactions] at ht
  obtain ⟨t0, _, ht0⟩ := List.mem_map.mp ht
  have hval : t.asset_id = refUpds (enAssetOpsOf (get_asset_records db)) t0.asset_id := by
    rw [← ht0]
  have hkeep : keepId (enAssetOpsOf (get_asset_records db)) t.asset_id = true := by
    rw [hval]
    exact keepId_refUpds _ (enAssetOps_good (get_asset_records db)) _
  obtain ⟨a, ha, haid⟩ := List.mem_map.mp hmem
  rw [run_cleanup_assets]
  apply List.mem_map.mpr
  refine ⟨a, List.mem_filter.mpr ⟨ha, ?_⟩, haid⟩
  rw [haid]
  exact hkeep

/-- After the dbcleanup asset stage, no transaction references an asset id
that was deleted by the stage. -/
theorem dbCleanupAssets_ref_ok (db : DB)
    (hnd : (db.assets.map Asset.asset_id).Nodup) :
    ∀ t ∈ (dbCleanupAssets db).transactions,
      t.asset_id ∈ db.assets.map Asset.asset_id →
      t.asset_id ∈ (dbCleanupAssets db).assets.map Asset.asset_id := by
  intro t ht hmem
  rw [dbCleanupAssets_transactions] at ht
  obtain ⟨t0, _, ht0⟩ := List.mem_map.mp ht
  have hndI : ((db.assets.map (mkAssetInfo db.transactions)).map AssetInfo.asset_id).Nodup := by
    rw [infos_ids]
    exact hnd
  have hval : t.asset_id =
      refUpds (dbAssetOpsOf (db.assets.map (mkAssetInfo db.transactions))) t0.asset_id := by
    rw [← ht0]
  have hkeep : keepId (dbAssetOpsOf (db.assets.map (mkAssetInfo db.transactions)))
      t.asset_id = true := by
    rw [hval]
    exact keepId_refUpds _ (dbAssetOps_good _ hndI) _
  obtain ⟨a, ha, haid⟩ := List.mem_map.mp hmem
  rw [dbCleanupAssets_assets]
  apply List.mem_map.mpr
  refine ⟨a, List.mem_filter.mpr ⟨ha, ?_⟩, haid⟩
  rw [haid]
  exact hkeep

/-- A pair is merged by phase one only when its own response was the empty
confirmation. -/
theorem phase1_merges_confirmed (db : DB) (ps : List (Nat × Nat))
    (rs : List (List Char)) :
    ∀ p ∈ (phase1 db ps rs).2, ∃ j, ps.get? j = some p ∧ rs.get? j = some [] := by
  induction ps generalizing db rs with
  | nil => intro p hp; simp [phase1] at hp
  | cons q ps ih =>
    intro p hp
    match rs with
    | [] => simp [phase1] at hp
    | r :: rs =>
      by_cases hq : pyLower r = ['q']
      · rw [phase1, if_pos hq] at hp
        simp at hp
      · by_cases he : r.isEmpty
        · rw [phase1, if_neg hq, if_pos he] at hp
          rcases List.mem_cons.mp hp with hh | hh
          · have hre : r = [] := List.isEmpty_iff.mp he
            refine ⟨0, by simp [hh], by simp [hre]⟩

          · obtain ⟨j, hj1, hj2⟩ := ih _ _ p hh
            exact ⟨j + 1, by simpa using hj1, by simpa using hj2⟩
        · rw [phase1, if_neg hq, if_neg he] at hp
          obtain ⟨j, hj1, hj2⟩ := ih _ _ p hp
          exact ⟨j + 1, by simpa using hj1, by simpa using hj2⟩

theorem insSorted_perm {α : Type} (le : α → α → Bool) (x : α) (l : List α) :
    (insSorted le x l).Perm (x :: l) := by
  induction l with
  | nil => simp [insSorted]
  | cons y t ih =>
    by_cases h : le x y
    · rw [insSorted, if_pos h]
    · rw [insSorted, if_neg h]
      exact (ih.cons y).trans (List.Perm.swap x y t)

theorem insSort_perm {α : Type} (le : α → α → Bool) (l : List α) :
    (insSort le l).Perm l := by
  induction l with
  | nil => simp [insSort]
  | cons x t ih =>
    exact (insSorted_perm le x (insSort le t)).trans (ih.cons x)

/-- Two distinct members with the same nonempty extracted surname land in
one candidate group of the interactive tool. -/
theorem interactiveGroups_flags (members : List Member) (m1 m2 : Member)
    (h1 : m1 ∈ members) (h2 : m2 ∈ members) (hne : m1 ≠ m2)
    (hkey : get_last_name m1.name = get_last_name m2.name)
    (hnz : get_last_name m1.name ≠ []) :
    ∃ g, (get_last_name m1.name, g) ∈ interactiveGroups members ∧
      m1 ∈ g ∧ m2 ∈ g := by
  set stream := (insSort (fun a b => lexLe a.name b.name) members).filter
    (fun m => !(get_last_name m.name).isEmpty) with hstream
  have hmem : ∀ m ∈ members, get_last_name m.name ≠ [] → m ∈ stream := by
    intro m hm hz
    rw [hstream]
    apply List.mem_filter.mpr
    refine ⟨((insSort_perm _ members).mem_iff).mpr hm, ?_⟩
    simpa [List.isEmpty_iff] using hz
  have hm1s : m1 ∈ stream := hmem m1 h1 hnz
  have hm2s : m2 ∈ stream := hmem m2 h2 (hkey ▸ hnz)
  set k := get_last_name m1.name with hk
  set B := stream.filter (fun m => get_last_name m.name = k) with hB
  have hm1B : m1 ∈ B := List.mem_filter.mpr ⟨hm1s, by simp [hk]⟩
  have hm2B : m2 ∈ B := List.mem_filter.mpr ⟨hm2s, by simp [hk, ← hkey]⟩
  have hBlen : 1 < B.length := two_le_length_of_mem_ne B m1 m2 hm1B hm2B hne
  have hlk : lookupB (bucketsFold (fun m => get_last_name m.name) stream) k = B := by
    rw [lookupB_bucketsFold]
  have hBmem : (k, B) ∈ bucketsFold (fun m => get_last_name m.name) stream := by
    rw [← hlk]
    apply lookupB_self_mem
    rw [hlk]
    intro hh
    rw [hh] at hm1B
    simp at hm1B
  refine ⟨B, ?_, hm1B, hm2B⟩
  simp only [interactiveGroups]
  exact List.mem_filter.mpr ⟨hBmem, by simpa using hBlen⟩

/-- A search for a uniquely characterized element finds it. -/
theorem find_unique {α : Type} (l : List α) (p : α → Bool) (a : α)
    (ha : a ∈ l) (hpa : p a = true) (huniq : ∀ b ∈ l, p b = true → b = a) :
    l.find? p = some a := by
  induction l with
  | nil => simp at ha
  | cons x t ih =>
    by_cases hx : p x = true
    · have hxa : x = a := huniq x (by simp) hx
      subst hxa
      simp [List.find?, hx]
    · have hxf : p x = false := by simpa using hx
      rw [List.find?, hxf]
      rcases List.mem_cons.mp ha with hh | hh
      · exact absurd (hh ▸ hpa) hx
      · exact ih hh (fun b hb hpb => huniq b (List.mem_cons_of_mem _ hb) hpb)

theorem run_cleanupGroupsE_spec (fails : List AssetRecord → Bool)
    (pre : List (List AssetRecord)) (g : List AssetRecord)
    (post : List (List AssetRecord)) (d : DB)
    (hpre : ∀ g2 ∈ pre, fails g2 = false) (hg : fails g = true) :
    run_cleanupGroupsE fails (pre ++ g :: post) d =
      .error (pre.foldl merge_duplicate_group d) := by
  induction pre generalizing d with
  | nil =>
    show run_cleanupGroupsE fails (g :: post) d = _
    rw [run_cleanupGroupsE, if_pos hg]
    rfl
  | cons g0 rest ih =>
    show run_cleanupGroupsE fails (g0 :: (rest ++ g :: post)) d = _
    rw [run_cleanupGroupsE, if_neg (by simp [hpre g0 (by simp)])]
    exact ih _ (fun g2 hg2 => hpre g2 (List.mem_cons_of_mem _ hg2))

theorem dbCleanupGroupsE_spec (fails : List AssetInfo → Bool) (db0 : DB)
    (pre : List (List AssetInfo)) (g : List AssetInfo)
    (post : List (List AssetInfo)) (d : DB)
    (hpre : ∀ g2 ∈ pre, fails g2 = false) (hg : fails g = true) :
    dbCleanupGroupsE fails db0 (pre ++ g :: post) d = .error db0 := by
  induction pre generalizing d with
  | nil =>
    show dbCleanupGroupsE fails db0 (g :: post) d = _
    rw [dbCleanupGroupsE, if_pos hg]
  | cons g0 rest ih =>
    show dbCleanupGroupsE fails db0 (g0 :: (rest ++ g :: post)) d = _
    rw [dbCleanupGroupsE, if_neg (by simp [hpre g0 (by simp)])]
    exact ih _ (fun g2 hg2 => hpre g2 (List.mem_cons_of_mem _ hg2))

theorem run_cleanupGroupsE_ok (fails : List AssetRecord → Bool)
    (gs : List (List AssetRecord)) (d : DB)
    (h : ∀ g ∈ gs, fails g = false) :
    run_cleanupGroupsE fails gs d = .ok (gs.foldl merge_duplicate_group d) := by
  induction gs generalizing d with
  | nil => rfl
  | cons g rest ih =>
    rw [run_cleanupGroupsE, if_neg (by simp [h g (by simp)])]
    exact ih _ (fun g2 hg2 => h g2 (List.mem_cons_of_mem _ hg2))

/-! ### The outcome of one successful interactive member merge -/

theorem min_ne_max_of_ne (id1 id2 : Nat) (h : id1 ≠ id2) :
    min id1 id2 ≠ max id1 id2 := by
  rcases Nat.le_total id1 id2 with hle | hle <;>
    simp [Nat.min_def, Nat.max_def, hle] <;> omega

theorem merge_member_records_comm (db : DB) (id1 id2 : Nat) :
    merge_member_records db id1 id2 = merge_member_records db id2 id1 := by
  simp only [merge_member_records, Nat.min_comm id1 id2, Nat.max_comm id1 id2]

/-- The full outcome of a successful merge of two existing members. -/
theorem merge_member_records_ok (db : DB) (id1 id2 : Nat) (hne : id1 ≠ id2)
    (hnd : (db.members.map Member.member_id).Nodup)
    (mlow mhigh : Member) (hlow : mlow ∈ db.members)
    (hlid : mlow.member_id = min id1 id2) (hhigh : mhigh ∈ db.members)
    (hhid : mhigh.member_id = max id1 id2) :
    merge_member_records db id1 id2 = .ok
      { db with
        members := (db.members.map (fun m =>
            if m.member_id = min id1 id2 then
              { m with
                chamber := mhigh.chamber
                party := mhigh.party
                state := mhigh.state
                photo_url := mhigh.photo_url }
            else m)).filter (fun m => m.member_id ≠ max id1 id2),
        filings := db.filings.map (fun f =>
            if f.member_id = max id1 id2 then { f with member_id := min id1 id2 } else f) } := by
  have hfindh : db.members.find? (fun m => m.member_id = max id1 id2) = some mhigh := by
    apply find_unique _ _ mhigh hhigh (by simp [hhid])
    intro b hb hpb
    apply List.inj_on_of_nodup_map hnd hb hhigh
    rw [hhid]
    simpa using hpb
  have hfindl : db.members.find? (fun m => m.member_id = min id1 id2) = some mlow := by
    apply find_unique _ _ mlow hlow (by simp [hlid])
    intro b hb hpb
    apply List.inj_on_of_nodup_map hnd hb hlow
    rw [hlid]
    simpa using hpb
  rw [merge_member_records]
  rw [hfindh, hfindl]

/-- C10: a successful merge_member_records call keeps the lower-id member
with its name unchanged while its chamber, party, state and photo url are
overwritten with the higher-id member's values even when those are null;
the higher-id row is deleted, its filings are repointed to the lower id,
rows of other members are untouched, and swapping the two id arguments
gives the identical outcome. -/
theorem merge_member_records_outcome (db : DB) (id1 id2 : Nat) (hne : id1 ≠ id2)
    (hnd : (db.members.map Member.member_id).Nodup)
    (mlow mhigh : Member) (hlow : mlow ∈ db.members)
    (hlid : mlow.member_id = min id1 id2) (hhigh : mhigh ∈ db.members)
    (hhid : mhigh.member_id = max id1 id2) :
    ∃ db2, merge_member_records db id1 id2 = .ok db2 ∧
      { mlow with
        chamber := mhigh.chamber
        party := mhigh.party
        state := mhigh.state
        photo_url := mhigh.photo_url } ∈ db2.members ∧
      (∀ m ∈ db2.members, m.member_id ≠ max id1 id2) ∧
      (∀ m ∈ db.members, m.member_id ≠ min id1 id2 → m.member_id ≠ max id1 id2 →
        m ∈ db2.members) ∧
      db2.filings = db.filings.map (fun f =>
        if f.member_id = max id1 id2 then { f with member_id := min id1 id2 } else f) ∧
      merge_member_records db id2 id1 = .ok db2 := by
  refine ⟨_, merge_member_records_ok db id1 id2 hne hnd mlow mhigh hlow hlid hhigh hhid,
    ?_, ?_, ?_, rfl, ?_⟩
  · apply List.mem_filter.mpr
    constructor
    · apply List.mem_map.mpr
      refine ⟨mlow, hlow, ?_⟩
      rw [if_pos hlid]
    · show decide _ = true
      simp only [decide_eq_true_eq]
      rw [hlid]
      exact min_ne_max_of_ne id1 id2 hne
  · intro m hm
    have := (List.mem_filter.mp hm).2
    simpa using this
  · intro m hm hl hh
    apply List.mem_filter.mpr
    constructor
    · apply List.mem_map.mpr
      refine ⟨m, hm, ?_⟩
      rw [if_neg hl]
    · simpa using hh
  · rw [merge_member_records_comm db id2 id1]
    exact merge_member_records_ok db id1 id2 hne hnd mlow mhigh hlow hlid hhigh hhid

theorem matchIR_mk (txns : List Txn) (a : Asset) :
    matchIR (mkAssetInfo txns a) (mkAssetRecord txns a) :=
  ⟨rfl, rfl, rfl, rfl⟩

/-- Pointwise: under the bounds, the additive score of dbcleanup is
strictly larger exactly when the lexicographic tuple of the enhanced
cleaner is strictly larger. -/
theorem score_lt_iff_tupleGT (ia ib : AssetInfo) (ra rb : AssetRecord)
    (ha : matchIR ia ra) (hb : matchIR ib rb)
    (hba : infoBounded ia) (hbb : infoBounded ib) :
    (scoreAsset1000 ib < scoreAsset1000 ia) ↔ enTupleGT ra rb = true := by
  obtain ⟨ha1, ha2, ha3, ha4⟩ := ha
  obtain ⟨hb1, hb2, hb3, hb4⟩ := hb
  obtain ⟨hLa, hia⟩ := hba
  obtain ⟨hLb, hib⟩ := hbb
  simp only [scoreAsset1000, enTupleGT]
  rw [← ha1, ← hb1, ← ha2, ← hb2, ← ha3, ← hb3, ← ha4, ← hb4]
  by_cases hta : tickerTruthy ia.ticker <;>
    by_cases htb : tickerTruthy ib.ticker <;>
    by_cases hxa : ia.transaction_count > 0 <;>
    by_cases hxb : ib.transaction_count > 0 <;>
    by_cases hL : ia.company_name.length = ib.company_name.length <;>
    simp [hta, htb, hxa, hxb, hL] <;>
    omega

/-- The two first-maximum folds stay aligned step by step. -/
theorem choose_fold_align (g : List AssetInfo) (h : List AssetRecord)
    (hm : List.Forall₂ matchIR g h) (hbg : ∀ i ∈ g, infoBounded i) :
    ∀ acc racc, matchIR acc racc → infoBounded acc →
    matchIR
      (g.foldl (fun best x => if scoreAsset1000 best < scoreAsset1000 x then x else best) acc)
      (h.foldl (fun best x => if enTupleGT x best then x else best) racc) := by
  induction hm with
  | nil => intro acc racc hacc _; exact hacc
  | @cons a b l1 l2 hab htu ih =>
    intro acc racc hacc haccb
    rw [List.foldl_cons, List.foldl_cons]
    have hbhd : infoBounded a := hbg a (by simp)
    have hiff := score_lt_iff_tupleGT a acc b racc hab hacc hbhd haccb
    by_cases hrep : scoreAsset1000 acc < scoreAsset1000 a
    · rw [if_pos hrep, if_pos (hiff.mp hrep)]
      exact ih (fun i hi => hbg i (by simp [hi])) a b hab hbhd
    · rw [if_neg hrep, if_neg (by simpa using (not_iff_not.mpr hiff).mp hrep)]
      exact ih (fun i hi => hbg i (by simp [hi])) acc racc hacc haccb

theorem forall₂_matchIR_map (txns : List Txn) (t : List Asset) :
    List.Forall₂ matchIR (t.map (mkAssetInfo txns)) (t.map (mkAssetRecord txns)) := by
  induction t with
  | nil => exact List.Forall₂.nil
  | cons x s ih => exact List.Forall₂.cons (matchIR_mk txns x) ih

/-- C9 (amended): on any duplicate group built from assets whose company
names are at most 99 characters and whose ids are at most 999, dbcleanup's
additive score and the enhanced cleaner's lexicographic tuple choose the
same canonical asset, with the id term a pure tie-break; outside those
bounds the two policies can disagree. -/
theorem choose_align (txns : List Txn) (g : List Asset)
    (hb : ∀ a ∈ g, (a.company_name.getD []).length ≤ 99 ∧ a.asset_id ≤ 999) :
    (chooseCanonicalDb (g.map (mkAssetInfo txns))).asset_id =
      (choose_canonical_asset (g.map (mkAssetRecord txns))).asset_id := by
  cases g with
  | nil => rfl
  | cons a t =>
    have hbm : ∀ i ∈ t.map (mkAssetInfo txns), infoBounded i := by
      intro i hi
      obtain ⟨x, hx, hxi⟩ := List.mem_map.mp hi
      have := hb x (List.mem_cons_of_mem _ hx)
      rw [← hxi]
      exact ⟨this.1, this.2⟩
    have := choose_fold_align (t.map (mkAssetInfo txns)) (t.map (mkAssetRecord txns))
      (forall₂_matchIR_map txns t) hbm (mkAssetInfo txns a) (mkAssetRecord txns a)
      (matchIR_mk txns a) ⟨(hb a (by simp)).1, (hb a (by simp)).2⟩
    exact this.1

theorem dGet?_dSet_self {κ : Type} [DecidableEq κ] (d : List (κ × Nat)) (k : κ) (v : Nat) :
    dGet? (dSet d k v) k = some v := by
  induction d with
  | nil => simp [dSet, dGet?, List.find?]
  | cons p t ih =>
    by_cases h : p.1 = k
    · rw [show (p : κ × Nat) = (p.1, p.2) from rfl, dSet]
      simp only [if_pos h]
      simp [dGet?, List.find?]
    · rw [show (p : κ × Nat) = (p.1, p.2) from rfl, dSet]
      simp only [if_neg h]
      simp only [dGet?, List.find?] at ih ⊢
      rw [show (decide (p.1 = k)) = false by simpa using h]
      exact ih

theorem dGet?_dSet_ne {κ : Type} [DecidableEq κ] (d : List (κ × Nat)) (k k2 : κ) (v : Nat)
    (h : k2 ≠ k) : dGet? (dSet d k v) k2 = dGet? d k2 := by
  induction d with
  | nil =>
    simp only [dSet, dGet?, List.find?]
    rw [show (decide (k = k2)) = false by simpa using (Ne.symm h)]
  | cons p t ih =>
    by_cases hp : p.1 = k
    · rw [show (p : κ × Nat) = (p.1, p.2) from rfl, dSet]
      simp only [if_pos hp]
      simp only [dGet?, List.find?]
      have e1 : (decide (k = k2)) = false := by simpa using (Ne.symm h)
      have e2 : (decide (p.1 = k2)) = false := by rw [hp]; exact e1
      rw [e1, e2]
    · rw [show (p : κ × Nat) = (p.1, p.2) from rfl, dSet]
      simp only [if_neg hp]
      simp only [dGet?, List.find?] at ih ⊢
      cases hd : decide (p.1 = k2) with
      | true => rfl
      | false => exact ih

/-- With pairwise distinct stored keys, the row matching a key is unique:
the filter by that key is the singleton of any member carrying it. -/
theorem filterMap_nodup_filter {α κ : Type} [DecidableEq α] [DecidableEq κ]
    (l : List α) (f : α → Option κ)
    (hnd : (l.filterMap f).Nodup) (a : α) (ha : a ∈ l) (k : κ) (hk : f a = some k) :
    l.filter (fun x => decide (f x = some k)) = [a] := by
  induction l with
  | nil => simp at ha
  | cons x t ih =>
    by_cases hx : f x = some k
    · have hknd : k ∉ t.filterMap f := by
        simp only [List.filterMap_cons, hx] at hnd
        exact (List.nodup_cons.mp hnd).1
      have hxa : x = a := by
        rcases List.mem_cons.mp ha with h | h
        · exact h.symm
        · exact absurd (List.mem_filterMap.mpr ⟨a, h, hk⟩) hknd
      rw [List.filter_cons, if_pos (by simpa using hx)]
      have ht : t.filter (fun x => decide (f x = some k)) = [] := by
        rw [List.filter_eq_nil_iff]
        intro b hb
        simp only [decide_eq_true_eq]
        intro hfb
        exact hknd (List.mem_filterMap.mpr ⟨b, hb, hfb⟩)
      rw [ht, hxa]
    · have ha2 : a ∈ t := by
        rcases List.mem_cons.mp ha with h | h
        · exact absurd (h ▸ hk) hx
        · exact h
      have hnd2 : (t.filterMap f).Nodup := by
        cases hfx : f x with
        | none => simp only [List.filterMap_cons, hfx] at hnd; exact hnd
        | some v =>
          simp only [List.filterMap_cons, hfx] at hnd
          exact (List.nodup_cons.mp hnd).2
      rw [List.filter_cons, if_neg (by simpa using hx)]
      exact ih hnd2 ha2

/-- One merge_members iteration preserves the target invariant. -/
theorem mmStep_inv (off : Nat) (st : MMState) (m : Member) (h : MMInv st) :
    MMInv (mmStep off st m) := by
  obtain ⟨h1, h2⟩ := h
  rw [mmStep]
  cases hlk : dGet? st.existing (memberKey m.name) with
  | some eid => exact ⟨h1, h2⟩
  | none =>
    have hfind : st.rows.find? (fun r => decide (memberKey r.name = memberKey m.name)) = none := by
      have := h1 (memberKey m.name)
      rw [hlk] at this
      exact (Option.map_eq_none.mp this.symm)
    have hnotin : memberKey m.name ∉ st.rows.map (fun r => memberKey r.name) := by
      intro hmem
      obtain ⟨r, hr, hrk⟩ := List.mem_map.mp hmem
      have := List.find?_eq_none.mp hfind r hr
      simp [hrk] at this
    constructor
    · intro k
      by_cases hk : k = memberKey m.name
      · rw [hk]
        rw [dGet?_dSet_self]
        rw [List.find?_append, hfind]
        simp [List.find?]
      · rw [dGet?_dSet_ne _ _ _ _ hk]
        rw [List.find?_append]
        rw [h1 k]
        cases hf : st.rows.find? (fun r => decide (memberKey r.name = k)) with
        | some r => rfl
        | none =>
          have : (decide (memberKey m.name = k)) = false := by
            simpa using (fun hh => hk hh.symm)
          simp [List.find?, this]
    · simp only [List.map_append]
      rw [List.nodup_append]
      refine ⟨h2, by simp, ?_⟩
      intro x hx
      simp only [List.map_cons, List.map_nil, List.mem_cons, List.not_mem_nil, or_false]
      intro hxk
      rw [hxk] at hx
      exact hnotin hx

/-- The target invariant holds after the whole merge_members scan. -/
theorem mm_fold_inv (off : Nat) (src : List Member) (st : MMState) (h : MMInv st) :
    MMInv (src.foldl (mmStep off) st) := by
  induction src generalizing st with
  | nil => exact h
  | cons m rest ih => exact ih _ (mmStep_inv off st m h)

theorem mmStep_rows_mono (off : Nat) (st : MMState) (m : Member) (r : Member)
    (h : r ∈ st.rows) : r ∈ (mmStep off st m).rows := by
  rw [mmStep]
  cases dGet? st.existing (memberKey m.name) with
  | some eid => exact h
  | none => exact List.mem_append_left _ h

theorem mm_fold_rows_mono (off : Nat) (src : List Member) (st : MMState) (r : Member)
    (h : r ∈ st.rows) : r ∈ (src.foldl (mmStep off) st).rows := by
  induction src generalizing st with
  | nil => exact h
  | cons m rest ih => exact ih _ (mmStep_rows_mono off st m r h)

/-- Every row of the merged target is an original target row or a source
row moved by the offset. -/
theorem mm_fold_rows_prov (off : Nat) (src : List Member) (st : MMState) :
    ∀ r ∈ (src.foldl (mmStep off) st).rows,
      r ∈ st.rows ∨ ∃ m ∈ src, r = { m with member_id := m.member_id + off } := by
  induction src generalizing st with
  | nil => intro r hr; exact Or.inl hr
  | cons m rest ih =>
    intro r hr
    rcases ih (mmStep off st m) r hr with hin | ⟨m2, hm2, he⟩
    · rw [mmStep] at hin
      cases hlk : dGet? st.existing (memberKey m.name) with
      | some eid =>
        rw [hlk] at hin
        exact Or.inl hin
      | none =>
        rw [hlk] at hin
        rcases List.mem_append.mp hin with h | h
        · exact Or.inl h
        · exact Or.inr ⟨m, by simp, by simpa using h⟩
    · exact Or.inr ⟨m2, List.mem_cons_of_mem _ hm2, he⟩

theorem mmStep_existing_stable (off : Nat) (st : MMState) (m : Member) (k : List Char)
    (v : Nat) (h : dGet? st.existing k = some v) :
    dGet? (mmStep off st m).existing k = some v := by
  rw [mmStep]
  cases hlk : dGet? st.existing (memberKey m.name) with
  | some eid => exact h
  | none =>
    have hne : k ≠ memberKey m.name := by
      intro he
      rw [he, hlk] at h
      exact Option.noConfusion h
    rw [dGet?_dSet_ne _ _ _ _ hne]
    exact h

theorem mm_fold_existing_stable (off : Nat) (src : List Member) (st : MMState)
    (k : List Char) (v : Nat) (h : dGet? st.existing k = some v) :
    dGet? ((src.foldl (mmStep off) st)).existing k = some v := by
  induction src generalizing st with
  | nil => exact h
  | cons m rest ih => exact ih _ (mmStep_existing_stable off st m k v h)

theorem mm_fold_idMap_stable (off : Nat) (src : List Member) :
    ∀ (st : MMState) (o v : Nat), o ∉ src.map Member.member_id →
      dGet? st.idMap o = some v →
      dGet? ((src.foldl (mmStep off) st)).idMap o = some v := by
  induction src with
  | nil => intro st o v _ h; exact h
  | cons m rest ih =>
    intro st o v ho h
    have hom : o ≠ m.member_id := by
      intro he
      exact ho (by simp [he])
    have h2 : dGet? (mmStep off st m).idMap o = some v := by
      rw [mmStep]
      cases dGet? st.existing (memberKey m.name) with
      | some eid => rw [dGet?_dSet_ne _ _ _ _ hom]; exact h
      | none => rw [dGet?_dSet_ne _ _ _ _ hom]; exact h
    exact ih _ o v (fun hh => ho (List.mem_cons_of_mem _ hh)) h2

/-- A source member whose name key is already bound in the dictionary gets
an id-map entry pointing at that binding. -/
theorem mm_fold_idMap_hit (off : Nat) (src : List Member)
    (hnd : (src.map Member.member_id).Nodup) (sm : Member) (hsm : sm ∈ src) :
    ∀ (st : MMState) (eid : Nat),
      dGet? st.existing (memberKey sm.name) = some eid →
      dGet? ((src.foldl (mmStep off) st)).idMap sm.member_id = some eid := by
  induction src with
  | nil => simp at hsm
  | cons m rest ih =>
    intro st eid hex
    have hnd0 := hnd
    rw [List.map_cons] at hnd0
    obtain ⟨hh1, hh2⟩ := List.nodup_cons.mp hnd0
    by_cases hid : sm.member_id = m.member_id
    · have hkey : dGet? st.existing (memberKey m.name) = some eid ∨ sm = m := by
        rcases List.mem_cons.mp hsm with h | h
        · exact Or.inr h
        · exact absurd (List.mem_map.mpr ⟨sm, h, hid⟩) hh1
      have hm : dGet? st.existing (memberKey m.name) = some eid := by
        rcases hkey with h | h
        · exact h
        · rw [← h]; exact hex
      have hstep : dGet? (mmStep off st m).idMap m.member_id = some eid := by
        rw [mmStep, hm]
        exact dGet?_dSet_self _ _ _
      rw [List.foldl_cons]
      rw [hid]
      exact mm_fold_idMap_stable off rest _ m.member_id eid hh1 hstep
    · have hsm2 : sm ∈ rest := by
        rcases List.mem_cons.mp hsm with h | h
        · exact absurd (congrArg Member.member_id h) hid
        · exact h
      rw [List.foldl_cons]
      exact ih hh2 hsm2 _ eid
        (mmStep_existing_stable off st m _ eid hex)

/-- Every source member is represented in the merged rows by a row with
the same name key. -/
theorem mm_fold_rep (off : Nat) (src : List Member) (m : Member) (hm : m ∈ src) :
    ∀ (st : MMState), MMInv st →
    ∃ r ∈ (src.foldl (mmStep off) st).rows, memberKey r.name = memberKey m.name := by
  induction src with
  | nil => simp at hm
  | cons m1 rest ih =>
    intro st hinv
    rcases List.mem_cons.mp hm with h | h
    · rw [List.foldl_cons]
      have hone : ∃ r ∈ (mmStep off st m1).rows, memberKey r.name = memberKey m1.name := by
        rw [mmStep]
        cases hlk : dGet? st.existing (memberKey m1.name) with
        | some eid =>
          have h1 := hinv.1 (memberKey m1.name)
          rw [hlk] at h1
          obtain ⟨r, hr⟩ := Option.map_eq_some'.mp h1.symm
          refine ⟨r, List.mem_of_find?_eq_some hr.1, ?_⟩
          simpa using List.find?_some hr.1
        | none =>
          exact ⟨{ m1 with member_id := m1.member_id + off }, by simp, rfl⟩
      obtain ⟨r, hr1, hr2⟩ := hone
      exact ⟨r, mm_fold_rows_mono off rest _ r hr1, by rw [hr2, h]⟩
    · rw [List.foldl_cons]
      exact ih h _ (mmStep_inv off st m1 hinv)

/-- With distinct target name keys, the dictionary a merge_members call
builds from the target agrees with first-match lookup over the target. -/
theorem buildEM_go_spec (l : List Member) (d : List (List Char × Nat))
    (hnd : (l.map (fun m => memberKey m.name)).Nodup)
    (hfresh : ∀ m ∈ l, dGet? d (memberKey m.name) = none) (k : List Char) :
    dGet? (l.foldl (fun d m => dSet d (memberKey m.name) m.member_id) d) k =
      match l.find? (fun m => decide (memberKey m.name = k)) with
      | some m => some m.member_id
      | none => dGet? d k := by
  induction l generalizing d with
  | nil => simp [List.find?]
  | cons m rest ih =>
    rw [List.foldl_cons]
    have hnd2 : (rest.map (fun m => memberKey m.name)).Nodup :=
      (List.nodup_cons.mp (by simpa using hnd)).2
    have hnotin : memberKey m.name ∉ rest.map (fun r => memberKey r.name) :=
      (List.nodup_cons.mp (by simpa using hnd)).1
    have hfresh2 : ∀ r ∈ rest, dGet? (dSet d (memberKey m.name) m.member_id)
        (memberKey r.name) = none := by
      intro r hr
      have hne : memberKey r.name ≠ memberKey m.name := by
        intro he
        exact hnotin (by rw [← he]; exact List.mem_map.mpr ⟨r, hr, rfl⟩)
      rw [dGet?_dSet_ne _ _ _ _ hne]
      exact hfresh r (List.mem_cons_of_mem _ hr)
    rw [ih _ hnd2 hfresh2]
    by_cases hk : memberKey m.name = k
    · have hrest : rest.find? (fun r => decide (memberKey r.name = k)) = none := by
        rw [List.find?_eq_none]
        intro r hr
        simp only [decide_eq_true_eq]
        intro he
        exact hnotin (by rw [hk, ← he]; exact List.mem_map.mpr ⟨r, hr, rfl⟩)
      have hdec : (decide (memberKey m.name = k)) = true := by simpa using hk
      simp only [hrest, List.find?, hdec]
      rw [← hk, dGet?_dSet_self]
    · have hdec : (decide (memberKey m.name = k)) = false := by simpa using hk
      simp only [List.find?, hdec]
      cases hf : rest.find? (fun r => decide (memberKey r.name = k)) with
      | some r => simp [hf]
      | none =>
        simp only [hf]
        rw [dGet?_dSet_ne _ _ _ _ (fun he => hk he.symm)]

theorem toNat_of_space (c : Char) (h : isSpaceChar c = true) :
    c.toNat = 32 ∨ c.toNat = 9 ∨ c.toNat = 10 ∨ c.toNat = 13 ∨ c.toNat = 11 ∨ c.toNat = 12 := by
  simp [isSpaceChar] at h
  rcases h with ((((rfl|rfl)|rfl)|rfl)|rfl)|rfl <;> simp [Char.toNat]

theorem toNat_ofNat_small (n : Nat) (h : n < 55296) : (Char.ofNat n).toNat = n := by
  rw [Char.ofNat, dif_pos]
  · rfl
  · exact Or.inl h

/-- Upper-casing does not change whether a character is whitespace. -/
theorem isSpaceChar_toUpper (c : Char) : isSpaceChar c.toUpper = isSpaceChar c := by
  by_cases h : c.toNat ≥ 97 ∧ c.toNat ≤ 122
  · have h1 : c.toUpper = Char.ofNat (c.toNat - 32) := by
      simp [Char.toUpper, h]
    rw [h1]
    have hv : (Char.ofNat (c.toNat - 32)).toNat = c.toNat - 32 :=
      toNat_ofNat_small _ (by omega)
    have hfa : isSpaceChar (Char.ofNat (c.toNat - 32)) = false := by
      by_contra hx
      have := toNat_of_space _ (by simpa using hx)
      omega
    have hfb : isSpaceChar c = false := by
      by_contra hx
      have := toNat_of_space _ (by simpa using hx)
      omega
    rw [hfa, hfb]
  · have h1 : c.toUpper = c := by simp [Char.toUpper, h]
    rw [h1]

/-- Trimming after upper-casing equals upper-casing after trimming, the
two orders in which merge_assets computes a ticker key. -/
theorem pyStrip_pyUpper (s : List Char) : pyStrip (pyUpper s) = pyUpper (pyStrip s) := by
  have hfun : (isSpaceChar ∘ Char.toUpper) = isSpaceChar := by
    funext c
    exact isSpaceChar_toUpper c
  simp only [pyStrip, pyUpper, List.dropWhile_map, ← List.map_reverse, hfun]

theorem maStep_rows_shape (off : Nat) (st : MAState) (a : Asset) :
    (maStep off st a).rows = st.rows ∨
      (maStep off st a).rows =
        st.rows ++ [{ a with asset_id := a.asset_id + off }] := by
  rw [maStep]
  cases dup : (if optTruthy a.ticker then
      dGet? st.exTickers (pyStrip (pyUpper (a.ticker.getD [])))
    else dGet? st.exNames (mdNormName (a.company_name.getD []))) with
  | some d =>
    dsimp only
    by_cases hdz : d = 0
    · rw [if_pos hdz, maInsert]
      by_cases hot : optTruthy a.ticker = true
      · rw [if_pos hot]; exact Or.inr rfl
      · rw [if_neg hot]; exact Or.inr rfl
    · rw [if_neg hdz]
      exact Or.inl rfl
  | none =>
    dsimp only
    rw [maInsert]
    by_cases hot : optTruthy a.ticker = true
    · rw [if_pos hot]; exact Or.inr rfl
    · rw [if_neg hot]; exact Or.inr rfl

theorem ma_fold_rows_mono (off : Nat) (src : List Asset) (st : MAState) (r : Asset)
    (h : r ∈ st.rows) : r ∈ (src.foldl (maStep off) st).rows := by
  induction src generalizing st with
  | nil => exact h
  | cons a rest ih =>
    apply ih
    rcases maStep_rows_shape off st a with he | he <;> rw [he]
    · exact h
    · exact List.mem_append_left _ h

/-- Every row of the merged assets is an original target row or a source
row moved by the offset. -/
theorem ma_fold_rows_prov (off : Nat) (src : List Asset) (st : MAState) :
    ∀ r ∈ (src.foldl (maStep off) st).rows,
      r ∈ st.rows ∨ ∃ a ∈ src, r = { a with asset_id := a.asset_id + off } := by
  induction src generalizing st with
  | nil => intro r hr; exact Or.inl hr
  | cons a rest ih =>
    intro r hr
    rcases ih (maStep off st a) r hr with hin | ⟨a2, ha2, he⟩
    · rcases maStep_rows_shape off st a with he | he
      · rw [he] at hin
        exact Or.inl hin
      · rw [he] at hin
        rcases List.mem_append.mp hin with h | h
        · exact Or.inl h
        · exact Or.inr ⟨a, by simp, by simpa using h⟩
    · exact Or.inr ⟨a2, List.mem_cons_of_mem _ ha2, he⟩

/-- The blank-after-trim picture of a falsy raw ticker. -/
theorem sqlTick_of_falsy (a : Asset) (hot : optTruthy a.ticker = false) :
    sqlTick a = none := by
  cases hat : a.ticker with
  | none => simp [sqlTick, hat]
  | some t =>
    have hte : t.isEmpty = true := by
      rw [hat] at hot
      simpa [optTruthy] using hot
    have ht0 : t = [] := List.isEmpty_iff.mp hte
    subst ht0
    simp [sqlTick, hat, pyStrip, pyUpper]

/-- A truthy sane ticker yields the nonblank stored key, equal to the
upper-stripped loop key. -/
theorem sqlTick_of_truthy (a : Asset) (t : List Char) (ht : a.ticker = some t)
    (hot : optTruthy a.ticker = true) (hok : tickerOk a) :
    sqlTick a = some (pyUpper (pyStrip t)) ∧ (pyUpper (pyStrip t)).isEmpty = false ∧
      pyStrip (pyUpper (a.ticker.getD [])) = pyUpper (pyStrip t) := by
  have hte : t.isEmpty = false := by
    rw [ht] at hot
    simpa [optTruthy] using hot
  have hse : (pyStrip t).isEmpty = false := by
    have h0 := hok hot
    rw [ht] at h0
    exact h0
  have hko : (pyUpper (pyStrip t)).isEmpty = false := by
    cases hc : pyStrip t with
    | nil => rw [hc] at hse; simp at hse
    | cons c l => simp [pyUpper]
  refine ⟨?_, hko, ?_⟩
  · rw [sqlTick, ht]
    simp only [hko]
    simp
  · rw [ht]
    exact pyStrip_pyUpper t

/-- One merge_assets iteration preserves the ticker-side invariant. -/
theorem maStep_inv (off : Nat) (st : MAState) (a : Asset) (h : MAInv st)
    (hok : tickerOk a) (hpos : 1 ≤ a.asset_id) : MAInv (maStep off st a) := by
  obtain ⟨h1, h2, h3⟩ := h
  have hmains : ∀ hins : MAInv (maInsert off st a), MAInv (maInsert off st a) := fun x => x
  rw [maStep]
  by_cases hot : optTruthy a.ticker = true
  · obtain ⟨t, ht⟩ : ∃ t, a.ticker = some t := by
      cases hat : a.ticker with
      | none => rw [hat] at hot; simp [optTruthy] at hot
      | some t => exact ⟨t, rfl⟩
    obtain ⟨htick, hko, hkey⟩ := sqlTick_of_truthy a t ht hot hok
    rw [if_pos hot, hkey]
    cases hdg : dGet? st.exTickers (pyUpper (pyStrip t)) with
    | some d =>
      dsimp only
      have hh := h1 (pyUpper (pyStrip t)) (by simp [hko])
      rw [hdg] at hh
      obtain ⟨r, hrf, hrid⟩ := Option.map_eq_some'.mp hh.symm
      have hrmem := List.mem_of_find?_eq_some hrf
      have hd1 : 1 ≤ d := hrid ▸ (h3 r hrmem).2
      rw [if_neg (by omega)]
      exact ⟨h1, h2, h3⟩
    | none =>
      dsimp only
      have hh := h1 (pyUpper (pyStrip t)) (by simp [hko])
      rw [hdg] at hh
      have hfind := Option.map_eq_none.mp hh.symm
      have hnotin : pyUpper (pyStrip t) ∉ st.rows.filterMap sqlTick := by
        intro hmem
        obtain ⟨r, hr, hrk⟩ := List.mem_filterMap.mp hmem
        have := List.find?_eq_none.mp hfind r hr
        simp [hrk] at this
      rw [maInsert, if_pos hot, hkey]
      have htick2 : sqlTick { a with asset_id := a.asset_id + off } =
          some (pyUpper (pyStrip t)) := htick
      refine ⟨?_, ?_, ?_⟩
      · intro k hkne
        by_cases hkk : k = pyUpper (pyStrip t)
        · rw [hkk, dGet?_dSet_self, List.find?_append, hfind]
          simp [List.find?, htick2]
        · rw [dGet?_dSet_ne _ _ _ _ hkk, List.find?_append, h1 k hkne]
          cases hf : st.rows.find? (fun r => decide (sqlTick r = some k)) with
          | some r => rfl
          | none =>
            have hdec : (decide (sqlTick { a with asset_id := a.asset_id + off } = some k)) = false := by
              rw [htick2]
              simpa using (fun hh2 => hkk hh2.symm)
            simp [List.find?, hdec]
      · rw [List.filterMap_append]
        rw [List.nodup_append]
        refine ⟨h2, by simp [htick2], ?_⟩
        intro x hx
        simp only [List.filterMap_cons, htick2, List.filterMap_nil, List.mem_cons,
          List.not_mem_nil, or_false]
        intro hxk
        rw [hxk] at hx
        exact hnotin hx
      · intro r hr
        rcases List.mem_append.mp hr with hr2 | hr2
        · exact h3 r hr2
        · have : r = { a with asset_id := a.asset_id + off } := by simpa using hr2
          rw [this]
          exact ⟨hok, by simp; omega⟩
  · have hnone : sqlTick a = none := sqlTick_of_falsy a (by simpa using hot)
    have hinsinv : MAInv (maInsert off st a) := by
      rw [maInsert, if_neg hot]
      have htick2 : sqlTick { a with asset_id := a.asset_id + off } = none := hnone
      refine ⟨?_, ?_, ?_⟩
      · intro k hkne
        rw [List.find?_append, h1 k hkne]
        cases hf : st.rows.find? (fun r => decide (sqlTick r = some k)) with
        | some r => rfl
        | none =>
          have hdec : (decide (sqlTick { a with asset_id := a.asset_id + off } = some k)) = false := by
            rw [htick2]
            simp
          simp [List.find?, hdec]
      · rw [List.filterMap_append]
        simp only [List.filterMap_cons, htick2, List.filterMap_nil, List.append_nil]
        exact h2
      · intro r hr
        rcases List.mem_append.mp hr with hr2 | hr2
        · exact h3 r hr2
        · have : r = { a with asset_id := a.asset_id + off } := by simpa using hr2
          rw [this]
          exact ⟨hok, by simp; omega⟩
    rw [if_neg hot]
    cases hdg : dGet? st.exNames (mdNormName (a.company_name.getD [])) with
    | some d =>
      dsimp only
      by_cases hdz : d = 0
      · rw [if_pos hdz]
        exact hinsinv
      · rw [if_neg hdz]
        exact ⟨h1, h2, h3⟩
    | none =>
      dsimp only
      exact hinsinv

theorem ma_fold_inv (off : Nat) (src : List Asset) (st : MAState) (h : MAInv st)
    (hsrc : ∀ a ∈ src, tickerOk a ∧ 1 ≤ a.asset_id) :
    MAInv (src.foldl (maStep off) st) := by
  induction src generalizing st with
  | nil => exact h
  | cons a rest ih =>
    exact ih _ (maStep_inv off st a h (hsrc a (by simp)).1 (hsrc a (by simp)).2)
      (fun a2 ha2 => hsrc a2 (List.mem_cons_of_mem _ ha2))

/-- A nonzero binding of the ticker dictionary survives one loop step. -/
theorem maStep_exT_stable (off : Nat) (st : MAState) (a : Asset) (k : List Char)
    (v : Nat) (hv : v ≠ 0) (h : dGet? st.exTickers k = some v) :
    dGet? (maStep off st a).exTickers k = some v := by
  rw [maStep]
  by_cases hot : optTruthy a.ticker = true
  · rw [if_pos hot]
    cases hdg : dGet? st.exTickers (pyStrip (pyUpper (a.ticker.getD []))) with
    | some d =>
      dsimp only
      by_cases hdz : d = 0
      · rw [if_pos hdz, maInsert, if_pos hot]
        have hne : k ≠ pyStrip (pyUpper (a.ticker.getD [])) := by
          intro he
          rw [← he, h] at hdg
          have : v = d := by injection hdg
          omega
        rw [dGet?_dSet_ne _ _ _ _ hne]
        exact h
      · rw [if_neg hdz]
        exact h
    | none =>
      dsimp only
      rw [maInsert, if_pos hot]
      have hne : k ≠ pyStrip (pyUpper (a.ticker.getD [])) := by
        intro he
        rw [← he, h] at hdg
        exact Option.noConfusion hdg
      rw [dGet?_dSet_ne _ _ _ _ hne]
      exact h
  · rw [if_neg hot]
    cases hdg : dGet? st.exNames (mdNormName (a.company_name.getD [])) with
    | some d =>
      dsimp only
      by_cases hdz : d = 0
      · rw [if_pos hdz, maInsert, if_neg hot]
        exact h
      · rw [if_neg hdz]
        exact h
    | none =>
      dsimp only
      rw [maInsert, if_neg hot]
      exact h

theorem ma_fold_idMap_stable (off : Nat) (src : List Asset) :
    ∀ (st : MAState) (o v : Nat), o ∉ src.map Asset.asset_id →
      dGet? st.idMap o = some v →
      dGet? ((src.foldl (maStep off) st)).idMap o = some v := by
  induction src with
  | nil => intro st o v _ h; exact h
  | cons a rest ih =>
    intro st o v ho h
    have hom : o ≠ a.asset_id := by
      intro he
      exact ho (by simp [he])
    have h2 : dGet? (maStep off st a).idMap o = some v := by
      rw [maStep]
      by_cases hot : optTruthy a.ticker = true
      · rw [if_pos hot]
        cases dGet? st.exTickers (pyStrip (pyUpper (a.ticker.getD []))) with
        | some d =>
          dsimp only
          by_cases hdz : d = 0
          · rw [if_pos hdz, maInsert, if_pos hot]
            rw [dGet?_dSet_ne _ _ _ _ hom]
            exact h
          · rw [if_neg hdz]
            rw [dGet?_dSet_ne _ _ _ _ hom]
            exact h
        | none =>
          dsimp only
          rw [maInsert, if_pos hot]
          rw [dGet?_dSet_ne _ _ _ _ hom]
          exact h
      · rw [if_neg hot]
        cases dGet? st.exNames (mdNormName (a.company_name.getD [])) with
        | some d =>
          dsimp only
          by_cases hdz : d = 0
          · rw [if_pos hdz, maInsert, if_neg hot]
            rw [dGet?_dSet_ne _ _ _ _ hom]
            exact h
          · rw [if_neg hdz]
            rw [dGet?_dSet_ne _ _ _ _ hom]
            exact h
        | none =>
          dsimp only
          rw [maInsert, if_neg hot]
          rw [dGet?_dSet_ne _ _ _ _ hom]
          exact h
    exact ih _ o v (fun hh => ho (List.mem_cons_of_mem _ hh)) h2

/-- A source asset whose ticker key is bound to a nonzero id in the ticker
dictionary gets an id-map entry pointing at that binding. -/
theorem ma_fold_idMap_hit (off : Nat) (src : List Asset)
    (hnd : (src.map Asset.asset_id).Nodup) (sa : Asset) (hsa : sa ∈ src)
    (ts : List Char) (hts : sa.ticker = some ts) (hot : optTruthy sa.ticker = true)
    (hok : tickerOk sa) :
    ∀ (st : MAState) (eid : Nat), eid ≠ 0 →
      dGet? st.exTickers (pyUpper (pyStrip ts)) = some eid →
      dGet? ((src.foldl (maStep off) st)).idMap sa.asset_id = some eid := by
  induction src with
  | nil => simp at hsa
  | cons a rest ih =>
    intro st eid hez hex
    have hnd0 := hnd
    rw [List.map_cons] at hnd0
    obtain ⟨hh1, hh2⟩ := List.nodup_cons.mp hnd0
    by_cases hid : sa.asset_id = a.asset_id
    · have hsaa : sa = a := by
        rcases List.mem_cons.mp hsa with h | h
        · exact h
        · exact absurd (List.mem_map.mpr ⟨sa, h, hid⟩) hh1
      have hstep : dGet? (maStep off st a).idMap a.asset_id = some eid := by
        rw [maStep]
        have hota : optTruthy a.ticker = true := by rw [← hsaa]; exact hot
        rw [if_pos hota]
        have hkeya : pyStrip (pyUpper (a.ticker.getD [])) = pyUpper (pyStrip ts) := by
          rw [← hsaa]
          exact (sqlTick_of_truthy sa ts hts hot hok).2.2
        rw [hkeya, hex]
        dsimp only
        rw [if_neg hez]
        exact dGet?_dSet_self _ _ _
      rw [List.foldl_cons, hid]
      exact ma_fold_idMap_stable off rest _ a.asset_id eid hh1 hstep
    · have hsa2 : sa ∈ rest := by
        rcases List.mem_cons.mp hsa with h | h
        · exact absurd (congrArg Asset.asset_id h) hid
        · exact h
      rw [List.foldl_cons]
      exact ih hh2 hsa2 _ eid hez
        (maStep_exT_stable off st a _ eid hez hex)

/-- Every ticker-bearing source asset is represented in the merged rows by
a row with the same stored ticker key. -/
theorem ma_fold_rep (off : Nat) (src : List Asset) (a : Asset) (ha : a ∈ src)
    (t : List Char) (ht : a.ticker = some t) (hot : optTruthy a.ticker = true)
    (hok : tickerOk a)
    (hsrc : ∀ x ∈ src, tickerOk x ∧ 1 ≤ x.asset_id) :
    ∀ (st : MAState), MAInv st →
    ∃ r ∈ (src.foldl (maStep off) st).rows, sqlTick r = some (pyUpper (pyStrip t)) := by
  induction src with
  | nil => simp at ha
  | cons a1 rest ih =>
    intro st hinv
    rcases List.mem_cons.mp ha with h | h
    · rw [List.foldl_cons]
      obtain ⟨htick, hko, hkey⟩ := sqlTick_of_truthy a t ht hot hok
      have hone : ∃ r ∈ (maStep off st a1).rows, sqlTick r = some (pyUpper (pyStrip t)) := by
        rw [← h, maStep, if_pos hot, hkey]
        cases hdg : dGet? st.exTickers (pyUpper (pyStrip t)) with
        | some d =>
          dsimp only
          by_cases hdz : d = 0
          · rw [if_pos hdz, maInsert, if_pos hot]
            exact ⟨{ a with asset_id := a.asset_id + off }, by simp, htick⟩
          · rw [if_neg hdz]
            have hh := hinv.1 (pyUpper (pyStrip t)) (by simp [hko])
            rw [hdg] at hh
            obtain ⟨r, hrf, hrid⟩ := Option.map_eq_some'.mp hh.symm
            refine ⟨r, List.mem_of_find?_eq_some hrf, ?_⟩
            simpa using List.find?_some hrf
        | none =>
          dsimp only
          rw [maInsert, if_pos hot]
          exact ⟨{ a with asset_id := a.asset_id + off }, by simp, htick⟩
      obtain ⟨r, hr1, hr2⟩ := hone
      exact ⟨r, ma_fold_rows_mono off rest _ r hr1, hr2⟩
    · rw [List.foldl_cons]
      exact ih h (fun x hx => hsrc x (List.mem_cons_of_mem _ hx)) _
        (maStep_inv off st a1 hinv (hsrc a1 (by simp)).1 (hsrc a1 (by simp)).2)

/-- With distinct stored ticker keys, the ticker dictionary built from the
target agrees with first-match lookup over the target rows. -/
theorem buildEA_go_spec (l : List Asset) (hnd : (l.filterMap sqlTick).Nodup) :
    ∀ (d : List (List Char × Nat) × List (List Char × Nat)),
      (∀ a ∈ l, ∀ k2, sqlTick a = some k2 → dGet? d.1 k2 = none) →
      ∀ k, dGet? (l.foldl beaStep d).1 k =
        match l.find? (fun a => decide (sqlTick a = some k)) with
        | some a => some a.asset_id
        | none => dGet? d.1 k := by
  induction l with
  | nil => intro d _ k; simp [List.find?]
  | cons a rest ih =>
    intro d hfresh k
    rw [List.foldl_cons]
    have hnd2 : (rest.filterMap sqlTick).Nodup := by
      cases hfx : sqlTick a with
      | none => simpa [List.filterMap_cons, hfx] using hnd
      | some v =>
        have := hnd
        simp only [List.filterMap_cons, hfx] at this
        exact (List.nodup_cons.mp this).2
    cases hfa : sqlTick a with
    | none =>
      have hstep : (beaStep d a).1 = d.1 := by
        rw [beaStep, hfa]
        cases a.company_name with
        | none => rfl
        | some n =>
          dsimp only
          by_cases hn : (pyStrip n).isEmpty = true
          · rw [if_pos hn]
          · rw [if_neg hn]
      have hfresh2 : ∀ x ∈ rest, ∀ k2, sqlTick x = some k2 → dGet? (beaStep d a).1 k2 = none := by
        intro x hx k2 hk2
        rw [hstep]
        exact hfresh x (List.mem_cons_of_mem _ hx) k2 hk2
      rw [ih hnd2 _ hfresh2 k]
      have hdec : (decide (sqlTick a = some k)) = false := by simp [hfa]
      simp only [List.find?, hdec]
      cases rest.find? (fun x => decide (sqlTick x = some k)) with
      | some r => rfl
      | none => rw [hstep]
    | some ka =>
      have hkain : ka ∉ rest.filterMap sqlTick := by
        have := hnd
        simp only [List.filterMap_cons, hfa] at this
        exact (List.nodup_cons.mp this).1
      have hstep : (beaStep d a).1 = dSet d.1 ka a.asset_id := by
        rw [beaStep, hfa]
      have hfresh2 : ∀ x ∈ rest, ∀ k2, sqlTick x = some k2 →
          dGet? (beaStep d a).1 k2 = none := by
        intro x hx k2 hk2
        rw [hstep]
        have hne : k2 ≠ ka := by
          intro he
          exact hkain (he ▸ List.mem_filterMap.mpr ⟨x, hx, hk2⟩)
        rw [dGet?_dSet_ne _ _ _ _ hne]
        exact hfresh x (List.mem_cons_of_mem _ hx) k2 hk2
      rw [ih hnd2 _ hfresh2 k]
      by_cases hk : ka = k
      · have hrest : rest.find? (fun x => decide (sqlTick x = some k)) = none := by
          rw [List.find?_eq_none]
          intro x hx
          simp only [decide_eq_true_eq]
          intro he
          exact hkain (hk ▸ List.mem_filterMap.mpr ⟨x, hx, he⟩)
        have hdec : (decide (sqlTick a = some k)) = true := by simp [hfa, hk]
        simp only [hrest, List.find?, hdec]
        rw [hstep, ← hk, dGet?_dSet_self]
      · have hdec : (decide (sqlTick a = some k)) = false := by
          simp only [hfa, decide_eq_false_iff_not]
          intro he
          exact hk (by injection he)
        simp only [List.find?, hdec]
        cases hf : rest.find? (fun x => decide (sqlTick x = some k)) with
        | some r => simp [hf]
        | none =>
          simp only [hf]
          rw [hstep, dGet?_dSet_ne _ _ _ _ (fun he => hk he.symm)]

/-- merge_filings appends the offset source filings with their member
references sent through the member id map. -/
theorem merge_filings_rows (tgt src : List Filing) (off : Nat)
    (mMap : List (Nat × Nat)) :
    (merge_filings tgt src off mMap).1 = tgt ++ src.map (fun f =>
      { f with
        filing_id := f.filing_id + off
        member_id := dGetD mMap f.member_id f.member_id }) := by
  rw [merge_filings]
  have hgen : ∀ (st : List Filing × List (Nat × Nat)),
      (src.foldl (fun st f =>
        (st.1 ++ [{ f with
          filing_id := f.filing_id + off
          member_id := dGetD mMap f.member_id f.member_id }],
         dSet st.2 f.filing_id (f.filing_id + off))) st).1 =
      st.1 ++ src.map (fun f =>
        { f with
          filing_id := f.filing_id + off
          member_id := dGetD mMap f.member_id f.member_id }) := by
    induction src with
    | nil => intro st; simp
    | cons f rest ih =>
      intro st
      rw [List.foldl_cons, ih]
      simp
  exact hgen (tgt, [])

/-- merge_transactions appends the offset source transactions with their
references sent through the filing and asset id maps. -/
theorem merge_transactions_rows (tgt src : List Txn) (off : Nat)
    (fMap aMap : List (Nat × Nat)) :
    merge_transactions tgt src off fMap aMap = tgt ++ src.map (fun t =>
      { t with
        transaction_id := t.transaction_id + off
        filing_id := dGetD fMap t.filing_id t.filing_id
        asset_id := dGetD aMap t.asset_id t.asset_id }) := by
  rw [merge_transactions]
  induction src generalizing tgt with
  | nil => simp
  | cons t rest ih =>
    rw [List.foldl_cons, ih]
    simp

theorem map_nodup_filter {α κ : Type} [DecidableEq α] [DecidableEq κ]
    (l : List α) (f : α → κ) (hnd : (l.map f).Nodup) (a : α) (ha : a ∈ l)
    (k : κ) (hk : f a = k) : l.filter (fun x => decide (f x = k)) = [a] := by
  have hnd2 : (l.filterMap (fun x => some (f x))).Nodup := by
    have he : l.filterMap (fun x => some (f x)) = l.map f := by
      rw [show (fun x => some (f x)) = (some ∘ f) from rfl, List.filterMap_eq_map]
    rw [he]
    exact hnd
  have := filterMap_nodup_filter l (fun x => some (f x)) hnd2 a ha k (congrArg some hk)
  rw [← this]
  apply List.filter_congr
  intro x hx
  simp

theorem isEmpty_pyUpper (l : List Char) : (pyUpper l).isEmpty = l.isEmpty := by
  cases l <;> rfl

theorem merge_databases_eq (senate congress : DB) :
    merge_databases senate congress =
      mergePhase (mergePhase emptyDB congress 0 0 0 0) senate
        (calculate_offsets congress).members (calculate_offsets congress).assets
        (calculate_offsets congress).filings (calculate_offsets congress).transactions := rfl

/-- C6: when merge_databases unifies the senate and congress databases,
every merged row either is a congress source row kept verbatim with its
original primary key or is a senate source row whose id is its old id plus
the offset of the maximum congress id of its table plus 1000; a member
name shared across the sources after trimming and case folding, or an
asset ticker shared after trimming and upper-casing, yields exactly one
merged row — a congress one — with the senate side's filings and
transactions repointed to it. -/
theorem merge_databases_unifies (senate congress : DB)
    (hsmnd : (senate.members.map Member.member_id).Nodup)
    (hsand : (senate.assets.map Asset.asset_id).Nodup)
    (hca : ∀ a ∈ congress.assets, tickerOk a ∧ 1 ≤ a.asset_id)
    (hsa : ∀ a ∈ senate.assets, tickerOk a ∧ 1 ≤ a.asset_id) :
    (∀ m ∈ (merge_databases senate congress).members, m ∈ congress.members ∨
      ∃ m0 ∈ senate.members,
        m = { m0 with member_id := m0.member_id + (calculate_offsets congress).members }) ∧
    (∀ a ∈ (merge_databases senate congress).assets, a ∈ congress.assets ∨
      ∃ a0 ∈ senate.assets,
        a = { a0 with asset_id := a0.asset_id + (calculate_offsets congress).assets }) ∧
    (∀ f ∈ (merge_databases senate congress).filings,
      (∃ f0 ∈ congress.filings, f.filing_id = f0.filing_id ∧ f.doc_id = f0.doc_id) ∨
      (∃ f0 ∈ senate.filings,
        f.filing_id = f0.filing_id + (calculate_offsets congress).filings ∧
        f.doc_id = f0.doc_id)) ∧
    (∀ t ∈ (merge_databases senate congress).transactions,
      (∃ t0 ∈ congress.transactions,
        t.transaction_id = t0.transaction_id ∧ t.raw = t0.raw) ∨
      (∃ t0 ∈ senate.transactions,
        t.transaction_id = t0.transaction_id + (calculate_offsets congress).transactions ∧
        t.raw = t0.raw)) ∧
    (∀ cm ∈ congress.members, ∀ sm ∈ senate.members,
      memberKey cm.name = memberKey sm.name →
      ∃ rm, (merge_databases senate congress).members.filter
          (fun m => decide (memberKey m.name = memberKey cm.name)) = [rm] ∧
        rm ∈ congress.members ∧
        ∀ sf ∈ senate.filings, sf.member_id = sm.member_id →
          ∃ f2 ∈ (merge_databases senate congress).filings,
            f2.filing_id = sf.filing_id + (calculate_offsets congress).filings ∧
            f2.member_id = rm.member_id ∧ f2.doc_id = sf.doc_id) ∧
    (∀ ca ∈ congress.assets, ∀ sa ∈ senate.assets, ∀ tc ts : List Char,
      ca.ticker = some tc → sa.ticker = some ts → ¬(pyStrip tc).isEmpty →
      pyStrip (pyUpper tc) = pyStrip (pyUpper ts) →
      ∃ ra, (merge_databases senate congress).assets.filter
          (fun x => decide (sqlTick x = some (pyUpper (pyStrip tc)))) = [ra] ∧
        ra ∈ congress.assets ∧
        ∀ t ∈ senate.transactions, t.asset_id = sa.asset_id →
          ∃ t2 ∈ (merge_databases senate congress).transactions,
            t2.transaction_id = t.transaction_id + (calculate_offsets congress).transactions ∧
            t2.asset_id = ra.asset_id ∧ t2.raw = t.raw) := by
  have hphase0 : MMInv ⟨([] : List Member), buildExistingMembers [], []⟩ := by
    constructor
    · intro k
      simp [dGet?, buildExistingMembers, List.find?]
    · simp
  have hm1rows : (mergePhase emptyDB congress 0 0 0 0).members =
      (congress.members.foldl (mmStep 0)
        ⟨[], buildExistingMembers [], []⟩).rows := rfl
  have hInv1 : MMInv (congress.members.foldl (mmStep 0) ⟨[], buildExistingMembers [], []⟩) :=
    mm_fold_inv 0 congress.members _ hphase0
  have hm1prov : ∀ r ∈ (mergePhase emptyDB congress 0 0 0 0).members,
      r ∈ congress.members := by
    intro r hr
    rw [hm1rows] at hr
    rcases mm_fold_rows_prov 0 congress.members _ r hr with h | ⟨m0, hm0, he⟩
    · simp at h
    · have : { m0 with member_id := m0.member_id + 0 } = m0 := rfl
      rw [this] at he
      rw [he]
      exact hm0
  have hst1inv : MMInv ⟨(mergePhase emptyDB congress 0 0 0 0).members,
      buildExistingMembers (mergePhase emptyDB congress 0 0 0 0).members, []⟩ := by
    constructor
    · intro k
      dsimp only
      rw [buildExistingMembers]
      rw [buildEM_go_spec _ [] (by rw [hm1rows]; exact hInv1.2)
        (fun m _ => by simp [dGet?, List.find?]) k]
      cases (mergePhase emptyDB congress 0 0 0 0).members.find?
          (fun m => decide (memberKey m.name = k)) with
      | some m => rfl
      | none => rfl
    · rw [hm1rows]
      exact hInv1.2
  have hmergedm : (merge_databases senate congress).members =
      (senate.members.foldl (mmStep (calculate_offsets congress).members)
        ⟨(mergePhase emptyDB congress 0 0 0 0).members,
          buildExistingMembers (mergePhase emptyDB congress 0 0 0 0).members, []⟩).rows := rfl
  have hmMap : ∀ o, dGet? (merge_members (mergePhase emptyDB congress 0 0 0 0).members
      senate.members (calculate_offsets congress).members).2 o =
      dGet? (senate.members.foldl (mmStep (calculate_offsets congress).members)
        ⟨(mergePhase emptyDB congress 0 0 0 0).members,
          buildExistingMembers (mergePhase emptyDB congress 0 0 0 0).members, []⟩).idMap o :=
    fun o => rfl
  have hInv2 : MMInv (senate.members.foldl (mmStep (calculate_offsets congress).members)
      ⟨(mergePhase emptyDB congress 0 0 0 0).members,
        buildExistingMembers (mergePhase emptyDB congress 0 0 0 0).members, []⟩) :=
    mm_fold_inv _ senate.members _ hst1inv
  -- asset stages
  have hphase0a : MAInv ⟨([] : List Asset), (buildExistingAssets []).1,
      (buildExistingAssets []).2, []⟩ := by
    refine ⟨?_, by simp, by simp⟩
    intro k _
    simp [dGet?, buildExistingAssets, List.find?]
  have ha1rows : (mergePhase emptyDB congress 0 0 0 0).assets =
      (congress.assets.foldl (maStep 0)
        ⟨[], (buildExistingAssets []).1, (buildExistingAssets []).2, []⟩).rows := rfl
  have hInv1a : MAInv (congress.assets.foldl (maStep 0)
      ⟨[], (buildExistingAssets []).1, (buildExistingAssets []).2, []⟩) :=
    ma_fold_inv 0 congress.assets _ hphase0a hca
  have ha1prov : ∀ r ∈ (mergePhase emptyDB congress 0 0 0 0).assets,
      r ∈ congress.assets := by
    intro r hr
    rw [ha1rows] at hr
    rcases ma_fold_rows_prov 0 congress.assets _ r hr with h | ⟨a0, ha0, he⟩
    · simp at h
    · have : { a0 with asset_id := a0.asset_id + 0 } = a0 := rfl
      rw [this] at he
      rw [he]
      exact ha0
  have hst1ainv : MAInv ⟨(mergePhase emptyDB congress 0 0 0 0).assets,
      (buildExistingAssets (mergePhase emptyDB congress 0 0 0 0).assets).1,
      (buildExistingAssets (mergePhase emptyDB congress 0 0 0 0).assets).2, []⟩ := by
    refine ⟨?_, ?_, ?_⟩
    · intro k hk
      dsimp only
      rw [buildExistingAssets]
      rw [buildEA_go_spec _ (by rw [ha1rows]; exact hInv1a.2.1) ([], [])
        (fun a _ k2 _ => by simp [dGet?, List.find?]) k]
      cases (mergePhase emptyDB congress 0 0 0 0).assets.find?
          (fun a => decide (sqlTick a = some k)) with
      | some a => rfl
      | none => rfl
    · rw [ha1rows]
      exact hInv1a.2.1
    · rw [ha1rows]
      exact hInv1a.2.2
  have hmergeda : (merge_databases senate congress).assets =
      (senate.assets.foldl (maStep (calculate_offsets congress).assets)
        ⟨(mergePhase emptyDB congress 0 0 0 0).assets,
          (buildExistingAssets (mergePhase emptyDB congress 0 0 0 0).assets).1,
          (buildExistingAssets (mergePhase emptyDB congress 0 0 0 0).assets).2, []⟩).rows := rfl
  have hInv2a : MAInv (senate.assets.foldl (maStep (calculate_offsets congress).assets)
      ⟨(mergePhase emptyDB congress 0 0 0 0).assets,
        (buildExistingAssets (mergePhase emptyDB congress 0 0 0 0).assets).1,
        (buildExistingAssets (mergePhase emptyDB congress 0 0 0 0).assets).2, []⟩) :=
    ma_fold_inv _ senate.assets _ hst1ainv hsa
  -- filings and transactions equalities
  have hmergedf : (merge_databases senate congress).filings =
      (mergePhase emptyDB congress 0 0 0 0).filings ++ senate.filings.map (fun f =>
        { f with
          filing_id := f.filing_id + (calculate_offsets congress).filings
          member_id := dGetD (merge_members (mergePhase emptyDB congress 0 0 0 0).members
            senate.members (calculate_offsets congress).members).2 f.member_id f.member_id }) := by
    exact merge_filings_rows _ _ _ _
  have hm1filings : (mergePhase emptyDB congress 0 0 0 0).filings =
      congress.filings.map (fun f =>
        { f with
          filing_id := f.filing_id + 0
          member_id := dGetD (merge_members emptyDB.members congress.members 0).2
            f.member_id f.member_id }) := by
    have := merge_filings_rows emptyDB.filings congress.filings 0
      (merge_members emptyDB.members congress.members 0).2
    simpa using this
  have hmergedt : (merge_databases senate congress).transactions =
      (mergePhase emptyDB congress 0 0 0 0).transactions ++ senate.transactions.map (fun t =>
        { t with
          transaction_id := t.transaction_id + (calculate_offsets congress).transactions
          filing_id := dGetD (merge_filings (mergePhase emptyDB congress 0 0 0 0).filings
            senate.filings (calculate_offsets congress).filings
            (merge_members (mergePhase emptyDB congress 0 0 0 0).members
              senate.members (calculate_offsets congress).members).2).2 t.filing_id t.filing_id
          asset_id := dGetD (merge_assets (mergePhase emptyDB congress 0 0 0 0).assets
            senate.assets (calculate_offsets congress).assets).2 t.asset_id t.asset_id }) := by
    exact merge_transactions_rows _ _ _ _ _
  have hm1txns : (mergePhase emptyDB congress 0 0 0 0).transactions =
      congress.transactions.map (fun t =>
        { t with
          transaction_id := t.transaction_id + 0
          filing_id := dGetD (merge_filings emptyDB.filings congress.filings 0
            (merge_members emptyDB.members congress.members 0).2).2 t.filing_id t.filing_id
          asset_id := dGetD (merge_assets emptyDB.assets congress.assets 0).2
            t.asset_id t.asset_id }) := by
    have := merge_transactions_rows emptyDB.transactions congress.transactions 0
      (merge_filings emptyDB.filings congress.filings 0
        (merge_members emptyDB.members congress.members 0).2).2
      (merge_assets emptyDB.assets congress.assets 0).2
    simpa using this
  refine ⟨?_, ?_, ?_, ?_, ?_, ?_⟩
  · -- P1 members provenance
    intro m hm
    rw [hmergedm] at hm
    rcases mm_fold_rows_prov _ senate.members _ m hm with h | ⟨m0, hm0, he⟩
    · exact Or.inl (hm1prov m h)
    · exact Or.inr ⟨m0, hm0, he⟩
  · -- P2 assets provenance
    intro a ha
    rw [hmergeda] at ha
    rcases ma_fold_rows_prov _ senate.assets _ a ha with h | ⟨a0, ha0, he⟩
    · exact Or.inl (ha1prov a h)
    · exact Or.inr ⟨a0, ha0, he⟩
  · -- P3 filings id provenance
    intro f hf
    rw [hmergedf] at hf
    rcases List.mem_append.mp hf with h | h
    · rw [hm1filings] at h
      obtain ⟨f0, hf0, he⟩ := List.mem_map.mp h
      exact Or.inl ⟨f0, hf0, by rw [← he]; simp, by rw [← he]⟩
    · obtain ⟨f0, hf0, he⟩ := List.mem_map.mp h
      exact Or.inr ⟨f0, hf0, by rw [← he], by rw [← he]⟩
  · -- P4 transaction id provenance
    intro t ht
    rw [hmergedt] at ht
    rcases List.mem_append.mp ht with h | h
    · rw [hm1txns] at h
      obtain ⟨t0, ht0, he⟩ := List.mem_map.mp h
      exact Or.inl ⟨t0, ht0, by rw [← he]; simp, by rw [← he]⟩
    · obtain ⟨t0, ht0, he⟩ := List.mem_map.mp h
      exact Or.inr ⟨t0, ht0, by rw [← he], by rw [← he]⟩
  · -- P5 member dedup across sources
    intro cm hcm sm hsm hkc
    obtain ⟨r1, hr1mem, hr1key⟩ :=
      mm_fold_rep 0 congress.members cm hcm ⟨[], buildExistingMembers [], []⟩ hphase0
    rw [← hm1rows] at hr1mem
    have hfind : ∃ rK, (mergePhase emptyDB congress 0 0 0 0).members.find?
        (fun m => decide (memberKey m.name = memberKey cm.name)) = some rK := by
      cases hf : (mergePhase emptyDB congress 0 0 0 0).members.find?
          (fun m => decide (memberKey m.name = memberKey cm.name)) with
      | some rK => exact ⟨rK, rfl⟩
      | none =>
        have := List.find?_eq_none.mp hf r1 hr1mem
        simp [hr1key] at this
    obtain ⟨rK, hrK⟩ := hfind
    have hrKmem : rK ∈ (mergePhase emptyDB congress 0 0 0 0).members :=
      List.mem_of_find?_eq_some hrK
    have hrKkey : memberKey rK.name = memberKey cm.name := by
      simpa using List.find?_some hrK
    have hex : dGet? (buildExistingMembers (mergePhase emptyDB congress 0 0 0 0).members)
        (memberKey sm.name) = some rK.member_id := by
      rw [← hkc]
      have h5 := hst1inv.1 (memberKey cm.name)
      dsimp only at h5
      rw [h5, hrK]
      rfl
    have hhit := mm_fold_idMap_hit (calculate_offsets congress).members senate.members
      hsmnd sm hsm ⟨(mergePhase emptyDB congress 0 0 0 0).members,
        buildExistingMembers (mergePhase emptyDB congress 0 0 0 0).members, []⟩
      rK.member_id hex
    have hrKmerged : rK ∈ (merge_databases senate congress).members := by
      rw [hmergedm]
      exact mm_fold_rows_mono _ senate.members _ rK hrKmem
    refine ⟨rK, ?_, hm1prov rK hrKmem, ?_⟩
    · exact map_nodup_filter (merge_databases senate congress).members
        (fun m => memberKey m.name) (by rw [hmergedm]; exact hInv2.2) rK hrKmerged
        (memberKey cm.name) hrKkey
    · intro sf hsf hsfm
      rw [hmergedf]
      refine ⟨_, List.mem_append_right _ (List.mem_map.mpr ⟨sf, hsf, rfl⟩), rfl, ?_, rfl⟩
      show dGetD (merge_members (mergePhase emptyDB congress 0 0 0 0).members
        senate.members (calculate_offsets congress).members).2 sf.member_id sf.member_id =
        rK.member_id
      rw [dGetD, hsfm, hmMap, hhit]
      rfl
  · -- P6 asset dedup across sources
    intro ca hcamem sa hsamem tc ts htc hts hstc hkk
    have hotc : optTruthy ca.ticker = true := by
      rw [htc, optTruthy]
      cases hc : tc with
      | nil => rw [hc] at hstc; simp [pyStrip] at hstc
      | cons c l => simp
    have hokc : tickerOk ca := (hca ca hcamem).1
    obtain ⟨htickc, hkoc, _⟩ := sqlTick_of_truthy ca tc htc hotc hokc
    have hkupu : pyUpper (pyStrip ts) = pyUpper (pyStrip tc) := by
      rw [← pyStrip_pyUpper, ← pyStrip_pyUpper, hkk]
    have hsts : ¬(pyStrip ts).isEmpty := by
      intro hemp
      have h1 : (pyUpper (pyStrip ts)).isEmpty = true := by
        rw [isEmpty_pyUpper]
        exact hemp
      rw [hkupu] at h1
      rw [h1] at hkoc
      exact Bool.noConfusion hkoc
    have hots : optTruthy sa.ticker = true := by
      rw [hts, optTruthy]
      cases hc : ts with
      | nil => rw [hc] at hsts; simp [pyStrip] at hsts
      | cons c l => simp
    have hoks : tickerOk sa := (hsa sa hsamem).1
    obtain ⟨r1, hr1mem, hr1key⟩ :=
      ma_fold_rep 0 congress.assets ca hcamem tc htc hotc hokc hca
        ⟨[], (buildExistingAssets []).1, (buildExistingAssets []).2, []⟩ hphase0a
    rw [← ha1rows] at hr1mem
    have hfind : ∃ rK, (mergePhase emptyDB congress 0 0 0 0).assets.find?
        (fun a => decide (sqlTick a = some (pyUpper (pyStrip tc)))) = some rK := by
      cases hf : (mergePhase emptyDB congress 0 0 0 0).assets.find?
          (fun a => decide (sqlTick a = some (pyUpper (pyStrip tc)))) with
      | some rK => exact ⟨rK, rfl⟩
      | none =>
        have := List.find?_eq_none.mp hf r1 hr1mem
        simp [hr1key] at this
    obtain ⟨rK, hrK⟩ := hfind
    have hrKmem : rK ∈ (mergePhase emptyDB congress 0 0 0 0).assets :=
      List.mem_of_find?_eq_some hrK
    have hrKkey : sqlTick rK = some (pyUpper (pyStrip tc)) := by
      simpa using List.find?_some hrK
    have heid1 : 1 ≤ rK.asset_id := (hInv1a.2.2 rK (by rw [← ha1rows]; exact hrKmem)).2
    have hex : dGet? (buildExistingAssets (mergePhase emptyDB congress 0 0 0 0).assets).1
        (pyUpper (pyStrip ts)) = some rK.asset_id := by
      rw [hkupu]
      have h5 := hst1ainv.1 (pyUpper (pyStrip tc)) (by simp [hkoc])
      dsimp only at h5
      rw [h5, hrK]
      rfl
    have hhit := ma_fold_idMap_hit (calculate_offsets congress).assets senate.assets
      hsand sa hsamem ts hts hots hoks
      ⟨(mergePhase emptyDB congress 0 0 0 0).assets,
        (buildExistingAssets (mergePhase emptyDB congress 0 0 0 0).assets).1,
        (buildExistingAssets (mergePhase emptyDB congress 0 0 0 0).assets).2, []⟩
      rK.asset_id (by omega) hex
    have hrKmerged : rK ∈ (merge_databases senate congress).assets := by
      rw [hmergeda]
      exact ma_fold_rows_mono _ senate.assets _ rK hrKmem
    refine ⟨rK, ?_, ha1prov rK hrKmem, ?_⟩
    · exact filterMap_nodup_filter (merge_databases senate congress).assets sqlTick
        (by rw [hmergeda]; exact hInv2a.2.1) rK hrKmerged
        (pyUpper (pyStrip tc)) hrKkey
    · intro t htmem htasset
      rw [hmergedt]
      refine ⟨_, List.mem_append_right _ (List.mem_map.mpr ⟨t, htmem, rfl⟩), rfl, ?_, rfl⟩
      show dGetD (merge_assets (mergePhase emptyDB congress 0 0 0 0).assets
        senate.assets (calculate_offsets congress).assets).2 t.asset_id t.asset_id =
        rK.asset_id
      rw [dGetD, htasset]
      have haMap : dGet? (merge_assets (mergePhase emptyDB congress 0 0 0 0).assets
          senate.assets (calculate_offsets congress).assets).2 sa.asset_id =
          some rK.asset_id := hhit
      rw [haMap]
      rfl

/-! ### Remaining support lemmas for the claim theorems -/

theorem exists_ne_of_nodup_long (l : List Nat) (hnd : l.Nodup) (hlen : 1 < l.length)
    (a : Nat) : ∃ b ∈ l, b ≠ a := by
  match l, hlen with
  | x :: y :: t, _ =>
    have hxy : x ≠ y := by
      have := List.nodup_cons.mp hnd
      intro he
      exact this.1 (he ▸ List.mem_cons_self y t)
    by_cases hx : x = a
    · exact ⟨y, by simp, by rw [← hx]; exact fun he => hxy he.symm⟩
    · exact ⟨x, by simp, hx⟩

/-- A member row deleted by the automated member stage always has a
partner row with the identical lower-trimmed name. -/
theorem member_removed_has_partner (db : DB)
    (hnd : (db.members.map Member.member_id).Nodup)
    (m : Member) (hm : m ∈ db.members) (hgone : m ∉ (cleanupMembers db).members) :
    ∃ m2 ∈ db.members, m2 ≠ m ∧ memberKey m2.name = memberKey m.name := by
  have hkeep : keepId (memberOps db.members) m.member_id = false := by
    by_contra hx
    have hk : keepId (memberOps db.members) m.member_id = true := by
      simpa using hx
    exact hgone (by
      rw [cleanupMembers_members]
      exact List.mem_filter.mpr ⟨hm, by simpa using hk⟩)
  have hex : ∃ op ∈ memberOps db.members, m.member_id ∈ op.2 := by
    by_contra hx
    push_neg at hx
    have : keepId (memberOps db.members) m.member_id = true :=
      (keepId_iff _ _).mpr hx
    rw [this] at hkeep
    exact Bool.noConfusion hkeep
  obtain ⟨op, hop, hmem⟩ := hex
  simp only [memberOps, List.mem_map] at hop
  obtain ⟨b, hb, hbop⟩ := hop
  obtain ⟨hids, hlen⟩ := findMemberDuplicates_spec db.members b.1 b.2 hb
  have hin2 : m.member_id ∈ b.2 := by
    rw [← hbop] at hmem
    exact (List.mem_filter.mp hmem).1
  have hin2b := hin2
  rw [hids] at hin2b
  obtain ⟨m', hm', hid'⟩ := List.mem_map.mp hin2b
  have hm'db : m' ∈ db.members := (List.mem_filter.mp hm').1
  have hm'm : m' = m := List.inj_on_of_nodup_map hnd hm'db hm hid'
  have hkeym : memberKey m.name = b.1 := by
    have h2 := (List.mem_filter.mp hm').2
    rw [hm'm] at h2
    simpa using h2
  have hidsnd : b.2.Nodup := by
    rw [hids]
    exact hnd.sublist ((List.filter_sublist _).map _)
  obtain ⟨i2, hi2, hi2ne⟩ := exists_ne_of_nodup_long b.2 hidsnd hlen m.member_id
  rw [hids] at hi2
  obtain ⟨m2, hm2, hm2id⟩ := List.mem_map.mp hi2
  refine ⟨m2, (List.mem_filter.mp hm2).1, ?_, ?_⟩
  · intro he
    apply hi2ne
    rw [← hm2id, he]
  · have h2 := (List.mem_filter.mp hm2).2
    have : memberKey m2.name = b.1 := by simpa using h2
    rw [this, hkeym]

/-- C1 (amended): for every database with distinct asset ids and every
class of assets whose tickers agree after trimming and upper-casing — the
only ticker normalization dbcleanup's grouping applies, with no exchange
or crypto-quote suffix stripping — exactly one asset of the class survives
cleanup_database and every transaction that referenced any asset of the
class references the survivor afterwards. -/
theorem cleanup_database_ticker_class (db : DB)
    (hnd : (db.assets.map Asset.asset_id).Nodup) (k : List Char)
    (hne : db.assets.filter (fun a => dbTickerKey a.ticker = some k) ≠ []) :
    ∃ surv ∈ db.assets.filter (fun a => dbTickerKey a.ticker = some k),
      (cleanup_database db).assets.filter (fun a => dbTickerKey a.ticker = some k) = [surv] ∧
      ∀ t ∈ db.transactions,
        t.asset_id ∈ (db.assets.filter
          (fun a => dbTickerKey a.ticker = some k)).map Asset.asset_id →
        ∃ t2 ∈ (cleanup_database db).transactions,
          t2.transaction_id = t.transaction_id ∧ t2.raw = t.raw ∧
          t2.asset_id = surv.asset_id := by
  have hnd1 : ((cleanupMembers db).assets.map Asset.asset_id).Nodup := by
    rw [cleanupMembers_assets]
    exact hnd
  have hne1 : (cleanupMembers db).assets.filter
      (fun a => dbTickerKey a.ticker = some k) ≠ [] := by
    rw [cleanupMembers_assets]
    exact hne
  obtain ⟨surv, hsurv, hfilter, hrefs⟩ :=
    dbAssets_ticker_survivor (cleanupMembers db) hnd1 k hne1
  rw [cleanupMembers_assets] at hsurv
  refine ⟨surv, hsurv, ?_, ?_⟩
  · show (dbCleanupAssets (cleanupMembers db)).assets.filter _ = [surv]
    exact hfilter
  · intro t ht hcls
    have htm : t ∈ (cleanupMembers db).transactions := by
      rw [cleanupMembers_transactions]
      exact ht
    set ops := dbAssetOpsOf
      ((cleanupMembers db).assets.map (mkAssetInfo (cleanupMembers db).transactions)) with hops
    refine ⟨{ t with asset_id := refUpds ops t.asset_id }, ?_, rfl, rfl, ?_⟩
    · show _ ∈ (dbCleanupAssets (cleanupMembers db)).transactions
      rw [dbCleanupAssets_transactions]
      exact List.mem_map.mpr ⟨t, htm, rfl⟩
    · show refUpds _ t.asset_id = surv.asset_id
      apply hrefs
      rw [cleanupMembers_assets]
      exact hcls

/-! ### The claim theorems, their counterexamples and witnesses -/

/-- C1 counterexample: tickers whose equality needs the suffix-stripping
normalization are not merged by cleanup_database — AAPL and AAPL.TO share
one normalize_ticker key yet both assets survive — and two assets with the
very same BTC ticker both survive run_cleanup because the classifier puts
them in different asset-type groups. -/
theorem suffix_normalized_tickers_not_merged :
    normalize_ticker (some "AAPL".data) = normalize_ticker (some "AAPL.TO".data) ∧
    (cleanup_database db1a).assets.map Asset.asset_id = [1, 2] ∧
    db1b.assets.map Asset.ticker = [some "BTC".data, some "BTC".data] ∧
    (run_cleanup db1b).assets.map Asset.asset_id = [1, 2] := by decide

/-- C1 witness: in db7 the class of trim-upper ticker MSFT has two assets,
ids 2 and 3, and the pass leaves exactly one of them with both of their
transactions repointed. -/
theorem cleanup_database_ticker_class_witness :
    (db7.assets.map Asset.asset_id).Nodup ∧
    db7.assets.filter (fun a => dbTickerKey a.ticker = some "MSFT".data) ≠ [] ∧
    (∃ surv ∈ db7.assets.filter (fun a => dbTickerKey a.ticker = some "MSFT".data),
      (cleanup_database db7).assets.filter
        (fun a => dbTickerKey a.ticker = some "MSFT".data) = [surv] ∧
      ∀ t ∈ db7.transactions,
        t.asset_id ∈ (db7.assets.filter
          (fun a => dbTickerKey a.ticker = some "MSFT".data)).map Asset.asset_id →
        ∃ t2 ∈ (cleanup_database db7).transactions,
          t2.transaction_id = t.transaction_id ∧ t2.raw = t.raw ∧
          t2.asset_id = surv.asset_id) :=
  ⟨by decide, by decide,
    cleanup_database_ticker_class db7 (by decide) "MSFT".data (by decide)⟩

/-- C2: the automated pass merges members only on identical lower-trimmed
names — any member row deleted by the member stage has a partner with the
same name key; members merely sharing an extracted surname are flagged by
the interactive tool as a candidate group; and the interactive phase-one
loop merges a pair only when the operator's response to that very pair is
the empty confirmation. -/
theorem no_surname_auto_merge (db : DB)
    (hnd : (db.members.map Member.member_id).Nodup) :
    (∀ m ∈ db.members, m ∉ (cleanupMembers db).members →
      ∃ m2 ∈ db.members, m2 ≠ m ∧ memberKey m2.name = memberKey m.name) ∧
    (∀ (members : List Member) (m1 m2 : Member), m1 ∈ members → m2 ∈ members →
      m1 ≠ m2 → get_last_name m1.name = get_last_name m2.name →
      get_last_name m1.name ≠ [] →
      ∃ g, (get_last_name m1.name, g) ∈ interactiveGroups members ∧ m1 ∈ g ∧ m2 ∈ g) ∧
    (∀ (d : DB) (ps : List (Nat × Nat)) (rs : List (List Char)),
      ∀ p ∈ (phase1 d ps rs).2, ∃ j, ps.get? j = some p ∧ rs.get? j = some []) :=
  ⟨fun m hm hg => member_removed_has_partner db hnd m hm hg,
   fun members m1 m2 h1 h2 hne hkey hnz =>
     interactiveGroups_flags members m1 m2 h1 h2 hne hkey hnz,
   fun d ps rs => phase1_merges_confirmed d ps rs⟩

/-- C2 witness at a database with one equal-name pair. -/
theorem no_surname_auto_merge_witness :
    (dbC5.members.map Member.member_id).Nodup ∧
    ((∀ m ∈ dbC5.members, m ∉ (cleanupMembers dbC5).members →
      ∃ m2 ∈ dbC5.members, m2 ≠ m ∧ memberKey m2.name = memberKey m.name) ∧
    (∀ (members : List Member) (m1 m2 : Member), m1 ∈ members → m2 ∈ members →
      m1 ≠ m2 → get_last_name m1.name = get_last_name m2.name →
      get_last_name m1.name ≠ [] →
      ∃ g, (get_last_name m1.name, g) ∈ interactiveGroups members ∧ m1 ∈ g ∧ m2 ∈ g) ∧
    (∀ (d : DB) (ps : List (Nat × Nat)) (rs : List (List Char)),
      ∀ p ∈ (phase1 d ps rs).2, ∃ j, ps.get? j = some p ∧ rs.get? j = some [])) :=
  ⟨by decide, no_surname_auto_merge dbC5 (by decide)⟩

/-- C3 counterexample: run_cleanup is not idempotent.  In db3 the first
run merges the BTC-USD asset into the BTC one; the second run finds one
further duplicate group — the merge changed no name key, but the processed
set that had separated the groups is rebuilt — and merges again. -/
theorem enhanced_cleanup_not_idempotent :
    (run_cleanup db3).assets.map Asset.asset_id = [1, 3] ∧
    (find_duplicate_groups (get_asset_records (run_cleanup db3))).length = 1 ∧
    (run_cleanup (run_cleanup db3)).assets.map Asset.asset_id = [1] := by decide

/-- C3 witness: on db3 a second cleanup_database run finds nothing and
changes nothing. -/
theorem cleanup_database_idem_witness :
    (db3.members.map Member.member_id).Nodup ∧
    (db3.assets.map Asset.asset_id).Nodup ∧
    (findMemberDuplicates (cleanup_database db3).members = [] ∧
      dbDuplicateGroups ((cleanup_database db3).assets.map
        (mkAssetInfo (cleanup_database db3).transactions)) = [] ∧
      cleanup_database (cleanup_database db3) = cleanup_database db3) :=
  ⟨by decide, by decide, cleanup_database_idem db3 (by decide) (by decide)⟩

/-- C4 (amended): when merging one duplicate group raises, the enhanced
cleaner keeps every group committed before the failure — the error state
is exactly the fold of the preceding groups — but the pass stops at the
failing group instead of continuing; dbcleanup runs its whole pass in one
transaction, so its error state is the original database and even the
groups merged earlier in the pass are rolled back. -/
theorem group_failure_rollback (failsR : List AssetRecord → Bool)
    (preR : List (List AssetRecord)) (gR : List AssetRecord)
    (postR : List (List AssetRecord)) (d : DB)
    (hpreR : ∀ g2 ∈ preR, failsR g2 = false) (hgR : failsR gR = true)
    (failsI : List AssetInfo → Bool) (db0 : DB) (preI : List (List AssetInfo))
    (gI : List AssetInfo) (postI : List (List AssetInfo)) (dI : DB)
    (hpreI : ∀ g2 ∈ preI, failsI g2 = false) (hgI : failsI gI = true) :
    run_cleanupGroupsE failsR (preR ++ gR :: postR) d =
      .error (preR.foldl merge_duplicate_group d) ∧
    dbCleanupGroupsE failsI db0 (preI ++ gI :: postI) dI = .error db0 :=
  ⟨run_cleanupGroupsE_spec failsR preR gR postR d hpreR hgR,
   dbCleanupGroupsE_spec failsI db0 preI gI postI dI hpreI hgI⟩

/-- C4 counterexample: with two mergeable ticker groups in dbC4, a failure
on the second group makes cleanup_database's pass roll back to the
original database — the already merged first group does not remain — and a
failure on the first group makes the enhanced pass abort with the database
unchanged instead of continuing to the second group it would have merged. -/
theorem rollback_not_per_group :
    cleanup_databaseE (fun g => decide (3 ∈ g.map AssetInfo.asset_id)) dbC4 =
      .error dbC4 ∧
    run_cleanupE (fun g => decide (1 ∈ g.map AssetRecord.asset_id)) dbC4 =
      .error dbC4 ∧
    (run_cleanup dbC4).assets.map Asset.asset_id = [1, 4] := by decide

/-- C4 witness: a concrete two-group schedule whose second group fails. -/
theorem group_failure_rollback_witness :
    (∀ g2 ∈ [[mkAssetRecord [] (mkA 1 "x" none)]],
      (fun (g : List AssetRecord) => g.isEmpty) g2 = false) ∧
    (fun (g : List AssetRecord) => g.isEmpty) [] = true ∧
    (∀ g2 ∈ [[mkAssetInfo [] (mkA 1 "x" none)]],
      (fun (g : List AssetInfo) => g.isEmpty) g2 = false) ∧
    (fun (g : List AssetInfo) => g.isEmpty) [] = true ∧
    (run_cleanupGroupsE (fun g => g.isEmpty)
        ([[mkAssetRecord [] (mkA 1 "x" none)]] ++ [] :: []) db3 =
      .error ([[mkAssetRecord [] (mkA 1 "x" none)]].foldl merge_duplicate_group db3) ∧
    dbCleanupGroupsE (fun g => g.isEmpty) db7
        ([[mkAssetInfo [] (mkA 1 "x" none)]] ++ [] :: []) db8 = .error db7) :=
  ⟨by decide, by decide, by decide, by decide,
    group_failure_rollback (fun g => g.isEmpty)
      [[mkAssetRecord [] (mkA 1 "x" none)]] [] [] db3 (by decide) (by decide)
      (fun g => g.isEmpty) db7 [[mkAssetInfo [] (mkA 1 "x" none)]] [] [] db8
      (by decide) (by decide)⟩

/-- C5: after a completed pass no filing references a member id that was
deleted by the pass and no transaction references an asset id that was
deleted by the pass: cleanup_database preserves both reference forms and
run_cleanup preserves the transaction references. -/
theorem referential_integrity_after_cleanup (db : DB)
    (hndM : (db.members.map Member.member_id).Nodup)
    (hndA : (db.assets.map Asset.asset_id).Nodup) :
    (∀ f ∈ (cleanup_database db).filings,
      f.member_id ∈ db.members.map Member.member_id →
      f.member_id ∈ (cleanup_database db).members.map Member.member_id) ∧
    (∀ t ∈ (cleanup_database db).transactions,
      t.asset_id ∈ db.assets.map Asset.asset_id →
      t.asset_id ∈ (cleanup_database db).assets.map Asset.asset_id) ∧
    (∀ t ∈ (run_cleanup db).transactions,
      t.asset_id ∈ db.assets.map Asset.asset_id →
      t.asset_id ∈ (run_cleanup db).assets.map Asset.asset_id) := by
  refine ⟨?_, ?_, run_cleanup_ref_ok db⟩
  · intro f hf hmem
    have hf2 : f ∈ (cleanupMembers db).filings := by
      have he : (cleanup_database db).filings = (cleanupMembers db).filings :=
        dbCleanupAssets_filings _
      rw [← he]
      exact hf
    have hres := cleanupMembers_ref_ok db hndM f hf2 hmem
    show f.member_id ∈ (cleanup_database db).members.map Member.member_id
    rw [cleanup_database_members]
    exact hres
  · intro t ht hmem
    have hnd1 : ((cleanupMembers db).assets.map Asset.asset_id).Nodup := by
      rw [cleanupMembers_assets]
      exact hndA
    have hmem2 : t.asset_id ∈ (cleanupMembers db).assets.map Asset.asset_id := by
      rw [cleanupMembers_assets]
      exact hmem
    exact dbCleanupAssets_ref_ok (cleanupMembers db) hnd1 t ht hmem2

/-- C5 witness at a database with a member pair, a filing on the redundant
member, a ticker pair, and a transaction on the redundant asset. -/
theorem referential_integrity_after_cleanup_witness :
    (dbC5.members.map Member.member_id).Nodup ∧
    (dbC5.assets.map Asset.asset_id).Nodup ∧
    ((∀ f ∈ (cleanup_database dbC5).filings,
      f.member_id ∈ dbC5.members.map Member.member_id →
      f.member_id ∈ (cleanup_database dbC5).members.map Member.member_id) ∧
    (∀ t ∈ (cleanup_database dbC5).transactions,
      t.asset_id ∈ dbC5.assets.map Asset.asset_id →
      t.asset_id ∈ (cleanup_database dbC5).assets.map Asset.asset_id) ∧
    (∀ t ∈ (run_cleanup dbC5).transactions,
      t.asset_id ∈ dbC5.assets.map Asset.asset_id →
      t.asset_id ∈ (run_cleanup dbC5).assets.map Asset.asset_id)) :=
  ⟨by decide, by decide, referential_integrity_after_cleanup dbC5 (by decide) (by decide)⟩

/-- C7 counterexample: on the three Microsoft assets the pass does not
leave a single survivor: the ticker pair merges into id 2, but id 1 — no
ticker, classified by name, alone in its name group — survives, and its
transaction still points at id 1, under both implementations. -/
theorem microsoft_scenario_not_fully_merged :
    (cleanup_database db7).assets.map Asset.asset_id = [1, 2] ∧
    (cleanup_database db7).transactions.map Txn.asset_id = [1, 2, 2] ∧
    (run_cleanup db7).assets.map Asset.asset_id = [1, 2] ∧
    (run_cleanup db7).transactions.map Txn.asset_id = [1, 2, 2] := by decide

/-- C7 (amended): the MSFT ticker group {2, 3} merges into the single
asset id 2 with both of its transactions repointed there, while asset 1 is
classified other with no ticker, lands alone in its name group, and is
left untouched with its transaction — there is no secondary cross-group
name pass. -/
theorem microsoft_scenario_actual :
    classify_asset_type "Microsoft Corporation".data none = AssetType.other ∧
    (cleanup_database db7).assets.map Asset.asset_id = [1, 2] ∧
    (cleanup_database db7).transactions.map (fun t => (t.transaction_id, t.asset_id)) =
      [(101, 1), (102, 2), (103, 2)] ∧
    (run_cleanup db7).transactions.map (fun t => (t.transaction_id, t.asset_id)) =
      [(101, 1), (102, 2), (103, 2)] := by decide

/-- C8 counterexample: both treasury names classify as bond, but the date
pattern requires two separators, so 05/2025 is not collapsed: the
normalized keys differ and the two assets are not merged. -/
theorem treasury_bond_partial_date_no_merge :
    classify_asset_type "US Treasury Bond 2025".data none = AssetType.bond ∧
    classify_asset_type "U.S. Treasury Bond 05/2025".data none = AssetType.bond ∧
    normalize_company_name "US Treasury Bond 2025".data AssetType.bond ≠
      normalize_company_name "U.S. Treasury Bond 05/2025".data AssetType.bond ∧
    (run_cleanup db8).assets.map Asset.asset_id = [1, 2] := by decide

/-- C8 (amended): with a full two-separator date the bond normalization
collapses the date and the year to the same placeholders, the two keys
match, and the pass merges the two treasury assets into one with both
transactions repointed. -/
theorem treasury_bond_full_date_merge :
    classify_asset_type "U.S. Treasury Bond 05/15/2025".data none = AssetType.bond ∧
    normalize_company_name "US Treasury Bond 2025".data AssetType.bond =
      normalize_company_name "U.S. Treasury Bond 05/15/2025".data AssetType.bond ∧
    (run_cleanup db8f).assets.map Asset.asset_id = [2] ∧
    (run_cleanup db8f).transactions.map Txn.asset_id = [2, 2] := by decide

/-- C9 counterexample: a 102-character company name outweighs the
100-point transaction bonus in the additive score, so dbcleanup picks the
long-named asset id 2 while the lexicographic tuple of the enhanced
cleaner picks the transacted asset id 1. -/
theorem canonical_policies_disagree :
    (chooseCanonicalDb (ceAssets.map (mkAssetInfo ceTxns))).asset_id = 2 ∧
    (choose_canonical_asset (ceAssets.map (mkAssetRecord ceTxns))).asset_id = 1 := by decide

/-- C9 witness on the db7 assets, whose names and ids are in bounds. -/
theorem choose_align_witness :
    (∀ a ∈ db7.assets, (a.company_name.getD []).length ≤ 99 ∧ a.asset_id ≤ 999) ∧
    (chooseCanonicalDb (db7.assets.map (mkAssetInfo db7.transactions))).asset_id =
      (choose_canonical_asset (db7.assets.map (mkAssetRecord db7.transactions))).asset_id :=
  ⟨by decide, choose_align db7.transactions db7.assets (by decide)⟩

/-- C6 witness on a concrete senate and congress pair sharing the member
John Smith and the asset ticker AAPL. -/
theorem merge_databases_unifies_witness :
    (senateW.members.map Member.member_id).Nodup ∧
    (senateW.assets.map Asset.asset_id).Nodup ∧
    (∀ a ∈ congressW.assets, tickerOk a ∧ 1 ≤ a.asset_id) ∧
    (∀ a ∈ senateW.assets, tickerOk a ∧ 1 ≤ a.asset_id) ∧
    ((∀ m ∈ (merge_databases senateW congressW).members, m ∈ congressW.members ∨
      ∃ m0 ∈ senateW.members,
        m = { m0 with member_id := m0.member_id + (calculate_offsets congressW).members }) ∧
    (∀ a ∈ (merge_databases senateW congressW).assets, a ∈ congressW.assets ∨
      ∃ a0 ∈ senateW.assets,
        a = { a0 with asset_id := a0.asset_id + (calculate_offsets congressW).assets }) ∧
    (∀ f ∈ (merge_databases senateW congressW).filings,
      (∃ f0 ∈ congressW.filings, f.filing_id = f0.filing_id ∧ f.doc_id = f0.doc_id) ∨
      (∃ f0 ∈ senateW.filings,
        f.filing_id = f0.filing_id + (calculate_offsets congressW).filings ∧
        f.doc_id = f0.doc_id)) ∧
    (∀ t ∈ (merge_databases senateW congressW).transactions,
      (∃ t0 ∈ congressW.transactions,
        t.transaction_id = t0.transaction_id ∧ t.raw = t0.raw) ∨
      (∃ t0 ∈ senateW.transactions,
        t.transaction_id = t0.transaction_id + (calculate_offsets congressW).transactions ∧
        t.raw = t0.raw)) ∧
    (∀ cm ∈ congressW.members, ∀ sm ∈ senateW.members,
      memberKey cm.name = memberKey sm.name →
      ∃ rm, (merge_databases senateW congressW).members.filter
          (fun m => decide (memberKey m.name = memberKey cm.name)) = [rm] ∧
        rm ∈ congressW.members ∧
        ∀ sf ∈ senateW.filings, sf.member_id = sm.member_id →
          ∃ f2 ∈ (merge_databases senateW congressW).filings,
            f2.filing_id = sf.filing_id + (calculate_offsets congressW).filings ∧
            f2.member_id = rm.member_id ∧ f2.doc_id = sf.doc_id) ∧
    (∀ ca ∈ congressW.assets, ∀ sa ∈ senateW.assets, ∀ tc ts : List Char,
      ca.ticker = some tc → sa.ticker = some ts → ¬(pyStrip tc).isEmpty →
      pyStrip (pyUpper tc) = pyStrip (pyUpper ts) →
      ∃ ra, (merge_databases senateW congressW).assets.filter
          (fun x => decide (sqlTick x = some (pyUpper (pyStrip tc)))) = [ra] ∧
        ra ∈ congressW.assets ∧
        ∀ t ∈ senateW.transactions, t.asset_id = sa.asset_id →
          ∃ t2 ∈ (merge_databases senateW congressW).transactions,
            t2.transaction_id = t.transaction_id + (calculate_offsets congressW).transactions ∧
            t2.asset_id = ra.asset_id ∧ t2.raw = t.raw)) :=
  ⟨by decide, by decide, by decide, by decide,
    merge_databases_unifies senateW congressW (by decide) (by decide)
      (by decide) (by decide)⟩

/-- C10 witness: merging members 2 and 1 keeps Nancy Pelosi's row with the
senate profile of the higher id copied over — the null party included —
deletes row 2 and repoints its filing. -/
theorem merge_member_records_outcome_witness :
    (2 : Nat) ≠ 1 ∧
    (dbC10.members.map Member.member_id).Nodup ∧
    mP1 ∈ dbC10.members ∧
    mP1.member_id = min 2 1 ∧
    mP2 ∈ dbC10.members ∧
    mP2.member_id = max 2 1 ∧
    (∃ db2, merge_member_records dbC10 2 1 = .ok db2 ∧
      { mP1 with
        chamber := mP2.chamber
        party := mP2.party
        state := mP2.state
        photo_url := mP2.photo_url } ∈ db2.members ∧
      (∀ m ∈ db2.members, m.member_id ≠ max 2 1) ∧
      (∀ m ∈ dbC10.members, m.member_id ≠ min 2 1 → m.member_id ≠ max 2 1 →
        m ∈ db2.members) ∧
      db2.filings = dbC10.filings.map (fun f =>
        if f.member_id = max 2 1 then { f with member_id := min 2 1 } else f) ∧
      merge_member_records dbC10 1 2 = .ok db2) :=
  ⟨by decide, by decide, by decide, by decide, by decide, by decide,
    merge_member_records_outcome dbC10 2 1 (by decide) (by decide) mP1 mP2
      (by decide) (by decide) (by decide) (by decide)⟩

end CongressTrades

